import Mathlib

/-!
# HW1/main.cpp : raster image arithmetic and the PPM codec

A shallow embedding of `src/HW1/main.cpp`.

Modelling conventions

* A `float` channel is a rational (`ℚ`).  The result of `+`, `-` or `*` on
  floats is the exact result rounded to a `float`; the rounding is a parameter
  `fl : ℚ → ℚ` of the arithmetic operators, and `roundFloat` is the rounding of
  IEEE-754 binary32.  Infinities and NaN are not modelled.  The codec does no
  float arithmetic (a byte 0..255 is a `float`), and `gammacorrect` is stated
  over exact arithmetic with the library `pow` as a parameter.
* `unsigned int` is a `Nat` and every `unsigned int` product is reduced modulo
  `2^32`; `int` is an `Int` with the range `INT_MIN..INT_MAX`.
* A file is the list of its bytes (`Nat`, each below 256).  A file that cannot
  be opened is `none`.
* The pixel buffer `Rgb *pixels` is a `List`; the null pointer and a buffer of
  length zero are both `[]`.  An allocation never fails.
* A loop `for (int i = 0; i < n; ++i)` with an `unsigned int` bound `n` runs
  over the indices `0 .. n - 1` when `n ≤ INT_MAX`; with a larger `n` the
  counter leaves the range of `int` after the pass `i = INT_MAX` (`intLoop`).
* A read of a variable that was never stored, an access outside a buffer, a
  signed computation outside `int`, an exception that leaves the function, and
  a loop that never exits are results of type `Fault`.
* `operator *`, `operator +` and `operator -` yield, next to the image they
  return, their operands as they are after the call.
* Diagnostics written to `stderr` are values of type `Diag`; text written to
  `stdout` is not modelled.
-/

namespace HW1

/-! ## Data model -/

/-- The pixel type `Image::Rgb`: three `float` channels. -/
structure Image.Rgb where
  r : ℚ
  g : ℚ
  b : ℚ
deriving DecidableEq

/-- The class `Image`: `unsigned int w, h` and the buffer `Rgb *pixels`. -/
structure Image where
  w : Nat
  h : Nat
  pixels : List Image.Rgb
deriving DecidableEq

/-- Ways in which a run yields no value. -/
inductive Fault where
  /-- a variable is read before anything was stored in it -/
  | uninitialised
  /-- a buffer is indexed outside its allocation -/
  | outOfBounds
  /-- a signed integer computation leaves the range of `int` -/
  | overflow
  /-- an exception that no handler of the function catches -/
  | uncaught
  /-- the loop never exits -/
  | diverges
  /-- an `assert` fails and the process is aborted -/
  | assertion
deriving DecidableEq, Repr

/-- The messages the codec prints on `stderr`. -/
inductive Diag where
  /-- Message `Can't save an empty image` -/
  | cantSaveEmpty
  /-- Message `Can't open output file` -/
  | cantOpenOutput
  /-- Message `Can't open input file` -/
  | cantOpenInput
  /-- Message `Can't read input file: unknow P identifier.` -/
  | unknownIdentifier
deriving DecidableEq, Repr

/-- The counter of a loop `for (int i = 0; i < n; ++i)` whose bound `n` is an
`unsigned int`.  The comparison converts `i` to `unsigned int`, so the body runs
for `i = 0, 1, ...` below `n`: with `n ≤ INT_MAX` the loop ends after `n`
passes; with `n > INT_MAX` the passes `i = 0 .. INT_MAX` run and the `++i` that
follows leaves the range of `int`.  `passes k` is the outcome of the first `k`
passes of the body. -/
def intLoop {α : Type} (n : Nat) (passes : Nat → Except Fault α) : Except Fault α :=
  if n ≤ 2147483647 then passes n
  else
    match passes 2147483648 with
    | .ok _ => .error .overflow
    | .error e => .error e

/-! ## Float arithmetic -/

/-- The integer nearest to `q`; a tie goes to the even neighbour. -/
def roundEven (q : ℚ) : Int :=
  if q - ⌊q⌋ < 1 / 2 then ⌊q⌋
  else if 1 / 2 < q - ⌊q⌋ then ⌊q⌋ + 1
  else if ⌊q⌋ % 2 = 0 then ⌊q⌋ else ⌊q⌋ + 1

/-- Rounding of an exact result to a `float` as IEEE-754 binary32 arithmetic
does it: to the nearest number with 24 significant bits whose last bit is worth
at least `2^-149`, a tie going to the number with an even last bit.  A result
beyond the largest finite `float`, which the hardware turns into an infinity, is
outside the model. -/
def roundFloat (x : ℚ) : ℚ :=
  roundEven (x / 2 ^ (max (Int.log 2 |x|) (-126) - 23)) *
    2 ^ (max (Int.log 2 |x|) (-126) - 23)

namespace Image

/-- Constructor `Rgb(float c)`. -/
def Rgb.gray (c : ℚ) : Rgb := ⟨c, c, c⟩

/-- The constant `Image::kBlack = Rgb(0)`. -/
def kBlack : Rgb := Rgb.gray 0

/-- Model of `Rgb::operator +=`: each channel is the float sum `x + y`, rounded
by `fl`. -/
def Rgb.addAssign (fl : ℚ → ℚ) (p c : Rgb) : Rgb :=
  ⟨fl (p.r + c.r), fl (p.g + c.g), fl (p.b + c.b)⟩

/-- Model of `Rgb::operator -=`: each channel is `(x > y) ? x - y : 0`, the
difference being the float one, rounded by `fl`. -/
def Rgb.subAssign (fl : ℚ → ℚ) (p c : Rgb) : Rgb :=
  ⟨if p.r > c.r then fl (p.r - c.r) else 0,
   if p.g > c.g then fl (p.g - c.g) else 0,
   if p.b > c.b then fl (p.b - c.b) else 0⟩

/-- Model of `Rgb::operator *=` with a `float` argument: each channel is the
float product `x * scale`, rounded by `fl`. -/
def Rgb.mulAssign (fl : ℚ → ℚ) (p : Rgb) (scale : ℚ) : Rgb :=
  ⟨fl (p.r * scale), fl (p.g * scale), fl (p.b * scale)⟩

/-- The default constructor `Image()`: `w = h = 0`, `pixels = nullptr`. -/
def empty : Image := ⟨0, 0, []⟩

/-- The expression `w * h` on the `unsigned int` members. -/
def size (img : Image) : Nat := (img.w * img.h) % 4294967296

/-- The sized constructor `Image(w, h, c)`: `new Rgb[w * h]`, every entry `c`. -/
def sized (w h : Nat) (c : Rgb) : Image :=
  ⟨w, h, List.replicate ((w * h) % 4294967296) c⟩

/-- The `float` objects of a buffer in memory order: `r`, `g`, `b` of entry 0,
then of entry 1, and so on; an `Rgb` is 12 bytes, a `float` is 4. -/
def Rgb.floats : List Rgb → List ℚ
  | [] => []
  | p :: ps => p.r :: p.g :: p.b :: Rgb.floats ps

/-- The buffer whose `float` objects are the given ones, three to an entry. -/
def Rgb.ofFloats : List ℚ → List Rgb
  | r :: g :: b :: rest => ⟨r, g, b⟩ :: Rgb.ofFloats rest
  | _ => []

/-- Function `memcpy(dst, src, n)` on two `Rgb` buffers, for a byte count `n`
that is a multiple of 4: the buffer `dst` after the call, its first `n / 4`
floats being those of `src`.  A count beyond the end of either buffer is an
access outside it. -/
def memcpy (dst src : List Rgb) (n : Nat) : Except Fault (List Rgb) :=
  if n ≤ 12 * dst.length ∧ n ≤ 12 * src.length then
    .ok (Rgb.ofFloats ((Rgb.floats src).take (n / 4) ++ (Rgb.floats dst).drop (n / 4)))
  else .error .outOfBounds

/-- The copy constructor: `new Rgb[w * h]`, whose entries the default
constructor of `Rgb` sets to (0,0,0), then `memcpy` from the source buffer.
The length of the allocation is the `unsigned int` product; the byte count
`sizeof(Rgb) * w * h` is a product in `size_t` (64 bits), always a multiple
of 4. -/
def copy (img : Image) : Except Fault Image :=
  match memcpy (List.replicate img.size kBlack) img.pixels
      ((12 * img.w * img.h) % 18446744073709551616) with
  | .ok ps => .ok ⟨img.w, img.h, ps⟩
  | .error e => .error e

/-- The first `n` passes of a loop `for (i = 0; ...; ++i) ps[i] op= qs[i]`: the
first `n` entries of `ps` are updated from the entries of `qs` at the same
index, the rest of `ps` is kept.  Either buffer being shorter than `n` is an
out-of-range access. -/
def zipLoop (f : Rgb → Rgb → Rgb) : Nat → List Rgb → List Rgb → Except Fault (List Rgb)
  | 0, ps, _ => .ok ps
  | n + 1, p :: ps, q :: qs =>
    match zipLoop f n ps qs with
    | .ok out => .ok (f p q :: out)
    | .error e => .error e
  | _ + 1, _, _ => .error .outOfBounds

/-- The first `n` passes of a loop `for (i = 0; ...; ++i) ps[i] op= x`: the
first `n` entries of `ps` are updated, the rest is kept.  A buffer shorter than
`n` is an out-of-range access. -/
def mapLoop (f : Rgb → Rgb) : Nat → List Rgb → Except Fault (List Rgb)
  | 0, ps => .ok ps
  | n + 1, p :: ps =>
    match mapLoop f n ps with
    | .ok out => .ok (f p :: out)
    | .error e => .error e
  | _ + 1, [] => .error .outOfBounds

/-- Model of `Image::operator -=`: the receiver after the call.  The loop
`for (int i = 0; i < w * h; ++i) pixels[i] -= img[i]` has an `int` counter and
the `unsigned int` bound `w * h`. -/
def subAssign (fl : ℚ → ℚ) (self img : Image) : Except Fault Image :=
  match intLoop self.size (fun n => zipLoop (Rgb.subAssign fl) n self.pixels img.pixels) with
  | .ok ps => .ok { self with pixels := ps }
  | .error e => .error e

/-- Model of `Image::operator +=`: the receiver after the call; every pass of
the loop, which has an `int` counter and the `unsigned int` bound `w * h`, is
`pixels[i] += img[i]` followed by `pixels[i] *= 0.5`. -/
def addAssign (fl : ℚ → ℚ) (self img : Image) : Except Fault Image :=
  match intLoop self.size
      (fun n => zipLoop (fun p q => (p.addAssign fl q).mulAssign fl (1 / 2)) n
        self.pixels img.pixels) with
  | .ok ps => .ok { self with pixels := ps }
  | .error e => .error e

/-- Model of `Image::operator *`: `tmp` is a copy of the receiver, the loop
(`int` counter, `unsigned int` bound `w * h`) is `tmp[i] *= scale`.  The value
is the image returned and the receiver after the call, which the body does not
write to. -/
def mul (fl : ℚ → ℚ) (self : Image) (scale : ℚ) : Except Fault (Image × Image) :=
  match self.copy with
  | .error e => .error e
  | .ok tmp =>
    match intLoop self.size (fun n => mapLoop (fun p => p.mulAssign fl scale) n tmp.pixels) with
    | .ok ps => .ok ({ tmp with pixels := ps }, self)
    | .error e => .error e

/-- Model of `Image::operator +`: `tmp` is a copy of the receiver, the loop
(`int` counter, `unsigned int` bound `w * h`) is `tmp[i] += img[i]`.  The value
is the image returned, the receiver after the call and `img` after the call;
the body writes to neither operand. -/
def add (fl : ℚ → ℚ) (self img : Image) : Except Fault (Image × Image × Image) :=
  match self.copy with
  | .error e => .error e
  | .ok tmp =>
    match intLoop self.size (fun n => zipLoop (Rgb.addAssign fl) n tmp.pixels img.pixels) with
    | .ok ps => .ok ({ tmp with pixels := ps }, self, img)
    | .error e => .error e

/-- Model of `Image::operator -`: `tmp` is a copy of the receiver, the loop
(`int` counter, `unsigned int` bound `w * h`) is `tmp[i] -= img[i]`.  The value
is the image returned, the receiver after the call and `img` after the call;
the body writes to neither operand. -/
def sub (fl : ℚ → ℚ) (self img : Image) : Except Fault (Image × Image × Image) :=
  match self.copy with
  | .error e => .error e
  | .ok tmp =>
    match intLoop self.size (fun n => zipLoop (Rgb.subAssign fl) n tmp.pixels img.pixels) with
    | .ok ps => .ok ({ tmp with pixels := ps }, self, img)
    | .error e => .error e

end Image

/-! ## Machine integers and characters -/

/-- Constant `INT_MAX` of a 32-bit `int`. -/
def INT_MAX : Int := 2147483647

/-- Constant `INT_MIN` of a 32-bit `int`. -/
def INT_MIN : Int := -2147483648

/-- Conversion of an `int` to `unsigned int`. -/
def toUInt (v : Int) : Nat := (v % 4294967296).toNat

/-- Conversion of an integer to `unsigned char`. -/
def toUChar (v : Int) : Nat := (v % 256).toNat

/-- Model of `static_cast<unsigned char>(float)`: the fraction is dropped (rounding
toward zero) and the low eight bits of the integer are kept, which is the value
itself for a channel in `0 .. 255`.  Beyond that range the language leaves the
conversion undefined; the model takes what the conversion through a machine
integer gives. -/
def floatToUChar (v : ℚ) : Nat := toUChar (Int.tdiv v.num v.den)

/-- Model of `isspace` in the C locale. -/
def isspace (c : Nat) : Bool := c == 32 || (9 ≤ c && c ≤ 13)

/-- Model of `isdigit`. -/
def isdigit (c : Nat) : Bool := 48 ≤ c && c ≤ 57

/-- Value of a run of decimal digit characters, most significant first. -/
def digitsValue (ds : List Nat) : Nat := ds.foldl (fun acc d => 10 * acc + (d - 48)) 0

/-- Digit characters of `n`, least significant first. -/
def revDigits : Nat → Nat → List Nat
  | 0, _ => []
  | fuel + 1, n => (48 + n % 10) :: (if n < 10 then [] else revDigits fuel (n / 10))

/-- The characters `ofs << n` writes for an `unsigned int`. -/
def decimal (n : Nat) : List Nat := (revDigits (n + 1) n).reverse

/-- Result of `c_str()` as the C string functions see it: the bytes before the first NUL. -/
def cstr (s : List Nat) : List Nat := s.takeWhile (fun c => c != 0)

/-- Model of `atoi`: leading white space, an optional sign, then decimal digits; no
digits give 0.  A value outside `int` is undefined. -/
def atoi (s : List Nat) : Except Fault Int :=
  match (cstr s).dropWhile isspace with
  | [] => .ok 0
  | c :: rest =>
    let body := if c == 45 || c == 43 then rest else c :: rest
    let m : Int := digitsValue (body.takeWhile isdigit)
    let v : Int := if c == 45 then -m else m
    if INT_MIN ≤ v ∧ v ≤ INT_MAX then .ok v else .error .overflow

/-! ## Input stream (`std::ifstream`) -/

/-- The state of an input stream: the bytes not yet extracted and whether
`good()` holds (neither `eofbit` nor `failbit` is set).  Every extraction on a
stream that is not good sets `failbit` and stores nothing. -/
structure IStream where
  buf : List Nat
  good : Bool
deriving DecidableEq

namespace IStream

/-- Model of `is >> str` for a `std::string`: white space is skipped, then the run of
non-space characters replaces `str`.  Meeting the end of the file while
skipping leaves `str` as it was; meeting it while reading the run sets
`eofbit`. -/
def getString (s : IStream) (old : List Nat) : IStream × List Nat :=
  if s.good then
    match s.buf.dropWhile isspace with
    | [] => (⟨[], false⟩, old)
    | c :: cs =>
      let rest := (c :: cs).dropWhile (fun x => !isspace x)
      (⟨rest, !rest.isEmpty⟩, (c :: cs).takeWhile (fun x => !isspace x))
  else (s, old)

/-- Model of `is >> n` for an `int`; `none` is a variable that holds no value yet.
White space is skipped, then an optional sign and decimal digits are read.
No digit stores 0 and sets `failbit`; a value outside `int` stores the nearer
of `INT_MIN` and `INT_MAX` and sets `failbit`. -/
def getInt (s : IStream) (old : Option Int) : IStream × Option Int :=
  if s.good then
    match s.buf.dropWhile isspace with
    | [] => (⟨[], false⟩, old)
    | c :: cs =>
      let body := if c == 45 || c == 43 then cs else c :: cs
      let ds := body.takeWhile isdigit
      let rest := body.dropWhile isdigit
      if ds.isEmpty then (⟨rest, false⟩, some 0)
      else
        let m : Int := digitsValue ds
        let v : Int := if c == 45 then -m else m
        if v > INT_MAX then (⟨rest, false⟩, some INT_MAX)
        else if v < INT_MIN then (⟨rest, false⟩, some INT_MIN)
        else (⟨rest, !rest.isEmpty⟩, some v)
  else (s, old)

/-- Model of `is >> c` for an `unsigned char`: white space is skipped, then one
character is stored. -/
def getChar (s : IStream) (old : Option Nat) : IStream × Option Nat :=
  if s.good then
    match s.buf.dropWhile isspace with
    | [] => (⟨[], false⟩, old)
    | c :: cs => (⟨cs, true⟩, some c)
  else (s, old)

/-- The extraction loop of `ignore(n, delim)`: up to `n` characters are
discarded, stopping after the first `delim`. -/
def ignoreLoop (delim : Nat) : Nat → List Nat → IStream
  | 0, cs => ⟨cs, true⟩
  | _ + 1, [] => ⟨[], false⟩
  | n + 1, c :: cs => if c == delim then ⟨cs, true⟩ else ignoreLoop delim n cs

/-- Model of `is.ignore(n, delim)`. -/
def ignore (s : IStream) (n delim : Nat) : IStream :=
  if s.good then ignoreLoop delim n s.buf else s

/-- Model of `is.read(p, n)`: the characters stored at `p[0..]`, at most `n`; fewer
than `n` available sets `eofbit` and `failbit`. -/
def read (s : IStream) (n : Nat) : IStream × List Nat :=
  if s.good then (⟨s.buf.drop n, decide (n ≤ s.buf.length)⟩, s.buf.take n)
  else (s, [])

/-- Model of `getline(is, str)`: the characters up to the next newline replace `str`
and the newline is discarded. -/
def getline (s : IStream) (old : List Nat) : IStream × List Nat :=
  if s.good then
    match s.buf.dropWhile (fun c => c != 10) with
    | [] => (⟨[], false⟩, s.buf.takeWhile (fun c => c != 10))
    | _ :: rest => (⟨rest, true⟩, s.buf.takeWhile (fun c => c != 10))
  else (s, old)

end IStream

/-! ## `readPPM` -/

/-- Conversion of a byte to `float`. -/
def byteToFloat (c : Nat) : ℚ := (c : ℚ)

/-- The array `unsigned char pix[3]` after `read` stored `got` at its start. -/
def store (pix : List (Option Nat)) (got : List Nat) : List (Option Nat) :=
  got.map some ++ pix.drop got.length

/-- The pixel loop of the `P6` branch: `n` times `read(pix, 3)` and a pixel
made of `pix[0]`, `pix[1]`, `pix[2]`. -/
def loopP6 : Nat → IStream → List (Option Nat) → Except Fault (List Image.Rgb)
  | 0, _, _ => .ok []
  | n + 1, s, pix =>
    match store pix (s.read 3).2 with
    | [some r, some g, some b] =>
      match loopP6 n (s.read 3).1 [some r, some g, some b] with
      | .ok out => .ok (⟨byteToFloat r, byteToFloat g, byteToFloat b⟩ :: out)
      | .error e => .error e
    | _ => .error .uninitialised

/-- The pixel loop of the `P5` branch: `n` times `ifs >> pix` and a pixel with
`pix` in all three channels. -/
def loopP5 : Nat → IStream → Option Nat → Except Fault (List Image.Rgb)
  | 0, _, _ => .ok []
  | n + 1, s, pix =>
    match (s.getChar pix).2 with
    | some c =>
      match loopP5 n (s.getChar pix).1 (some c) with
      | .ok out => .ok (Image.Rgb.gray (byteToFloat c) :: out)
      | .error e => .error e
    | none => .error .uninitialised

/-- The part shared by the `P6` and `P5` branches: `ifs >> w >> h >> b`, the
assignments to `img.w` and `img.h`, `new Rgb[w * h]` on the `int` product,
`ifs.ignore(256, '\n')`, then the pixel loop given as `loop`. -/
def readBinary (loop : Nat → IStream → Except Fault (List Image.Rgb)) (s : IStream) :
    Except Fault Image :=
  let rw := s.getInt none
  let rh := rw.1.getInt none
  let rb := rh.1.getInt none
  match rw.2, rh.2 with
  | some w, some h =>
    if w * h < INT_MIN ∨ INT_MAX < w * h then .error .overflow
    else if w * h < 0 then .error .uncaught
    else
      match loop (w * h).toNat (rb.1.ignore 256 10) with
      | .ok ps => .ok ⟨toUInt w, toUInt h, ps⟩
      | .error e => .error e
  | _, _ => .error .uninitialised

/-- The comment loop of the plain-text branches:
`while (l1.substr(0,1) == "#") { getline(ifs, line); ifs >> l1; }`.
The result is the stream, `l1` and `line` at the exit.  Once the stream is not
good neither call changes `l1`, so a `#` token then never leaves the loop.
The first argument bounds the number of passes; `readPlain` gives more passes
than the stream has bytes and every pass on a good stream extracts one, so the
bound is never met (`skipComments_fuel`). -/
def skipComments : Nat → IStream → List Nat → List Nat →
    Except Fault (IStream × List Nat × List Nat)
  | 0, _, _, _ => .error .diverges
  | fuel + 1, s, l1, line =>
    if l1.head? = some 35 then
      if s.good then
        skipComments fuel ((s.getline line).1.getString l1).1
          ((s.getline line).1.getString l1).2 (s.getline line).2
      else .error .diverges
    else .ok (s, l1, line)

/-- One token of pixel data in the plain-text branches:
`ifs >> line; j = atoi(line.c_str());` with `j` an `unsigned char`.  The
result is the stream, `line` and `j`. -/
def readToken (s : IStream) (line : List Nat) : Except Fault (IStream × List Nat × Nat) :=
  match atoi (s.getString line).2 with
  | .ok v => .ok ((s.getString line).1, (s.getString line).2, toUChar v)
  | .error e => .error e

/-- The pixel loop of the `P3` branch: `n` times three tokens stored in
`pix[0]`, `pix[1]`, `pix[2]` and a pixel made of them. -/
def loopP3 : Nat → IStream → List Nat → Except Fault (List Image.Rgb)
  | 0, _, _ => .ok []
  | n + 1, s, line =>
    match readToken s line with
    | .error e => .error e
    | .ok (s1, line1, r) =>
      match readToken s1 line1 with
      | .error e => .error e
      | .ok (s2, line2, g) =>
        match readToken s2 line2 with
        | .error e => .error e
        | .ok (s3, line3, b) =>
          match loopP3 n s3 line3 with
          | .ok out => .ok (⟨byteToFloat r, byteToFloat g, byteToFloat b⟩ :: out)
          | .error e => .error e

/-- The pixel loop of the `P2` branch: `n` times one token stored in `pix` and
a pixel with `pix` in all three channels. -/
def loopP2 : Nat → IStream → List Nat → Except Fault (List Image.Rgb)
  | 0, _, _ => .ok []
  | n + 1, s, line =>
    match readToken s line with
    | .error e => .error e
    | .ok (s1, line1, v) =>
      match loopP2 n s1 line1 with
      | .ok out => .ok (Image.Rgb.gray (byteToFloat v) :: out)
      | .error e => .error e

/-- The part shared by the `P3` and `P2` branches: `ifs >> l1`, the comment
loop, `ifs >> l2 >> l3`, then `img.w = atoi(l1)` and `img.h = atoi(l1)`,
`new Rgb[img.w * img.h]` and the pixel loop given as `loop`. -/
def readPlain (loop : Nat → IStream → List Nat → Except Fault (List Image.Rgb))
    (s : IStream) : Except Fault Image :=
  let r1 := s.getString []
  match skipComments (s.buf.length + 2) r1.1 r1.2 [] with
  | .error e => .error e
  | .ok (s1, l1, line) =>
    let s3 := ((s1.getString []).1.getString []).1
    match atoi l1 with
    | .error e => .error e
    | .ok v =>
      let img : Image := ⟨toUInt v, toUInt v, []⟩
      match loop img.size s3 line with
      | .ok ps => .ok { img with pixels := ps }
      | .error e => .error e

/-- The function `readPPM`.  `file` is the content of the named file, `none`
when it cannot be opened.  The result is the returned image and the diagnostic
printed, if any. -/
def readPPM (file : Option (List Nat)) : Except Fault (Image × Option Diag) :=
  match file with
  | none => .ok (Image.empty, some .cantOpenInput)
  | some bytes =>
    let rh := IStream.getString ⟨bytes, true⟩ []
    if cstr rh.2 = [80, 54] then
      match readBinary (fun n s => loopP6 n s [none, none, none]) rh.1 with
      | .ok img => .ok (img, none)
      | .error e => .error e
    else if cstr rh.2 = [80, 53] then
      match readBinary (fun n s => loopP5 n s none) rh.1 with
      | .ok img => .ok (img, none)
      | .error e => .error e
    else if cstr rh.2 = [80, 51] then
      match readPlain loopP3 rh.1 with
      | .ok img => .ok (img, none)
      | .error e => .error e
    else if cstr rh.2 = [80, 50] then
      match readPlain loopP2 rh.1 with
      | .ok img => .ok (img, none)
      | .error e => .error e
    else .ok (Image.empty, some .unknownIdentifier)

/-! ## `savePPM` -/

/-- The byte written for one channel: `static_cast<unsigned char>(c) % 255`. -/
def channelByte (c : ℚ) : Nat := floatToUChar c % 255

/-- The first `n` passes of the body loop of `savePPM`: for `i < n` the three
bytes of `pixels[i]`. -/
def savePasses : Nat → List Image.Rgb → Except Fault (List Nat)
  | 0, _ => .ok []
  | _ + 1, [] => .error .outOfBounds
  | n + 1, p :: ps =>
    match savePasses n ps with
    | .ok out => .ok (channelByte p.r :: channelByte p.g :: channelByte p.b :: out)
    | .error e => .error e

/-- The body loop of `savePPM`, `for (int i = 0; i < img.w * img.h; ++i)`: an
`int` counter and the `unsigned int` bound `n`. -/
def saveLoop (n : Nat) (ps : List Image.Rgb) : Except Fault (List Nat) :=
  intLoop n (fun k => savePasses k ps)

/-- The header `"P6\n" << img.w << " " << img.h << "\n255\n"`. -/
def ppmHeader (img : Image) : List Nat :=
  [80, 54, 10] ++ decimal img.w ++ [32] ++ decimal img.h ++ [10, 50, 53, 53, 10]

/-- What a call of `savePPM` leaves behind: the content of the output file
(`none` when the file was never opened) and the diagnostic printed, if any. -/
structure Saved where
  file : Option (List Nat)
  diag : Option Diag
deriving DecidableEq

/-- The function `savePPM`; `canOpen` says whether `ofs.open` succeeds. -/
def savePPM (img : Image) (canOpen : Bool) : Except Fault Saved :=
  if img.w = 0 ∨ img.h = 0 then .ok ⟨none, some .cantSaveEmpty⟩
  else if canOpen then
    match saveLoop img.size img.pixels with
    | .ok body => .ok ⟨some (ppmHeader img ++ body), none⟩
    | .error e => .error e
  else .ok ⟨none, some .cantOpenOutput⟩

/-! ## Functions used to state results -/

/-- Pixels made of consecutive byte triples, as the `P6` pixel loop builds them. -/
def pixelsOfBytes : List Nat → List Image.Rgb
  | r :: g :: b :: rest => ⟨byteToFloat r, byteToFloat g, byteToFloat b⟩ :: pixelsOfBytes rest
  | _ => []

/-- The body bytes of a pixel list, three per pixel in buffer order, as the
body loop of `savePPM` writes them. -/
def bytesOfPixels : List Image.Rgb → List Nat
  | [] => []
  | p :: ps => channelByte p.r :: channelByte p.g :: channelByte p.b :: bytesOfPixels ps

/-- An image of `2^31` by 1 black pixels, as `Image(2147483648, 1)` builds it. -/
def wideImage : Image := Image.sized 2147483648 1 Image.kBlack


/-- The first image of the end-to-end scenario: 2 by 2 with the pixels
(0,0,0), (255,255,255), (10,20,30), (200,100,50). -/
def scenarioA : Image := ⟨2, 2, [⟨0, 0, 0⟩, ⟨255, 255, 255⟩, ⟨10, 20, 30⟩, ⟨200, 100, 50⟩]⟩

/-- The second image of the end-to-end scenario: 2 by 2, every pixel (50,50,50). -/
def scenarioB : Image := Image.sized 2 2 (Image.Rgb.gray 50)

/-- The true sum of the two scenario images. -/
def scenarioSum : Image := ⟨2, 2, [⟨50, 50, 50⟩, ⟨305, 305, 305⟩, ⟨60, 70, 80⟩, ⟨250, 150, 100⟩]⟩

/-- The header string of a file as `strcmp(header.c_str(), ...)` sees it after
`ifs >> header`: the first white-space delimited token, cut at a NUL byte. -/
def formatTag (bytes : List Nat) : List Nat :=
  cstr (IStream.getString ⟨bytes, true⟩ []).2

/-- The class invariant every constructor and both decoders establish: the
buffer holds `w * h` pixels, the product being the `unsigned int` one (for
fewer than `2^32` pixels it is the plain product). -/
def Image.Valid (img : Image) : Prop := img.pixels.length = img.size

/-- The bytes of a run of comment lines of a plain-text file.  Each entry is
the text after `#` up to the newline and the white space that follows the
newline. -/
def commentLines : List (List Nat × List Nat) → List Nat
  | [] => []
  | (text, ws) :: rest => 35 :: (text ++ 10 :: (ws ++ commentLines rest))

/-- The variable `line` after the comment loop ran over the comment lines:
what `getline` stored for the last of them, the part of its text that
`ifs >> l1` did not take. -/
def lineAfter : List (List Nat × List Nat) → List Nat → List Nat
  | [], line => line
  | (text, _) :: rest, _ => lineAfter rest (text.dropWhile (fun x => !isspace x))

/-- The bytes of a run of decimal data tokens, each preceded by white space. -/
def dataTokens : List (List Nat × Nat) → List Nat
  | [] => []
  | (ws, v) :: rest => ws ++ (decimal v ++ dataTokens rest)

/-- The state of the plain-text pixel loops on well-formed data: either the
stream is no longer good and `line` holds a numeral `atoi` accepts, or the
stream holds decimal data tokens (each at most `INT_MAX` and preceded by white
space) followed by white space only. -/
def TokenStream (s : IStream) (line : List Nat) : Prop :=
  (s.good = false ∧ ∃ v, atoi line = .ok v) ∨
  (s.good = true ∧ ∃ (toks : List (List Nat × Nat)) (tail : List Nat),
    s.buf = dataTokens toks ++ tail ∧ (∀ x ∈ tail, isspace x = true) ∧
    (∀ e ∈ toks, e.1 ≠ [] ∧ (∀ x ∈ e.1, isspace x = true) ∧ e.2 ≤ 2147483647) ∧
    (toks ≠ [] ∨ ∃ v, atoi line = .ok v))


/-! ## Further members of `Image` -/

/-- Model of `Rgb::operator !=`: `c.r != r && c.g != g && c.b != b`. -/
def Image.Rgb.ne (p c : Image.Rgb) : Bool := (c.r != p.r) && (c.g != p.g) && (c.b != p.b)

/-- The move constructor `Image(Image &&img)`: the new object and `img` after
the call. -/
def Image.moveCtor (img : Image) : Image × Image :=
  (⟨img.w, img.h, img.pixels⟩, ⟨0, 0, []⟩)

/-- The move assignment `operator = (Image &&img)`: the receiver and `img`
after the call.  `sameObject` says whether `this == &img`, in which case
nothing is done. -/
def Image.moveAssign (self img : Image) (sameObject : Bool) : Image × Image :=
  if sameObject then (self, self) else (⟨img.w, img.h, img.pixels⟩, ⟨0, 0, []⟩)

/-- Model of `Image::operator ()`: the assertion `x < w && y < h`, then the
entry at the `unsigned int` index `y * w + x`. -/
def Image.pixelAt (img : Image) (x y : Nat) : Except Fault Image.Rgb :=
  if x < img.w ∧ y < img.h then
    match img.pixels[(y * img.w + x) % 4294967296]? with
    | some p => .ok p
    | none => .error .outOfBounds
  else .error .assertion

/-- Conversion of an `unsigned int` to `int`: values from `2^31` on become
negative. -/
def toInt (n : Nat) : Int :=
  if n % 4294967296 < 2147483648 then ((n % 4294967296 : Nat) : Int)
  else ((n % 4294967296 : Nat) : Int) - 4294967296

/-- One channel of `gammacorrect`: `255.f * pow(c / 255.f, gamma)`, where `pow`
is the power function of the C library, taken as a parameter. -/
def gammaChannel (pow : ℚ → ℚ → ℚ) (gamma c : ℚ) : ℚ := 255 * pow (c / 255) gamma

/-- Model of `Image::gammacorrect`: `tmp` is `Image(img.w, img.h)`, the bound of
the loop is the product of the `int` copies of `img.w` and `img.h`, and the
loop stores the three corrected channels of `img.pixels[i]` in
`tmp.pixels[i]`. -/
def Image.gammacorrect (pow : ℚ → ℚ → ℚ) (img : Image) (gamma : ℚ) : Except Fault Image :=
  if toInt img.w * toInt img.h < INT_MIN ∨ INT_MAX < toInt img.w * toInt img.h then
    .error .overflow
  else
    match Image.zipLoop
        (fun _ p => ⟨gammaChannel pow gamma p.r, gammaChannel pow gamma p.g,
          gammaChannel pow gamma p.b⟩)
        (toInt img.w * toInt img.h).toNat
        (Image.sized img.w img.h Image.kBlack).pixels img.pixels with
    | .ok ps => .ok { Image.sized img.w img.h Image.kBlack with pixels := ps }
    | .error e => .error e

/-- Model of `Image::alphacompo`: `tmp` is `Image(img_F.w, img_F.h)` and
receives `img_F * alpha + img_B * (1 - alpha)` by move assignment; `1 - alpha`
is a float difference, rounded by `fl`. -/
def Image.alphacompo (fl : ℚ → ℚ) (imgF imgB : Image) (alpha : ℚ) : Except Fault Image :=
  match imgF.mul fl alpha with
  | .error e => .error e
  | .ok t1 =>
    match imgB.mul fl (fl (1 - alpha)) with
    | .error e => .error e
    | .ok t2 =>
      match t1.1.add fl t2.1 with
      | .error e => .error e
      | .ok t3 => .ok ((Image.sized imgF.w imgF.h Image.kBlack).moveAssign t3.1 false).1

/-- A power function that agrees with the real power wherever the results
below use it: integer exponents, base 0 and base 1.  Elsewhere the real power
need not be rational and the value is a placeholder. -/
def powSample (x g : ℚ) : ℚ :=
  if g.den = 1 then x ^ g.num else if x = 0 then 0 else if x = 1 then 1 else x

/-- An image of `2^31` by 1 white pixels, as `Image(2147483648, 1, Rgb(255))`
builds it. -/
def whiteWide : Image := Image.sized 2147483648 1 (Image.Rgb.gray 255)

/-- An image of 3000000000 by 1 black pixels, as `Image(3000000000, 1)` builds
it. -/
def hugeImage : Image := Image.sized 3000000000 1 Image.kBlack

/-- An image of 65536 by 65536 pixels, as `Image(65536, 65536)` builds it: the
`unsigned int` product is 0 and so is the length of the buffer. -/
def squareImage : Image := Image.sized 65536 65536 Image.kBlack

/-- Every channel in the buffer is a `float`: the rounding `fl` leaves it
unchanged. -/
def Image.IsFloat (fl : ℚ → ℚ) (img : Image) : Prop :=
  ∀ p ∈ img.pixels, fl p.r = p.r ∧ fl p.g = p.g ∧ fl p.b = p.b

/-- An image of 65536 by 65537 pixels, `2^32 + 65536` in all: the first is
(1,1,1), all others are black. -/
def tallImage : Image :=
  ⟨65536, 65537, Image.Rgb.gray 1 :: List.replicate 4295032831 Image.kBlack⟩

/-! ## Loop counters -/

theorem intLoop_le {α : Type} {n : Nat} (passes : Nat → Except Fault α)
    (h : n ≤ 2147483647) : intLoop n passes = passes n := by
  simp only [intLoop, if_pos h]

theorem intLoop_overflow {α : Type} {n : Nat} (passes : Nat → Except Fault α)
    (h : 2147483647 < n) (hp : ∃ a, passes 2147483648 = .ok a) :
    intLoop n passes = .error .overflow := by
  obtain ⟨a, ha⟩ := hp
  simp only [intLoop, if_neg (Nat.not_le.mpr h), ha]

/-! ## Rounding to `float` -/

theorem roundEven_intCast (z : Int) : roundEven (z : ℚ) = z := by
  simp [roundEven]

theorem roundFloat_zero : roundFloat 0 = 0 := by
  simp [roundFloat, roundEven]

/-- A number `m * 2^e` with `|m| < 2^24` and `e ≥ -149` is a `float`. -/
theorem roundFloat_mantissa (m e : Int) (hm : |m| < 16777216) (he : -149 ≤ e) :
    roundFloat ((m : ℚ) * 2 ^ e) = (m : ℚ) * 2 ^ e := by
  rcases eq_or_ne m 0 with rfl | hm0
  · simp [roundFloat_zero]
  · have hx : (0 : ℚ) < |(m : ℚ) * 2 ^ e| := by
      apply abs_pos.mpr
      exact mul_ne_zero (by exact_mod_cast hm0) (zpow_ne_zero _ (by norm_num))
    have h2 : (0 : ℚ) < 2 ^ e := zpow_pos (by norm_num) e
    have hlt : |(m : ℚ) * 2 ^ e| < ((2 : Nat) : ℚ) ^ (24 + e) := by
      rw [abs_mul, abs_of_pos h2, zpow_add₀ (by norm_num)]
      apply mul_lt_mul_of_pos_right _ h2
      have : |(m : ℚ)| < 16777216 := by exact_mod_cast hm
      calc |(m : ℚ)| < 16777216 := this
        _ = ((2 : Nat) : ℚ) ^ (24 : Int) := by norm_num
    have hL : Int.log 2 |(m : ℚ) * 2 ^ e| < 24 + e :=
      (Int.lt_zpow_iff_log_lt (by norm_num) hx).mp hlt
    have hk : max (Int.log 2 |(m : ℚ) * 2 ^ e|) (-126) - 23 ≤ e := by
      rcases max_cases (Int.log 2 |(m : ℚ) * 2 ^ e|) (-126) with ⟨h, -⟩ | ⟨h, -⟩ <;> omega
    unfold roundFloat
    generalize max (Int.log 2 |(m : ℚ) * 2 ^ e|) (-126) - 23 = k at hk ⊢
    obtain ⟨d, hd⟩ : ∃ d : Nat, e = k + d := ⟨(e - k).toNat, by omega⟩
    have hk0 : (2 : ℚ) ^ k ≠ 0 := zpow_ne_zero _ (by norm_num)
    have hq : (m : ℚ) * 2 ^ e / 2 ^ k = ((m * 2 ^ d : Int) : ℚ) := by
      rw [hd, zpow_add₀ (by norm_num), zpow_natCast]
      field_simp
      ring
    rw [hq, roundEven_intCast, hd, zpow_add₀ (by norm_num), zpow_natCast]
    push_cast
    ring

theorem roundFloat_natCast {n : Nat} (h : n < 16777216) : roundFloat (n : ℚ) = n := by
  have := roundFloat_mantissa (n : Int) 0 (by rw [abs_of_nonneg (by omega)]; omega) (by decide)
  simpa using this

theorem roundFloat_nonneg (z : ℚ) (h : 0 ≤ z) : 0 ≤ roundFloat z := by
  unfold roundFloat
  have hu : (0 : ℚ) < 2 ^ (max (Int.log 2 |z|) (-126) - 23) := zpow_pos (by norm_num) _
  apply mul_nonneg _ hu.le
  have hq : 0 ≤ z / 2 ^ (max (Int.log 2 |z|) (-126) - 23) := div_nonneg h hu.le
  have hf : 0 ≤ ⌊z / 2 ^ (max (Int.log 2 |z|) (-126) - 23)⌋ := Int.floor_nonneg.mpr hq
  have : 0 ≤ roundEven (z / 2 ^ (max (Int.log 2 |z|) (-126) - 23)) := by
    unfold roundEven
    split_ifs <;> omega
  exact_mod_cast this

theorem roundFloat_nonpos (z : ℚ) (h : z ≤ 0) : roundFloat z ≤ 0 := by
  unfold roundFloat
  have hu : (0 : ℚ) < 2 ^ (max (Int.log 2 |z|) (-126) - 23) := zpow_pos (by norm_num) _
  apply mul_nonpos_of_nonpos_of_nonneg _ hu.le
  have hq : z / 2 ^ (max (Int.log 2 |z|) (-126) - 23) ≤ 0 := div_nonpos_of_nonpos_of_nonneg h hu.le
  generalize z / 2 ^ (max (Int.log 2 |z|) (-126) - 23) = q at hq
  have hf : ⌊q⌋ ≤ 0 := by
    have := Int.floor_le q
    have h1 : ((⌊q⌋ : Int) : ℚ) ≤ 0 := le_trans this hq
    exact_mod_cast h1
  have : roundEven q ≤ 0 := by
    unfold roundEven
    rcases eq_or_lt_of_le hf with h0 | hneg
    · have hq0 : q = 0 := by
        have h1 := Int.floor_le q
        rw [h0] at h1
        exact le_antisymm hq (by simpa using h1)
      subst hq0
      simp
    · split_ifs <;> omega
  exact_mod_cast this

/-- The rounding of a number of the binade `2^L ≤ |x| < 2^(L+1)`. -/
theorem roundFloat_binade (x : ℚ) (L : Int) (h1 : (2 : ℚ) ^ L ≤ |x|) (h2 : |x| < 2 ^ (L + 1))
    (hL : -126 ≤ L) : roundFloat x = roundEven (x / 2 ^ (L - 23)) * 2 ^ (L - 23) := by
  have hx : (0 : ℚ) < |x| := lt_of_lt_of_le (zpow_pos (by norm_num) L) h1
  have ha : L ≤ Int.log 2 |x| :=
    (Int.zpow_le_iff_le_log (by norm_num) hx).mp (by exact_mod_cast h1)
  have hb : Int.log 2 |x| < L + 1 :=
    (Int.lt_zpow_iff_log_lt (by norm_num) hx).mp (by exact_mod_cast h2)
  have hlog : Int.log 2 |x| = L := by omega
  unfold roundFloat
  rw [hlog, max_eq_left hL]

/-- The `float` nearest to 1.3, the value of the literal `1.3f`. -/
theorem roundFloat_13_10 : roundFloat (13 / 10) = 5452595 / 4194304 := by
  rw [roundFloat_binade (13 / 10) 0 (by rw [abs_of_pos (by norm_num)]; norm_num)
    (by rw [abs_of_pos (by norm_num)]; norm_num) (by decide)]
  have hf : ⌊(13 / 10 : ℚ) / 2 ^ ((0 : Int) - 23)⌋ = 10905190 := by
    rw [Int.floor_eq_iff]; norm_num
  simp only [roundEven, hf]
  norm_num

/-- The float product `10 * 1.3f` is 13: the exact product lies half way
between two floats and goes to the even one. -/
theorem roundFloat_ten_times : roundFloat (10 * (5452595 / 4194304)) = 13 := by
  rw [roundFloat_binade (10 * (5452595 / 4194304)) 3 (by rw [abs_of_pos (by norm_num)]; norm_num)
    (by rw [abs_of_pos (by norm_num)]; norm_num) (by decide)]
  have hf : ⌊(10 * (5452595 / 4194304) : ℚ) / 2 ^ ((3 : Int) - 23)⌋ = 13631487 := by
    rw [Int.floor_eq_iff]; norm_num
  simp only [roundEven, hf]
  norm_num

/-! ## The copy constructor -/

theorem floats_length (ps : List Image.Rgb) :
    (Image.Rgb.floats ps).length = 3 * ps.length := by
  induction ps with
  | nil => rfl
  | cons p ps ih => simp only [Image.Rgb.floats, List.length_cons, ih]; omega

theorem ofFloats_floats (ps : List Image.Rgb) :
    Image.Rgb.ofFloats (Image.Rgb.floats ps) = ps := by
  induction ps with
  | nil => rfl
  | cons p ps ih => simp only [Image.Rgb.floats, Image.Rgb.ofFloats, ih]

/-- A `memcpy` of the whole source into a buffer of the same length. -/
theorem memcpy_all (dst src : List Image.Rgb) (h : dst.length = src.length) :
    Image.memcpy dst src (12 * src.length) = .ok src := by
  have h4 : 12 * src.length / 4 = 3 * src.length := by omega
  have ht : (Image.Rgb.floats src).take (3 * src.length) = Image.Rgb.floats src :=
    List.take_of_length_le (by rw [floats_length])
  have hd : (Image.Rgb.floats dst).drop (3 * src.length) = [] :=
    List.drop_of_length_le (by rw [floats_length, h])
  simp only [Image.memcpy, h, le_refl, and_self, if_true, h4, ht, hd, List.append_nil,
    ofFloats_floats]

theorem valid_size {a : Image} (h : a.Valid) : a.size = a.pixels.length := by
  unfold Image.Valid at h; exact h.symm

theorem size_eq_of_lt {img : Image} (h : img.w * img.h < 4294967296) :
    img.size = img.w * img.h := Nat.mod_eq_of_lt h

/-- The copy of an image that satisfies the class invariant and has fewer than
`2^32` pixels is the image. -/
theorem copy_of_valid (img : Image) (h : img.Valid) (hlt : img.w * img.h < 4294967296) :
    img.copy = .ok img := by
  have hs : img.size = img.pixels.length := valid_size h
  have hb : (12 * img.w * img.h) % 18446744073709551616 = 12 * img.pixels.length := by
    rw [← hs, size_eq_of_lt hlt, Nat.mul_assoc]
    exact Nat.mod_eq_of_lt (by omega)
  rw [Image.copy, hb, memcpy_all _ _ (by rw [List.length_replicate, hs])]

/-- The copy constructor on `Image(65536, 65536)`: the `memcpy` of `12 * 2^32`
bytes runs over the end of both buffers, which have no entry. -/
theorem copy_squareImage : squareImage.copy = .error .outOfBounds := by
  rfl

/-! ## The pixel loops -/

theorem zipLoop_ok (f : Image.Rgb → Image.Rgb → Image.Rgb) :
    ∀ (ps qs : List Image.Rgb), ps.length = qs.length →
      Image.zipLoop f ps.length ps qs = .ok (List.zipWith f ps qs) := by
  intro ps
  induction ps with
  | nil => intro qs _; simp [Image.zipLoop]
  | cons p ps ih =>
    intro qs h
    match qs, h with
    | q :: qs, h =>
      have h' : ps.length = qs.length := by simpa using h
      simp [Image.zipLoop, ih qs h']
    | [], h => simp at h

theorem zipLoop_passes (f : Image.Rgb → Image.Rgb → Image.Rgb) (n : Nat) :
    ∀ (ps qs : List Image.Rgb), n ≤ ps.length → n ≤ qs.length →
      ∃ out, Image.zipLoop f n ps qs = .ok out := by
  induction n with
  | zero => intro ps qs _ _; exact ⟨ps, rfl⟩
  | succ k ih =>
    intro ps qs hp hq
    match ps, qs, hp, hq with
    | p :: ps, q :: qs, hp, hq =>
      obtain ⟨out, ho⟩ := ih ps qs (by simpa using hp) (by simpa using hq)
      exact ⟨f p q :: out, by simp [Image.zipLoop, ho]⟩
    | [], _, hp, _ => simp at hp
    | _ :: _, [], _, hq => simp at hq

theorem mapLoop_ok (f : Image.Rgb → Image.Rgb) :
    ∀ ps : List Image.Rgb, Image.mapLoop f ps.length ps = .ok (ps.map f) := by
  intro ps
  induction ps with
  | nil => rfl
  | cons p ps ih => simp [Image.mapLoop, ih]

theorem mapLoop_passes (f : Image.Rgb → Image.Rgb) (n : Nat) :
    ∀ ps : List Image.Rgb, n ≤ ps.length → ∃ out, Image.mapLoop f n ps = .ok out := by
  induction n with
  | zero => intro ps _; exact ⟨ps, rfl⟩
  | succ k ih =>
    intro ps hp
    match ps, hp with
    | p :: ps, hp =>
      obtain ⟨out, ho⟩ := ih ps (by simpa using hp)
      exact ⟨f p :: out, by simp [Image.mapLoop, ho]⟩
    | [], hp => simp at hp

theorem hugeImage_w : hugeImage.w = 3000000000 := rfl

theorem hugeImage_h : hugeImage.h = 1 := rfl

theorem hugeImage_length : hugeImage.pixels.length = 3000000000 := by
  show (List.replicate ((3000000000 * 1) % 4294967296) Image.kBlack).length = 3000000000
  rw [List.length_replicate]

theorem hugeImage_size : hugeImage.size = 3000000000 := by
  rw [Image.size, hugeImage_w, hugeImage_h]

theorem hugeImage_copy : hugeImage.copy = .ok hugeImage :=
  copy_of_valid hugeImage (by rw [Image.Valid, hugeImage_length, hugeImage_size])
    (by rw [hugeImage_w, hugeImage_h]; decide)

/-! ## The arithmetic operators -/

theorem size_le_of_bound {a : Image} (hsz : a.w * a.h ≤ 2147483647) : a.size ≤ 2147483647 := by
  rw [size_eq_of_lt (by omega)]; exact hsz

theorem same_size {a b : Image} (hw : a.w = b.w) (hh : a.h = b.h) : a.size = b.size := by
  simp [Image.size, hw, hh]

theorem same_length {a b : Image} (hw : a.w = b.w) (hh : a.h = b.h)
    (ha : a.Valid) (hb : b.Valid) : a.pixels.length = b.pixels.length := by
  rw [← valid_size ha, ← valid_size hb, same_size hw hh]

theorem zipLoop_valid (f : Image.Rgb → Image.Rgb → Image.Rgb) {a b : Image}
    (hw : a.w = b.w) (hh : a.h = b.h) (ha : a.Valid) (hb : b.Valid) :
    Image.zipLoop f a.size a.pixels b.pixels = .ok (List.zipWith f a.pixels b.pixels) := by
  rw [valid_size ha]
  exact zipLoop_ok f a.pixels b.pixels (same_length hw hh ha hb)

/-- The loop of a binary operator on two images of identical dimensions and
at most `2^31 - 1` pixels makes one pass for every pixel. -/
theorem intLoop_zip (f : Image.Rgb → Image.Rgb → Image.Rgb) {a b : Image}
    (hw : a.w = b.w) (hh : a.h = b.h) (ha : a.Valid) (hb : b.Valid)
    (hsz : a.w * a.h ≤ 2147483647) :
    intLoop a.size (fun n => Image.zipLoop f n a.pixels b.pixels) =
      .ok (List.zipWith f a.pixels b.pixels) := by
  rw [intLoop_le _ (size_le_of_bound hsz)]
  exact zipLoop_valid f hw hh ha hb

theorem addAssign_ok (fl : ℚ → ℚ) {a b : Image} (hw : a.w = b.w) (hh : a.h = b.h)
    (ha : a.Valid) (hb : b.Valid) (hsz : a.w * a.h ≤ 2147483647) :
    a.addAssign fl b = .ok ⟨a.w, a.h,
      List.zipWith (fun p q => (p.addAssign fl q).mulAssign fl (1 / 2)) a.pixels b.pixels⟩ := by
  simp only [Image.addAssign, intLoop_zip _ hw hh ha hb hsz]

theorem subAssign_ok (fl : ℚ → ℚ) {a b : Image} (hw : a.w = b.w) (hh : a.h = b.h)
    (ha : a.Valid) (hb : b.Valid) (hsz : a.w * a.h ≤ 2147483647) :
    a.subAssign fl b =
      .ok ⟨a.w, a.h, List.zipWith (Image.Rgb.subAssign fl) a.pixels b.pixels⟩ := by
  simp only [Image.subAssign, intLoop_zip _ hw hh ha hb hsz]

theorem add_ok (fl : ℚ → ℚ) {a b : Image} (hw : a.w = b.w) (hh : a.h = b.h)
    (ha : a.Valid) (hb : b.Valid) (hsz : a.w * a.h ≤ 2147483647) :
    a.add fl b =
      .ok (⟨a.w, a.h, List.zipWith (Image.Rgb.addAssign fl) a.pixels b.pixels⟩, a, b) := by
  simp only [Image.add, copy_of_valid a ha (by omega), intLoop_zip _ hw hh ha hb hsz]

theorem sub_ok (fl : ℚ → ℚ) {a b : Image} (hw : a.w = b.w) (hh : a.h = b.h)
    (ha : a.Valid) (hb : b.Valid) (hsz : a.w * a.h ≤ 2147483647) :
    a.sub fl b =
      .ok (⟨a.w, a.h, List.zipWith (Image.Rgb.subAssign fl) a.pixels b.pixels⟩, a, b) := by
  simp only [Image.sub, copy_of_valid a ha (by omega), intLoop_zip _ hw hh ha hb hsz]

theorem mul_ok (fl : ℚ → ℚ) {a : Image} (ha : a.Valid) (hsz : a.w * a.h ≤ 2147483647) (s : ℚ) :
    a.mul fl s = .ok (⟨a.w, a.h, a.pixels.map (fun p => p.mulAssign fl s)⟩, a) := by
  have hloop : intLoop a.size (fun n => Image.mapLoop (fun p => p.mulAssign fl s) n a.pixels) =
      .ok (a.pixels.map (fun p => p.mulAssign fl s)) := by
    rw [intLoop_le _ (size_le_of_bound hsz), valid_size ha, mapLoop_ok]
  simp only [Image.mul, copy_of_valid a ha (by omega), hloop]

theorem sized_valid (w h : Nat) (c : Image.Rgb) : (Image.sized w h c).Valid := by
  simp [Image.Valid, Image.sized, Image.size]

theorem getElem?_zipWith_some {f : Image.Rgb → Image.Rgb → Image.Rgb}
    {ps qs : List Image.Rgb} {i : Nat} {p q : Image.Rgb}
    (hp : ps[i]? = some p) (hq : qs[i]? = some q) :
    (List.zipWith f ps qs)[i]? = some (f p q) := by
  simp only [List.getElem?_zipWith, hp, hq, Option.map_some', Option.bind_some]

theorem valid_mk {w h : Nat} {ps qs : List Image.Rgb} (hv : Image.Valid ⟨w, h, ps⟩)
    (hl : qs.length = ps.length) : Image.Valid ⟨w, h, qs⟩ := by
  unfold Image.Valid at hv ⊢
  simpa [Image.size, hl] using hv

theorem zipWith_valid (f : Image.Rgb → Image.Rgb → Image.Rgb) {a b : Image}
    (hw : a.w = b.w) (hh : a.h = b.h) (ha : a.Valid) (hb : b.Valid) :
    Image.Valid ⟨a.w, a.h, List.zipWith f a.pixels b.pixels⟩ :=
  @valid_mk a.w a.h a.pixels _ ha (by simp [List.length_zipWith, same_length hw hh ha hb])

theorem mul_valid (fl : ℚ → ℚ) {a : Image} (ha : a.Valid) (s : ℚ) :
    Image.Valid ⟨a.w, a.h, a.pixels.map (fun p => p.mulAssign fl s)⟩ := by
  unfold Image.Valid at ha ⊢
  simpa [Image.size] using ha

theorem alphacompo_ok (fl : ℚ → ℚ) {f b : Image} (hw : f.w = b.w) (hh : f.h = b.h)
    (hf : f.Valid) (hb : b.Valid) (hsz : f.w * f.h ≤ 2147483647) (alpha : ℚ) :
    Image.alphacompo fl f b alpha = .ok ⟨f.w, f.h,
      List.zipWith
        (fun p q => (p.mulAssign fl alpha).addAssign fl (q.mulAssign fl (fl (1 - alpha))))
        f.pixels b.pixels⟩ := by
  have hszb : b.w * b.h ≤ 2147483647 := by rw [← hw, ← hh]; exact hsz
  have h3 := add_ok fl (a := ⟨f.w, f.h, f.pixels.map (fun p => p.mulAssign fl alpha)⟩)
    (b := ⟨b.w, b.h, b.pixels.map (fun p => p.mulAssign fl (fl (1 - alpha)))⟩) hw hh
    (mul_valid fl hf alpha) (mul_valid fl hb (fl (1 - alpha))) hsz
  simp only [Image.alphacompo, mul_ok fl hf hsz alpha, mul_ok fl hb hszb (fl (1 - alpha)), h3,
    Image.moveAssign, Bool.false_eq_true, if_false, List.zipWith_map]

theorem map_const_replicate (ps : List Image.Rgb) (c : Image.Rgb) :
    ps.map (fun _ => c) = List.replicate ps.length c := by
  induction ps with
  | nil => rfl
  | cons p ps ih => simp [List.replicate_succ, ih]

theorem map_id_of_forall (g : Image.Rgb → Image.Rgb) :
    ∀ ps : List Image.Rgb, (∀ p ∈ ps, g p = p) → ps.map g = ps := by
  intro ps
  induction ps with
  | nil => intro _; rfl
  | cons p ps ih =>
    intro h
    rw [List.map_cons, h p (List.mem_cons_self _ _),
      ih (fun q hq => h q (List.mem_cons_of_mem _ hq))]

/-- On the two buffers of images of `3000000000` pixels the loop of a binary
operator makes the passes `0 .. INT_MAX`; the next `++i` overflows. -/
theorem intLoop_zip_huge (f : Image.Rgb → Image.Rgb → Image.Rgb) (ps qs : List Image.Rgb)
    (hp : ps.length = 3000000000) (hq : qs.length = 3000000000) :
    intLoop 3000000000 (fun n => Image.zipLoop f n ps qs) = .error .overflow :=
  intLoop_overflow _ (by decide)
    (zipLoop_passes f 2147483648 ps qs (by rw [hp]; decide) (by rw [hq]; decide))

theorem addAssign_fault (fl : ℚ → ℚ) (self img : Image) (e : Fault)
    (h : intLoop self.size
      (fun n => Image.zipLoop (fun p q => (p.addAssign fl q).mulAssign fl (1 / 2)) n
        self.pixels img.pixels) = .error e) :
    self.addAssign fl img = .error e := by
  unfold Image.addAssign
  rw [h]

theorem subAssign_fault (fl : ℚ → ℚ) (self img : Image) (e : Fault)
    (h : intLoop self.size
      (fun n => Image.zipLoop (Image.Rgb.subAssign fl) n self.pixels img.pixels) = .error e) :
    self.subAssign fl img = .error e := by
  unfold Image.subAssign
  rw [h]

theorem add_fault (fl : ℚ → ℚ) (self img : Image) (e : Fault) (hc : self.copy = .ok self)
    (h : intLoop self.size
      (fun n => Image.zipLoop (Image.Rgb.addAssign fl) n self.pixels img.pixels) = .error e) :
    self.add fl img = .error e := by
  unfold Image.add
  rw [hc]
  simp only [h]

theorem sub_fault (fl : ℚ → ℚ) (self img : Image) (e : Fault) (hc : self.copy = .ok self)
    (h : intLoop self.size
      (fun n => Image.zipLoop (Image.Rgb.subAssign fl) n self.pixels img.pixels) = .error e) :
    self.sub fl img = .error e := by
  unfold Image.sub
  rw [hc]
  simp only [h]

theorem mul_fault (fl : ℚ → ℚ) (self : Image) (s : ℚ) (e : Fault) (hc : self.copy = .ok self)
    (h : intLoop self.size
      (fun n => Image.mapLoop (fun p => p.mulAssign fl s) n self.pixels) = .error e) :
    self.mul fl s = .error e := by
  unfold Image.mul
  rw [hc]
  simp only [h]

theorem copy_fault_mul (fl : ℚ → ℚ) (self : Image) (s : ℚ) (e : Fault)
    (hc : self.copy = .error e) : self.mul fl s = .error e := by
  unfold Image.mul
  rw [hc]

theorem copy_fault_add (fl : ℚ → ℚ) (self img : Image) (e : Fault)
    (hc : self.copy = .error e) : self.add fl img = .error e := by
  unfold Image.add
  rw [hc]

theorem copy_fault_sub (fl : ℚ → ℚ) (self img : Image) (e : Fault)
    (hc : self.copy = .error e) : self.sub fl img = .error e := by
  unfold Image.sub
  rw [hc]

theorem mul_fault_alphacompo (fl : ℚ → ℚ) (imgF imgB : Image) (alpha : ℚ) (e : Fault)
    (h : imgF.mul fl alpha = .error e) : Image.alphacompo fl imgF imgB alpha = .error e := by
  unfold Image.alphacompo
  rw [h]

theorem intLoop_huge_size (f : Image.Rgb → Image.Rgb → Image.Rgb) :
    intLoop hugeImage.size (fun n => Image.zipLoop f n hugeImage.pixels hugeImage.pixels) =
      .error .overflow := by
  rw [hugeImage_size]
  exact intLoop_zip_huge _ _ _ hugeImage_length hugeImage_length

theorem addAssign_huge (fl : ℚ → ℚ) : hugeImage.addAssign fl hugeImage = .error .overflow :=
  addAssign_fault fl _ _ _ (intLoop_huge_size _)

theorem subAssign_huge (fl : ℚ → ℚ) : hugeImage.subAssign fl hugeImage = .error .overflow :=
  subAssign_fault fl _ _ _ (intLoop_huge_size _)

theorem add_huge (fl : ℚ → ℚ) : hugeImage.add fl hugeImage = .error .overflow :=
  add_fault fl _ _ _ hugeImage_copy (intLoop_huge_size _)

theorem sub_huge (fl : ℚ → ℚ) : hugeImage.sub fl hugeImage = .error .overflow :=
  sub_fault fl _ _ _ hugeImage_copy (intLoop_huge_size _)

theorem mul_huge (fl : ℚ → ℚ) (s : ℚ) : hugeImage.mul fl s = .error .overflow := by
  apply mul_fault fl _ _ _ hugeImage_copy
  rw [hugeImage_size]
  exact intLoop_overflow _ (by decide)
    (mapLoop_passes _ 2147483648 hugeImage.pixels (by rw [hugeImage_length]; decide))

theorem mul_squareImage (fl : ℚ → ℚ) (s : ℚ) :
    squareImage.mul fl s = .error .outOfBounds :=
  copy_fault_mul fl _ _ _ copy_squareImage

theorem add_squareImage (fl : ℚ → ℚ) (b : Image) :
    squareImage.add fl b = .error .outOfBounds :=
  copy_fault_add fl _ _ _ copy_squareImage

theorem sub_squareImage (fl : ℚ → ℚ) (b : Image) :
    squareImage.sub fl b = .error .outOfBounds :=
  copy_fault_sub fl _ _ _ copy_squareImage

theorem alphacompo_squareImage (fl : ℚ → ℚ) (b : Image) (alpha : ℚ) :
    Image.alphacompo fl squareImage b alpha = .error .outOfBounds :=
  mul_fault_alphacompo fl _ _ _ _ (mul_squareImage fl alpha)

/-! ## Decimal numerals -/

theorem revDigits_isdigit (fuel n : Nat) : ∀ d ∈ revDigits fuel n, isdigit d = true := by
  induction fuel generalizing n with
  | zero => simp [revDigits]
  | succ k ih =>
    intro d hd
    rw [revDigits] at hd
    rcases List.mem_cons.mp hd with h | h
    · subst h
      have := Nat.mod_lt n (show 10 > 0 by decide)
      simp only [isdigit, Bool.and_eq_true, decide_eq_true_eq]
      omega
    · split at h
      · simp at h
      · exact ih _ d h

theorem decimal_isdigit (n : Nat) : ∀ d ∈ decimal n, isdigit d = true := by
  intro d hd
  exact revDigits_isdigit (n + 1) n d (List.mem_reverse.mp hd)

theorem decimal_ne_nil (n : Nat) : decimal n ≠ [] := by
  simp [decimal, revDigits]

theorem digitsValue_reverse (l : List Nat) :
    digitsValue l.reverse = l.foldr (fun d acc => 10 * acc + (d - 48)) 0 := by
  simp [digitsValue, List.foldl_reverse]

theorem foldr_revDigits (fuel n : Nat) (h : n < fuel) :
    (revDigits fuel n).foldr (fun d acc => 10 * acc + (d - 48)) 0 = n := by
  induction fuel generalizing n with
  | zero => omega
  | succ k ih =>
    rw [revDigits]
    by_cases hn : n < 10
    · simp only [hn, if_true, List.foldr_cons, List.foldr_nil]
      have := Nat.mod_eq_of_lt hn
      omega
    · simp only [hn, if_false, List.foldr_cons]
      rw [ih (n / 10) (by omega)]
      omega

theorem digitsValue_decimal (n : Nat) : digitsValue (decimal n) = n := by
  rw [decimal, digitsValue_reverse]
  exact foldr_revDigits (n + 1) n (Nat.lt_succ_self n)

theorem takeWhile_isdigit_decimal (n c : Nat) (rest : List Nat) (hc : isdigit c = false) :
    (decimal n ++ c :: rest).takeWhile isdigit = decimal n := by
  rw [List.takeWhile_append_of_pos (decimal_isdigit n)]
  simp [hc]

theorem dropWhile_isdigit_decimal (n c : Nat) (rest : List Nat) (hc : isdigit c = false) :
    (decimal n ++ c :: rest).dropWhile isdigit = c :: rest := by
  rw [List.dropWhile_append_of_pos (decimal_isdigit n)]
  simp [hc]

theorem isspace_of_isdigit {c : Nat} (h : isdigit c = true) : isspace c = false := by
  simp only [isdigit, Bool.and_eq_true, decide_eq_true_eq] at h
  simp only [isspace, Bool.or_eq_false_iff, Bool.and_eq_false_iff, beq_eq_false_iff_ne,
    decide_eq_false_iff_not]
  omega

theorem dropWhile_isspace_append (ws : List Nat) (c : Nat) (rest : List Nat)
    (hws : ∀ x ∈ ws, isspace x = true) (hc : isspace c = false) :
    (ws ++ c :: rest).dropWhile isspace = c :: rest := by
  rw [List.dropWhile_append_of_pos hws]
  simp [hc]

/-! ## Stream extraction on well-formed input -/

theorem isdigit_ne_plus {d : Nat} (h : isdigit d = true) : (d == 43) = false := by
  simp only [isdigit, Bool.and_eq_true, decide_eq_true_eq] at h
  simp only [beq_eq_false_iff_ne]
  omega

theorem isdigit_ne_minus {d : Nat} (h : isdigit d = true) : (d == 45) = false := by
  simp only [isdigit, Bool.and_eq_true, decide_eq_true_eq] at h
  simp only [beq_eq_false_iff_ne]
  omega

/-- Extraction of an `int` from white space, a decimal numeral and a
following character that is no digit. -/
theorem getInt_decimal (ws : List Nat) (n c : Nat) (rest : List Nat) (old : Option Int)
    (hws : ∀ x ∈ ws, isspace x = true) (hc : isdigit c = false) :
    IStream.getInt ⟨ws ++ (decimal n ++ c :: rest), true⟩ old =
      if (n : Int) ≤ INT_MAX then (⟨c :: rest, true⟩, some (n : Int))
      else (⟨c :: rest, false⟩, some INT_MAX) := by
  have hdig := decimal_isdigit n
  have htake := takeWhile_isdigit_decimal n c rest hc
  have hdrop := dropWhile_isdigit_decimal n c rest hc
  have hval := digitsValue_decimal n
  cases hdec : decimal n with
  | nil => exact absurd hdec (decimal_ne_nil n)
  | cons d ds =>
    rw [hdec] at hdig htake hdrop hval
    have hd : isdigit d = true := hdig d (List.mem_cons_self d ds)
    have hsp : isspace d = false := isspace_of_isdigit hd
    have h1 : (ws ++ (d :: ds ++ c :: rest)).dropWhile isspace = d :: (ds ++ c :: rest) := by
      rw [List.cons_append]
      exact dropWhile_isspace_append ws d _ hws hsp
    have hmin : INT_MIN ≤ (n : Int) := by
      have : (0 : Int) ≤ (n : Int) := Int.ofNat_nonneg n
      simp only [INT_MIN]; omega
    simp only [IStream.getInt, if_true, h1, isdigit_ne_plus hd, isdigit_ne_minus hd,
      Bool.or_self, Bool.false_eq_true, if_false]
    rw [← List.cons_append, htake, hdrop, hval]
    by_cases hn : (n : Int) ≤ INT_MAX
    · simp [hn, not_lt.mpr hn, not_lt.mpr hmin]
    · simp [hn, not_le.mp hn]

/-- Extraction on a stream that is not good stores nothing. -/
theorem getInt_not_good (b : List Nat) (old : Option Int) :
    IStream.getInt ⟨b, false⟩ old = (⟨b, false⟩, old) := by
  simp [IStream.getInt]

/-- Extraction of a string from white space, a run of non-space characters and
a following white-space character. -/
theorem getString_token (ws tok : List Nat) (c : Nat) (rest old : List Nat)
    (hws : ∀ x ∈ ws, isspace x = true) (htok : ∀ x ∈ tok, isspace x = false)
    (hne : tok ≠ []) (hc : isspace c = true) :
    IStream.getString ⟨ws ++ (tok ++ c :: rest), true⟩ old = (⟨c :: rest, true⟩, tok) := by
  cases tok with
  | nil => exact absurd rfl hne
  | cons d ds =>
    have hd : isspace d = false := htok d (List.mem_cons_self d ds)
    have h1 : (ws ++ (d :: ds ++ c :: rest)).dropWhile isspace = d :: (ds ++ c :: rest) := by
      rw [List.cons_append]
      exact dropWhile_isspace_append ws d _ hws hd
    have hall : ∀ x ∈ d :: ds, (fun x => !isspace x) x = true := by
      intro x hx; simp [htok x hx]
    have h2 : (d :: ds ++ c :: rest).takeWhile (fun x => !isspace x) = d :: ds := by
      rw [List.takeWhile_append_of_pos hall]; simp [hc]
    have h3 : (d :: ds ++ c :: rest).dropWhile (fun x => !isspace x) = c :: rest := by
      rw [List.dropWhile_append_of_pos hall]; simp [hc]
    simp only [IStream.getString, if_true, h1]
    rw [← List.cons_append, h2, h3]
    simp

/-- Extraction of a string whose run of non-space characters ends the file:
`eofbit` is set. -/
theorem getString_token_eof (ws tok old : List Nat)
    (hws : ∀ x ∈ ws, isspace x = true) (htok : ∀ x ∈ tok, isspace x = false)
    (hne : tok ≠ []) :
    IStream.getString ⟨ws ++ tok, true⟩ old = (⟨[], false⟩, tok) := by
  cases tok with
  | nil => exact absurd rfl hne
  | cons d ds =>
    have hd : isspace d = false := htok d (List.mem_cons_self d ds)
    have h1 : (ws ++ d :: ds).dropWhile isspace = d :: ds :=
      dropWhile_isspace_append ws d _ hws hd
    have hall : ∀ x ∈ d :: ds, (fun x => !isspace x) x = true := by
      intro x hx; simp [htok x hx]
    have h2 : (d :: ds).takeWhile (fun x => !isspace x) = d :: ds := by
      have := @List.takeWhile_append_of_pos _ _ _ [] hall
      simpa using this
    have h3 : (d :: ds).dropWhile (fun x => !isspace x) = [] := by
      have := @List.dropWhile_append_of_pos _ _ _ [] hall
      simpa using this
    simp only [IStream.getString, if_true, h1]
    rw [h2, h3]
    simp

theorem getString_not_good (b old : List Nat) :
    IStream.getString ⟨b, false⟩ old = (⟨b, false⟩, old) := by
  simp [IStream.getString]

/-! ## The binary full-colour branch -/

theorem isdigit_of_isspace {c : Nat} (h : isspace c = true) : isdigit c = false := by
  cases hd : isdigit c with
  | false => rfl
  | true => rw [isspace_of_isdigit hd] at h; exact absurd h (by decide)

theorem loopP6_payload (n : Nat) : ∀ (payload : List Nat) (pix : List (Option Nat)),
    payload.length = 3 * n → pix.length = 3 →
    loopP6 n ⟨payload, true⟩ pix = .ok (pixelsOfBytes payload) := by
  induction n with
  | zero =>
    intro payload pix hlen _
    have : payload = [] := List.length_eq_zero.mp (by omega)
    subst this
    simp [loopP6, pixelsOfBytes]
  | succ k ih =>
    intro payload pix hlen hpix
    match payload, hlen with
    | a :: b :: c :: rest, hlen =>
      have hrest : rest.length = 3 * k := by simp at hlen; omega
      have hdrop : pix.drop 3 = [] := by
        apply List.drop_eq_nil_of_le; omega
      have hread : (IStream.read ⟨a :: b :: c :: rest, true⟩ 3) = (⟨rest, true⟩, [a, b, c]) := by
        simp [IStream.read]
      simp only [loopP6, hread, store, List.map, List.length_cons, List.length_nil, hdrop,
        List.append_nil, List.cons_append, List.nil_append]
      rw [ih rest [some a, some b, some c] hrest (by simp)]
      simp [pixelsOfBytes]
    | [], hlen => simp at hlen
    | [_], hlen => simp at hlen; omega
    | [_, _], hlen => simp at hlen; omega

theorem pixelsOfBytes_length : ∀ (n : Nat) (payload : List Nat), payload.length = 3 * n →
    (pixelsOfBytes payload).length = n := by
  intro n
  induction n with
  | zero =>
    intro payload hlen
    have : payload = [] := List.length_eq_zero.mp (by omega)
    subst this
    simp [pixelsOfBytes]
  | succ k ih =>
    intro payload hlen
    match payload, hlen with
    | a :: b :: c :: rest, hlen =>
      have hrest : rest.length = 3 * k := by simp at hlen; omega
      simp [pixelsOfBytes, ih rest hrest]
    | [], hlen => simp at hlen
    | [_], hlen => simp at hlen; omega
    | [_, _], hlen => simp at hlen; omega

theorem pixelsOfBytes_getElem? : ∀ (i : Nat) (payload : List Nat) (r g b : Nat),
    payload[3 * i]? = some r → payload[3 * i + 1]? = some g → payload[3 * i + 2]? = some b →
    (pixelsOfBytes payload)[i]? = some ⟨byteToFloat r, byteToFloat g, byteToFloat b⟩ := by
  intro i
  induction i with
  | zero =>
    intro payload r g b hr hg hb
    match payload with
    | a :: b' :: c :: rest =>
      simp at hr hg hb
      subst hr hg hb
      simp [pixelsOfBytes]
    | [] => simp at hr
    | [_] => simp at hg
    | [_, _] => simp at hb
  | succ k ih =>
    intro payload r g b hr hg hb
    have e0 : 3 * (k + 1) = (3 * k) + 1 + 1 + 1 := by ring
    have e1 : 3 * (k + 1) + 1 = (3 * k + 1) + 1 + 1 + 1 := by ring
    have e2 : 3 * (k + 1) + 2 = (3 * k + 2) + 1 + 1 + 1 := by ring
    match payload with
    | a :: b' :: c :: rest =>
      rw [e0] at hr; rw [e1] at hg; rw [e2] at hb
      simp only [List.getElem?_cons_succ] at hr hg hb
      simp only [pixelsOfBytes, List.getElem?_cons_succ]
      exact ih rest r g b hr hg hb
    | [] => simp at hr
    | [_] => rw [e0] at hr; simp at hr
    | [_, _] => rw [e0] at hr; simp at hr

theorem ignoreLoop_newline (n : Nat) (rest : List Nat) :
    IStream.ignore ⟨10 :: rest, true⟩ (n + 1) 10 = ⟨rest, true⟩ := by
  simp [IStream.ignore, IStream.ignoreLoop]

theorem toUInt_natCast {n : Nat} (h : (n : Int) ≤ INT_MAX) : toUInt (n : Int) = n := by
  simp only [INT_MAX] at h
  simp only [toUInt]
  omega

/-- The header fields of a binary file: `ifs >> w >> h >> b` and `ignore` on
`ws1 W ws2 H ws3 M '\n' payload`. -/
theorem readBinary_header (loop : Nat → IStream → Except Fault (List Image.Rgb))
    (ws1 ws2 ws3 : List Nat) (W H M : Nat) (payload : List Nat)
    (h1 : ∀ x ∈ ws1, isspace x = true)
    (h2 : ∀ x ∈ ws2, isspace x = true) (n2 : ws2 ≠ [])
    (h3 : ∀ x ∈ ws3, isspace x = true) (n3 : ws3 ≠ [])
    (hW : (W : Int) ≤ INT_MAX) (hH : (H : Int) ≤ INT_MAX) (hM : (M : Int) ≤ INT_MAX)
    (hWH : ((W * H : Nat) : Int) ≤ INT_MAX) :
    readBinary loop
        ⟨ws1 ++ (decimal W ++ (ws2 ++ (decimal H ++ (ws3 ++ (decimal M ++ 10 :: payload))))), true⟩ =
      match loop (W * H) ⟨payload, true⟩ with
      | .ok ps => .ok ⟨W, H, ps⟩
      | .error e => .error e := by
  obtain ⟨c2, t2, rfl⟩ := List.exists_cons_of_ne_nil n2
  obtain ⟨c3, t3, rfl⟩ := List.exists_cons_of_ne_nil n3
  have hc2 : isdigit c2 = false := isdigit_of_isspace (h2 c2 (List.mem_cons_self _ _))
  have hc3 : isdigit c3 = false := isdigit_of_isspace (h3 c3 (List.mem_cons_self _ _))
  have e1 := getInt_decimal ws1 W c2 (t2 ++ (decimal H ++ (c3 :: t3 ++ (decimal M ++ 10 :: payload))))
    none h1 hc2
  have e2 := getInt_decimal (c2 :: t2) H c3 (t3 ++ (decimal M ++ 10 :: payload)) none h2 hc3
  have e3 := getInt_decimal (c3 :: t3) M 10 payload none h3 (by decide)
  rw [if_pos hW] at e1
  rw [if_pos hH] at e2
  rw [if_pos hM] at e3
  simp only [List.cons_append] at e1 e2 e3 ⊢
  have hnn : ¬ ((W : Int) * (H : Int) < INT_MIN ∨ INT_MAX < (W : Int) * (H : Int)) := by
    have : (0 : Int) ≤ (W : Int) * (H : Int) := by positivity
    have h' : (W : Int) * (H : Int) ≤ INT_MAX := by exact_mod_cast hWH
    simp only [INT_MIN, INT_MAX] at *
    omega
  have hnn2 : ¬ ((W : Int) * (H : Int) < 0) := by
    have : (0 : Int) ≤ (W : Int) * (H : Int) := by positivity
    omega
  have htn : ((W : Int) * (H : Int)).toNat = W * H := by
    rw [← Int.natCast_mul]; exact Int.toNat_natCast _
  simp only [readBinary, e1, e2, e3, hnn, hnn2, if_false, htn, ignoreLoop_newline,
    toUInt_natCast hW, toUInt_natCast hH]

/-- Decoding of a `P6` file `P6 ws1 W ws2 H ws3 M '\n' payload`. -/
theorem readPPM_P6 (ws1 ws2 ws3 : List Nat) (W H M : Nat) (payload : List Nat)
    (h1 : ∀ x ∈ ws1, isspace x = true) (n1 : ws1 ≠ [])
    (h2 : ∀ x ∈ ws2, isspace x = true) (n2 : ws2 ≠ [])
    (h3 : ∀ x ∈ ws3, isspace x = true) (n3 : ws3 ≠ [])
    (hW : (W : Int) ≤ INT_MAX) (hH : (H : Int) ≤ INT_MAX) (hM : (M : Int) ≤ INT_MAX)
    (hWH : ((W * H : Nat) : Int) ≤ INT_MAX) (hlen : payload.length = 3 * (W * H)) :
    readPPM (some ([80, 54] ++
        (ws1 ++ (decimal W ++ (ws2 ++ (decimal H ++ (ws3 ++ (decimal M ++ 10 :: payload)))))))) =
      .ok (⟨W, H, pixelsOfBytes payload⟩, none) := by
  obtain ⟨c1, t1, rfl⟩ := List.exists_cons_of_ne_nil n1
  have hc1 : isspace c1 = true := h1 c1 (List.mem_cons_self _ _)
  have eh := getString_token [] [80, 54] c1
    (t1 ++ (decimal W ++ (ws2 ++ (decimal H ++ (ws3 ++ (decimal M ++ 10 :: payload))))))
    [] (by simp) (by decide) (by simp) hc1
  simp only [List.nil_append, List.cons_append] at eh
  have eb := readBinary_header (fun n s => loopP6 n s [none, none, none]) (c1 :: t1) ws2 ws3
    W H M payload h1 h2 n2 h3 n3 hW hH hM hWH
  simp only [List.cons_append] at eb
  simp only [readPPM, List.cons_append, List.nil_append, eh, eb]
  rw [loopP6_payload (W * H) payload _ hlen (by simp)]
  simp [cstr]

/-! ## The encoder -/

theorem savePasses_ok (n : Nat) : ∀ ps : List Image.Rgb, n ≤ ps.length →
    savePasses n ps = .ok (bytesOfPixels (ps.take n)) := by
  induction n with
  | zero => intro ps _; simp [savePasses, bytesOfPixels]
  | succ k ih =>
    intro ps h
    match ps, h with
    | p :: ps, h =>
      have hk : k ≤ ps.length := by simpa using h
      simp [savePasses, ih ps hk, bytesOfPixels]
    | [], h => simp at h

theorem savePasses_short (n : Nat) : ∀ ps : List Image.Rgb, ps.length < n →
    savePasses n ps = .error .outOfBounds := by
  induction n with
  | zero => intro ps h; omega
  | succ k ih =>
    intro ps h
    match ps, h with
    | p :: ps, h =>
      have hk : ps.length < k := by simpa using h
      simp [savePasses, ih ps hk]
    | [], _ => simp [savePasses]

theorem saveLoop_ok (n : Nat) (ps : List Image.Rgb) (hn : n ≤ 2147483647)
    (h : n ≤ ps.length) : saveLoop n ps = .ok (bytesOfPixels (ps.take n)) := by
  rw [saveLoop, intLoop_le _ hn, savePasses_ok n ps h]

/-- Beyond `INT_MAX` pixels the counter of the body loop overflows. -/
theorem saveLoop_overflow (n : Nat) (ps : List Image.Rgb) (hn : 2147483647 < n)
    (h : n ≤ ps.length) : saveLoop n ps = .error .overflow := by
  rw [saveLoop]
  exact intLoop_overflow _ hn ⟨_, savePasses_ok 2147483648 ps (by omega)⟩

/-- Whatever the loop returns was written by the passes `0 .. n - 1`. -/
theorem saveLoop_passes (n : Nat) (ps : List Image.Rgb) (body : List Nat)
    (h : saveLoop n ps = .ok body) : savePasses n ps = .ok body := by
  rw [saveLoop, intLoop] at h
  split at h
  · exact h
  · split at h <;> exact absurd h (by simp)

theorem bytesOfPixels_length (ps : List Image.Rgb) :
    (bytesOfPixels ps).length = 3 * ps.length := by
  induction ps with
  | nil => simp [bytesOfPixels]
  | cons p ps ih => simp [bytesOfPixels, ih]; omega

theorem bytesOfPixels_getElem? : ∀ (i : Nat) (ps : List Image.Rgb) (p : Image.Rgb),
    ps[i]? = some p →
    (bytesOfPixels ps)[3 * i]? = some (channelByte p.r) ∧
    (bytesOfPixels ps)[3 * i + 1]? = some (channelByte p.g) ∧
    (bytesOfPixels ps)[3 * i + 2]? = some (channelByte p.b) := by
  intro i
  induction i with
  | zero =>
    intro ps p h
    match ps with
    | q :: qs =>
      simp at h
      subst h
      simp [bytesOfPixels]
    | [] => simp at h
  | succ k ih =>
    intro ps p h
    have e0 : 3 * (k + 1) = (3 * k) + 1 + 1 + 1 := by ring
    have e1 : 3 * (k + 1) + 1 = (3 * k + 1) + 1 + 1 + 1 := by ring
    have e2 : 3 * (k + 1) + 2 = (3 * k + 2) + 1 + 1 + 1 := by ring
    match ps with
    | q :: qs =>
      simp only [List.getElem?_cons_succ] at h
      rw [e2, e1, e0]
      simp only [bytesOfPixels, List.getElem?_cons_succ]
      exact ih qs p h
    | [] => simp at h

theorem floatToUChar_natCast (k : Nat) : floatToUChar (k : ℚ) = k % 256 := by
  simp only [floatToUChar, toUChar, Rat.num_natCast, Rat.den_natCast, Nat.cast_one,
    Int.tdiv_one]
  omega

theorem channelByte_natCast (k : Nat) : channelByte (k : ℚ) = k % 256 % 255 := by
  simp [channelByte, floatToUChar_natCast]

theorem channelByte_of_le {k : Nat} (h : k ≤ 254) : channelByte (k : ℚ) = k := by
  rw [channelByte_natCast]; omega

/-- For a channel that is not negative the cast keeps the low eight bits of
the integer part. -/
theorem floatToUChar_of_nonneg (c : ℚ) (h : 0 ≤ c) : floatToUChar c = ⌊c⌋₊ % 256 := by
  have hnum : 0 ≤ c.num := Rat.num_nonneg.mpr h
  have hfloor : ⌊c⌋ = c.num / (c.den : Int) := Rat.floor_def
  have htdiv : Int.tdiv c.num (c.den : Int) = c.num / (c.den : Int) :=
    Int.tdiv_eq_ediv hnum (Int.ofNat_nonneg _)
  have hnn : 0 ≤ ⌊c⌋ := Int.floor_nonneg.mpr h
  have hnat : (⌊c⌋₊ : Int) = ⌊c⌋ := by
    rw [← Int.toNat_of_nonneg hnn]
    rfl
  simp only [floatToUChar, toUChar, htdiv, ← hfloor, ← hnat]
  omega

/-- Decoding what the encoder wrote for integer channels in `0..254` gives the
pixels back. -/
theorem pixelsOfBytes_bytesOfPixels (ps : List Image.Rgb)
    (h : ∀ p ∈ ps, ∃ r g b : Nat, r ≤ 254 ∧ g ≤ 254 ∧ b ≤ 254 ∧ p = ⟨(r : ℚ), (g : ℚ), (b : ℚ)⟩) :
    pixelsOfBytes (bytesOfPixels ps) = ps := by
  induction ps with
  | nil => simp [bytesOfPixels, pixelsOfBytes]
  | cons p ps ih =>
    obtain ⟨r, g, b, hr, hg, hb, rfl⟩ := h p (List.mem_cons_self _ _)
    have ih' := ih (fun q hq => h q (List.mem_cons_of_mem _ hq))
    simp [bytesOfPixels, pixelsOfBytes, channelByte_of_le hr, channelByte_of_le hg,
      channelByte_of_le hb, byteToFloat, ih']

theorem savePPM_ok (img : Image) (hw : 0 < img.w) (hh : 0 < img.h)
    (hbuf : img.size ≤ img.pixels.length) (hsz : img.size ≤ 2147483647) :
    savePPM img true =
      .ok ⟨some (ppmHeader img ++ bytesOfPixels (img.pixels.take img.size)), none⟩ := by
  have hne : ¬ (img.w = 0 ∨ img.h = 0) := by omega
  simp [savePPM, hne, saveLoop_ok img.size img.pixels hsz hbuf]

theorem savePPM_fault (img : Image) (e : Fault) (hw : 0 < img.w) (hh : 0 < img.h)
    (h : saveLoop img.size img.pixels = .error e) : savePPM img true = .error e := by
  have hne : ¬ (img.w = 0 ∨ img.h = 0) := by omega
  simp [savePPM, hne, h]

theorem size_le_of_length {img : Image} (h : img.pixels.length = img.w * img.h) :
    img.size ≤ img.pixels.length := by
  rw [h]; exact Nat.mod_le _ _

/-- A `P6` file whose width does not fit an `int`: `ifs >> w` sets `failbit`,
`h` is never stored and `img.h = h` reads it. -/
theorem readPPM_P6_wide (ws1 : List Nat) (W c : Nat) (rest : List Nat)
    (h1 : ∀ x ∈ ws1, isspace x = true) (n1 : ws1 ≠ []) (hc : isdigit c = false)
    (hW : INT_MAX < (W : Int)) :
    readPPM (some ([80, 54] ++ (ws1 ++ (decimal W ++ c :: rest)))) = .error .uninitialised := by
  obtain ⟨c1, t1, rfl⟩ := List.exists_cons_of_ne_nil n1
  have hc1 : isspace c1 = true := h1 c1 (List.mem_cons_self _ _)
  have eh := getString_token [] [80, 54] c1 (t1 ++ (decimal W ++ c :: rest))
    [] (by simp) (by decide) (by simp) hc1
  simp only [List.nil_append, List.cons_append] at eh
  have e1 := getInt_decimal (c1 :: t1) W c rest none h1 hc
  rw [if_neg (not_le.mpr hW)] at e1
  simp only [List.cons_append] at e1
  simp only [readPPM, List.cons_append, List.nil_append, eh, readBinary, e1, getInt_not_good]
  simp [cstr]

theorem decimal_255 : decimal 255 = [50, 53, 53] := by decide

theorem ppmHeader_eq (img : Image) (body : List Nat) :
    ppmHeader img ++ body =
      [80, 54] ++ ([10] ++ (decimal img.w ++ ([32] ++ (decimal img.h ++
        ([10] ++ (decimal 255 ++ 10 :: body)))))) := by
  simp [ppmHeader, decimal_255]

/-- C1 (as amended).  Round trip: for every image with `w > 0`, `h > 0`, a
buffer of `w * h` pixels, at most `2^31 - 1` pixels and integer channels in
`0..254`, `savePPM` writes a file and `readPPM` of that file returns the image
itself (same width, height and pixels). -/
theorem savePPM_readPPM_roundtrip (img : Image) (hw : 0 < img.w) (hh : 0 < img.h)
    (hbuf : img.pixels.length = img.w * img.h) (hsize : img.w * img.h ≤ 2147483647)
    (hch : ∀ p ∈ img.pixels, ∃ r g b : Nat, r ≤ 254 ∧ g ≤ 254 ∧ b ≤ 254 ∧
      p = ⟨(r : ℚ), (g : ℚ), (b : ℚ)⟩) :
    ∃ bytes, savePPM img true = .ok ⟨some bytes, none⟩ ∧
      readPPM (some bytes) = .ok (img, none) := by
  have hsz : img.size = img.w * img.h := size_eq_of_lt (by omega)
  have htake : img.pixels.take img.size = img.pixels := by
    rw [hsz, ← hbuf]; exact List.take_length _
  refine ⟨ppmHeader img ++ bytesOfPixels img.pixels, ?_, ?_⟩
  · rw [savePPM_ok img hw hh (size_le_of_length hbuf) (by rw [hsz]; exact hsize), htake]
  · have hW : img.w ≤ img.w * img.h := Nat.le_mul_of_pos_right _ hh
    have hH : img.h ≤ img.w * img.h := Nat.le_mul_of_pos_left _ hw
    have hlen : (bytesOfPixels img.pixels).length = 3 * (img.w * img.h) := by
      rw [bytesOfPixels_length, hbuf]
    rw [ppmHeader_eq, readPPM_P6 [10] [32] [10] img.w img.h 255 (bytesOfPixels img.pixels)
      (by decide) (by simp) (by decide) (by simp) (by decide) (by simp)
      (by simp only [INT_MAX]; omega) (by simp only [INT_MAX]; omega) (by decide)
      (by simp only [INT_MAX]; omega) hlen,
      pixelsOfBytes_bytesOfPixels img.pixels hch]

/-- Witness for C1: a 2 by 1 image. -/
theorem savePPM_readPPM_roundtrip_witness :
    ∃ bytes, savePPM ⟨2, 1, [⟨(1 : Nat), (2 : Nat), (3 : Nat)⟩, ⟨(254 : Nat), (0 : Nat), (7 : Nat)⟩]⟩ true
        = .ok ⟨some bytes, none⟩ ∧
      readPPM (some bytes) =
        .ok (⟨2, 1, [⟨(1 : Nat), (2 : Nat), (3 : Nat)⟩, ⟨(254 : Nat), (0 : Nat), (7 : Nat)⟩]⟩, none) :=
  savePPM_readPPM_roundtrip ⟨2, 1, [⟨(1 : Nat), (2 : Nat), (3 : Nat)⟩, ⟨(254 : Nat), (0 : Nat), (7 : Nat)⟩]⟩
    (by decide) (by decide) (by decide) (by decide)
    (by
      intro p hp
      simp only [List.mem_cons, List.mem_singleton, List.not_mem_nil, or_false] at hp
      rcases hp with rfl | rfl
      · exact ⟨1, 2, 3, by decide, by decide, by decide, rfl⟩
      · exact ⟨254, 0, 7, by decide, by decide, by decide, rfl⟩)

theorem wideImage_w : wideImage.w = 2147483648 := rfl

theorem wideImage_h : wideImage.h = 1 := rfl

theorem wideImage_length : wideImage.pixels.length = 2147483648 := by
  show (List.replicate ((2147483648 * 1) % 4294967296) Image.kBlack).length = 2147483648
  rw [List.length_replicate]

theorem wideImage_size : wideImage.size = 2147483648 := by
  rw [Image.size, wideImage_w, wideImage_h]

/-- Counterexample to C1 as stated: the image `Image(2147483648, 1)` (black,
`2^31` pixels) meets every condition of the claim.  The body loop of `savePPM`
makes the passes `0 .. INT_MAX` and its `int` counter overflows, so no byte
sequence is produced; and the file that holds the header and the bytes of all
`2^31` pixels is not decoded to an image either, because the width does not
fit the decoder's `int`. -/
theorem savePPM_readPPM_roundtrip_counterexample :
    (0 < wideImage.w ∧ 0 < wideImage.h ∧
      wideImage.pixels.length = wideImage.w * wideImage.h ∧
      ∀ p ∈ wideImage.pixels, ∃ r g b : Nat, r ≤ 254 ∧ g ≤ 254 ∧ b ≤ 254 ∧
        p = ⟨(r : ℚ), (g : ℚ), (b : ℚ)⟩) ∧
    savePPM wideImage true = .error .overflow ∧
    readPPM (some (ppmHeader wideImage ++ bytesOfPixels wideImage.pixels)) =
      .error .uninitialised := by
  have hw : 0 < wideImage.w := by rw [wideImage_w]; decide
  have hh : 0 < wideImage.h := by rw [wideImage_h]; decide
  refine ⟨⟨hw, hh, ?_, ?_⟩, ?_, ?_⟩
  · rw [wideImage_length, wideImage_w, wideImage_h]
  · intro p hp
    have : p = Image.kBlack := List.eq_of_mem_replicate hp
    subst this
    exact ⟨0, 0, 0, by decide, by decide, by decide, by simp [Image.kBlack, Image.Rgb.gray]⟩
  · apply savePPM_fault wideImage _ hw hh
    rw [wideImage_size]
    exact saveLoop_overflow _ _ (by decide) (by rw [wideImage_length])
  · rw [ppmHeader_eq]
    exact readPPM_P6_wide [10] wideImage.w 32 _ (by decide) (by simp) (by decide)
      (by rw [wideImage_w]; decide)

/-! ## C2: the body written by `savePPM` -/

theorem channelByte_of_nonneg (c : ℚ) (h : 0 ≤ c) : channelByte c = ⌊c⌋₊ % 256 % 255 := by
  rw [channelByte, floatToUChar_of_nonneg c h]

theorem channelByte_of_lt (c : ℚ) (h : 0 ≤ c) (h256 : c < 256) :
    channelByte c = ⌊c⌋₊ % 255 := by
  have hfl : ⌊c⌋₊ < 256 := (Nat.floor_lt h).mpr (by exact_mod_cast h256)
  rw [channelByte_of_nonneg c h, Nat.mod_eq_of_lt hfl]

theorem scenarioA_valid : scenarioA.Valid := by
  simp [Image.Valid, Image.size, scenarioA]

theorem roundFloat_add_natCast (m n : Nat) (h : m + n < 16777216) :
    roundFloat ((m : ℚ) + (n : ℚ)) = ((m + n : Nat) : ℚ) := by
  rw [← Nat.cast_add]
  exact roundFloat_natCast h

theorem scenario_add :
    Image.add roundFloat scenarioA scenarioB = .ok (scenarioSum, scenarioA, scenarioB) := by
  rw [add_ok roundFloat (a := scenarioA) (b := scenarioB) rfl rfl scenarioA_valid
    (sized_valid 2 2 _) (by decide)]
  have e : ∀ m n : Nat, m + n < 16777216 →
      Image.Rgb.addAssign roundFloat ⟨(m : ℚ), (m : ℚ), (m : ℚ)⟩ ⟨(n : ℚ), (n : ℚ), (n : ℚ)⟩ =
        ⟨((m + n : Nat) : ℚ), ((m + n : Nat) : ℚ), ((m + n : Nat) : ℚ)⟩ := by
    intro m n h
    simp only [Image.Rgb.addAssign, roundFloat_add_natCast m n h]
  have e3 : ∀ a b c n : Nat, a + n < 16777216 → b + n < 16777216 → c + n < 16777216 →
      Image.Rgb.addAssign roundFloat ⟨(a : ℚ), (b : ℚ), (c : ℚ)⟩ ⟨(n : ℚ), (n : ℚ), (n : ℚ)⟩ =
        ⟨((a + n : Nat) : ℚ), ((b + n : Nat) : ℚ), ((c + n : Nat) : ℚ)⟩ := by
    intro a b c n ha hb hc
    simp only [Image.Rgb.addAssign, roundFloat_add_natCast _ _ ha,
      roundFloat_add_natCast _ _ hb, roundFloat_add_natCast _ _ hc]
  have h0 := e3 0 0 0 50 (by decide) (by decide) (by decide)
  have h1 := e3 255 255 255 50 (by decide) (by decide) (by decide)
  have h2 := e3 10 20 30 50 (by decide) (by decide) (by decide)
  have h3 := e3 200 100 50 50 (by decide) (by decide) (by decide)
  norm_num at h0 h1 h2 h3
  simp only [scenarioA, scenarioB, scenarioSum, Image.sized, Image.Rgb.gray]
  norm_num [List.replicate, h0, h1, h2, h3]

/-- C2 (as amended).  For every non-empty image whose buffer holds its
`w * h` pixels, at most `2^31 - 1`, and whose channels all lie in `[0, 256)`,
`savePPM` writes the header followed by a body of exactly `3 * w * h` bytes;
the three bytes of pixel `i` of the buffer (row-major: pixel `(x, y)` is entry
`y * w + x`) stand at `3 * i`, `3 * i + 1` and `3 * i + 2`, and the byte of a
channel `c` is the integer part of `c` modulo 255. -/
theorem savePPM_body_rule (img : Image) (hw : 0 < img.w) (hh : 0 < img.h)
    (hbuf : img.pixels.length = img.w * img.h) (hsz : img.w * img.h ≤ 2147483647)
    (hch : ∀ p ∈ img.pixels,
      (0 ≤ p.r ∧ p.r < 256) ∧ (0 ≤ p.g ∧ p.g < 256) ∧ (0 ≤ p.b ∧ p.b < 256)) :
    ∃ body, savePPM img true = .ok ⟨some (ppmHeader img ++ body), none⟩ ∧
      body.length = 3 * (img.w * img.h) ∧
      (∀ (i : Nat) (p : Image.Rgb), img.pixels[i]? = some p →
        body[3 * i]? = some (⌊p.r⌋₊ % 255) ∧
        body[3 * i + 1]? = some (⌊p.g⌋₊ % 255) ∧
        body[3 * i + 2]? = some (⌊p.b⌋₊ % 255)) ∧
      (∀ c : ℚ, 0 ≤ c → c < 256 → channelByte c = ⌊c⌋₊ % 255) := by
  have hs : img.size = img.w * img.h := size_eq_of_lt (by omega)
  have htake : img.pixels.take img.size = img.pixels := by
    rw [hs, ← hbuf]; exact List.take_length _
  refine ⟨bytesOfPixels img.pixels, ?_, ?_, ?_, channelByte_of_lt⟩
  · rw [savePPM_ok img hw hh (size_le_of_length hbuf) (by rw [hs]; exact hsz), htake]
  · rw [bytesOfPixels_length, hbuf]
  · intro i p hp
    obtain ⟨⟨r0, r1⟩, ⟨g0, g1⟩, ⟨b0, b1⟩⟩ := hch p (List.mem_iff_getElem?.mpr ⟨i, hp⟩)
    rw [← channelByte_of_lt p.r r0 r1, ← channelByte_of_lt p.g g0 g1,
      ← channelByte_of_lt p.b b0 b1]
    exact bytesOfPixels_getElem? i img.pixels p hp

/-- Witness for C2: the first image of the end-to-end scenario; its body is
0,0,0, 0,0,0, 10,20,30, 200,100,50, the pixel (255,255,255) being written as
0,0,0. -/
theorem savePPM_body_rule_witness :
    (∃ body, savePPM scenarioA true = .ok ⟨some (ppmHeader scenarioA ++ body), none⟩ ∧
      body.length = 3 * (scenarioA.w * scenarioA.h) ∧
      (∀ (i : Nat) (p : Image.Rgb), scenarioA.pixels[i]? = some p →
        body[3 * i]? = some (⌊p.r⌋₊ % 255) ∧
        body[3 * i + 1]? = some (⌊p.g⌋₊ % 255) ∧
        body[3 * i + 2]? = some (⌊p.b⌋₊ % 255)) ∧
      (∀ c : ℚ, 0 ≤ c → c < 256 → channelByte c = ⌊c⌋₊ % 255)) ∧
    savePPM scenarioA true =
      .ok ⟨some (ppmHeader scenarioA ++ [0, 0, 0, 0, 0, 0, 10, 20, 30, 200, 100, 50]), none⟩ :=
  ⟨savePPM_body_rule scenarioA (by decide) (by decide) (by decide) (by decide)
    (by
      intro p hp
      simp only [scenarioA, List.mem_cons, List.mem_singleton, List.not_mem_nil, or_false] at hp
      rcases hp with rfl | rfl | rfl | rfl <;> norm_num), rfl⟩

/-- Counterexample to C2 as stated.  In the end-to-end scenario the sum image
is (50,50,50), (305,305,305), (60,70,80), (250,150,100); the channel 305 is
beyond the range of `unsigned char`, and converted through a machine integer
it is written as 49, while the integer part modulo 255 is 50.  And
`Image(65536, 65536)`, whose width and height are not zero, is written with an
empty body, not with `3 * 65536 * 65536` bytes. -/
theorem savePPM_body_rule_counterexample :
    Image.add roundFloat scenarioA scenarioB = .ok (scenarioSum, scenarioA, scenarioB) ∧
    savePPM scenarioSum true =
      .ok ⟨some (ppmHeader scenarioSum ++ [50, 50, 50, 49, 49, 49, 60, 70, 80, 250, 150, 100]),
        none⟩ ∧
    channelByte 305 = 49 ∧ ⌊(305 : ℚ)⌋₊ % 255 = 50 ∧
    savePPM squareImage true = .ok ⟨some (ppmHeader squareImage ++ []), none⟩ ∧
    3 * (squareImage.w * squareImage.h) = 12884901888 := by
  refine ⟨scenario_add, rfl, by decide, ?_, rfl, rfl⟩
  rw [show (305 : ℚ) = ((305 : Nat) : ℚ) by norm_num, Nat.floor_natCast]

/-! ## C3: the binary grayscale branch -/

/-- C3 (code defect).  The `P5` file with header `2 1`, max value 255 and the
two payload bytes 32 and 65 decodes to the pixels 65 and 65: `ifs >> pix`
skips the payload byte 32 as white space, reads 65 for pixel 0, and finds the
end of the file for pixel 1, which keeps the stale 65. -/
theorem readPPM_P5_skips_white_space :
    readPPM (some ([80, 53, 10] ++ decimal 2 ++ [32] ++ decimal 1 ++ [10] ++ decimal 255 ++
        [10] ++ [32, 65])) =
      .ok (⟨2, 1, [Image.Rgb.gray 65, Image.Rgb.gray 65]⟩, none) := by
  rfl

/-! ## C4: the binary full-colour branch -/

/-- C4 (as amended).  A `P6` file made of the tag, the decimal width `W`, the
decimal height `H`, a decimal max value `M`, each preceded by white space, one
newline and `3 * W * H` payload bytes, where `W`, `H`, `M` and `W * H` are at
most `2^31 - 1`, decodes to an image of width `W` and height `H` whose pixel
`i` has the payload bytes `3 * i`, `3 * i + 1`, `3 * i + 2` as its channels,
unscaled. -/
theorem readPPM_P6_decode (ws1 ws2 ws3 : List Nat) (W H M : Nat) (payload : List Nat)
    (h1 : ∀ x ∈ ws1, isspace x = true) (n1 : ws1 ≠ [])
    (h2 : ∀ x ∈ ws2, isspace x = true) (n2 : ws2 ≠ [])
    (h3 : ∀ x ∈ ws3, isspace x = true) (n3 : ws3 ≠ [])
    (hW : W ≤ 2147483647) (hH : H ≤ 2147483647) (hM : M ≤ 2147483647)
    (hWH : W * H ≤ 2147483647) (hlen : payload.length = 3 * (W * H)) :
    ∃ img, readPPM (some ([80, 54] ++ ws1 ++ decimal W ++ ws2 ++ decimal H ++ ws3 ++
          decimal M ++ [10] ++ payload)) = .ok (img, none) ∧
      img.w = W ∧ img.h = H ∧ img.pixels.length = W * H ∧
      ∀ i, i < W * H → ∃ r g b : Nat,
        payload[3 * i]? = some r ∧ payload[3 * i + 1]? = some g ∧
        payload[3 * i + 2]? = some b ∧
        img.pixels[i]? = some ⟨(r : ℚ), (g : ℚ), (b : ℚ)⟩ := by
  refine ⟨⟨W, H, pixelsOfBytes payload⟩, ?_, rfl, rfl, pixelsOfBytes_length _ _ hlen, ?_⟩
  · have := readPPM_P6 ws1 ws2 ws3 W H M payload h1 n1 h2 n2 h3 n3
      (by simp only [INT_MAX]; omega) (by simp only [INT_MAX]; omega)
      (by simp only [INT_MAX]; omega) (by simp only [INT_MAX]; omega) hlen
    simpa only [List.append_assoc, List.singleton_append] using this
  · intro i hi
    have h0 : 3 * i < payload.length := by omega
    have h1' : 3 * i + 1 < payload.length := by omega
    have h2' : 3 * i + 2 < payload.length := by omega
    refine ⟨payload[3 * i], payload[3 * i + 1], payload[3 * i + 2],
      List.getElem?_eq_getElem h0, List.getElem?_eq_getElem h1',
      List.getElem?_eq_getElem h2', ?_⟩
    exact pixelsOfBytes_getElem? i payload _ _ _ (List.getElem?_eq_getElem h0)
      (List.getElem?_eq_getElem h1') (List.getElem?_eq_getElem h2')

/-- Witness for C4: the file `P6\n2 1\n255\n` followed by the bytes 1..6. -/
theorem readPPM_P6_decode_witness :
    ∃ img, readPPM (some ([80, 54] ++ [10] ++ decimal 2 ++ [32] ++ decimal 1 ++ [10] ++
          decimal 255 ++ [10] ++ [1, 2, 3, 4, 5, 6])) = .ok (img, none) ∧
      img.w = 2 ∧ img.h = 1 ∧ img.pixels.length = 2 * 1 ∧
      ∀ i, i < 2 * 1 → ∃ r g b : Nat,
        [1, 2, 3, 4, 5, 6][3 * i]? = some r ∧ [1, 2, 3, 4, 5, 6][3 * i + 1]? = some g ∧
        [1, 2, 3, 4, 5, 6][3 * i + 2]? = some b ∧
        img.pixels[i]? = some ⟨(r : ℚ), (g : ℚ), (b : ℚ)⟩ :=
  readPPM_P6_decode [10] [32] [10] 2 1 255 [1, 2, 3, 4, 5, 6] (by decide) (by decide)
    (by decide) (by decide) (by decide) (by decide) (by decide) (by decide) (by decide)
    (by decide) (by decide)

/-- Counterexample to C4 as stated: the file `P6\n2147483648 0\n255\n` has the
stated form with `W = 2^31`, `H = 0` and the `3 * W * H = 0` payload bytes, and
`readPPM` returns no image for it: the width does not fit an `int`, so `h` is
read without ever being stored. -/
theorem readPPM_P6_decode_counterexample :
    ([] : List Nat).length = 3 * (2147483648 * 0) ∧
    readPPM (some ([80, 54] ++ [10] ++ decimal 2147483648 ++ [32] ++ decimal 0 ++ [10] ++
        decimal 255 ++ [10] ++ [])) = .error .uninitialised := by
  refine ⟨rfl, ?_⟩
  have := readPPM_P6_wide [10] 2147483648 32 (decimal 0 ++ [10] ++ decimal 255 ++ [10] ++ [])
    (by decide) (by simp) (by decide) (by decide)
  simpa only [List.append_assoc, List.singleton_append, List.cons_append, List.nil_append]
    using this

/-! ## C5: the plain-text full-colour branch -/

/-- C5 (code defect).  The `P3` file `P3\n1 2\n255\n1 2 3 4 5 6\n` announces
width 1 and height 2; `readPPM` returns a 1 by 1 image holding only the pixel
(1,2,3), because `img.h` is set from the width token. -/
theorem readPPM_P3_height_from_width :
    readPPM (some ([80, 51, 10] ++ decimal 1 ++ [32] ++ decimal 2 ++ [10] ++ decimal 255 ++
        [10] ++ decimal 1 ++ [32] ++ decimal 2 ++ [32] ++ decimal 3 ++ [32] ++ decimal 4 ++
        [32] ++ decimal 5 ++ [32] ++ decimal 6 ++ [10])) =
      .ok (⟨1, 1, [⟨1, 2, 3⟩]⟩, none) := by
  rfl

/-! ## C7: decoding failures -/

theorem cstr_of_no_nul (tok : List Nat) (h : ∀ x ∈ tok, x ≠ 0) : cstr tok = tok := by
  rw [cstr, List.takeWhile_eq_self_iff]
  intro x hx
  simpa using h x hx

theorem formatTag_token (ws tok : List Nat) (c : Nat) (rest : List Nat)
    (hws : ∀ x ∈ ws, isspace x = true) (hne : tok ≠ [])
    (htok : ∀ x ∈ tok, isspace x = false ∧ x ≠ 0) (hc : isspace c = true) :
    formatTag (ws ++ tok ++ c :: rest) = tok := by
  rw [formatTag, List.append_assoc,
    getString_token ws tok c rest [] hws (fun x hx => (htok x hx).1) hne hc]
  exact cstr_of_no_nul tok (fun x hx => (htok x hx).2)

/-- C7.  A file that cannot be opened, and every file whose header string is
none of `P6`, `P5`, `P3`, `P2`, makes `readPPM` return the empty image
(`w = 0`, `h = 0`, no pixels) together with a diagnostic; no fault reaches the
caller.  The header string of the empty file is empty, and that of a file
starting with white space, a token without NUL and a white-space character is
that token. -/
theorem readPPM_failure_returns_empty :
    readPPM none = .ok (Image.empty, some .cantOpenInput) ∧
    (∀ bytes : List Nat, formatTag bytes ≠ [80, 54] → formatTag bytes ≠ [80, 53] →
      formatTag bytes ≠ [80, 51] → formatTag bytes ≠ [80, 50] →
      readPPM (some bytes) = .ok (Image.empty, some .unknownIdentifier)) ∧
    Image.empty = ⟨0, 0, []⟩ ∧
    formatTag [] = [] ∧
    ∀ (ws tok : List Nat) (c : Nat) (rest : List Nat),
      (∀ x ∈ ws, isspace x = true) → tok ≠ [] →
      (∀ x ∈ tok, isspace x = false ∧ x ≠ 0) → isspace c = true →
      formatTag (ws ++ tok ++ c :: rest) = tok := by
  refine ⟨rfl, ?_, rfl, rfl, formatTag_token⟩
  intro bytes h6 h5 h3 h2
  simp only [formatTag] at h6 h5 h3 h2
  simp only [readPPM, h6, h5, h3, h2, if_false]

/-- Witness for C7: the file `P7\n1 1\n255\n` and the empty file. -/
theorem readPPM_failure_returns_empty_witness :
    readPPM (some [80, 55, 10, 49, 32, 49, 10, 50, 53, 53, 10]) =
      .ok (Image.empty, some .unknownIdentifier) ∧
    readPPM (some []) = .ok (Image.empty, some .unknownIdentifier) :=
  ⟨readPPM_failure_returns_empty.2.1 [80, 55, 10, 49, 32, 49, 10, 50, 53, 53, 10]
      (by decide) (by decide) (by decide) (by decide),
    readPPM_failure_returns_empty.2.1 [] (by decide) (by decide) (by decide) (by decide)⟩

/-! ## C8: empty images are not written -/

/-- C8 (as amended).  For an image with `w = 0` or `h = 0`, `savePPM` opens
no file and prints only the diagnostic, whether or not the file could be
opened.  For an image with `w > 0` and `h > 0` whose buffer holds the pixels
the loop reads, at most `2^31 - 1` of them, and a file that can be opened, it
writes the header followed by the body and prints nothing. -/
theorem savePPM_refuses_empty (img : Image) (canOpen : Bool) :
    ((img.w = 0 ∨ img.h = 0) → savePPM img canOpen = .ok ⟨none, some .cantSaveEmpty⟩) ∧
    (0 < img.w → 0 < img.h → img.size ≤ img.pixels.length → img.size ≤ 2147483647 →
      ∃ body, savePPM img true = .ok ⟨some (ppmHeader img ++ body), none⟩ ∧
        body.length = 3 * img.size) := by
  constructor
  · intro h
    simp [savePPM, h]
  · intro hw hh hbuf hsz
    refine ⟨bytesOfPixels (img.pixels.take img.size), savePPM_ok img hw hh hbuf hsz, ?_⟩
    rw [bytesOfPixels_length, List.length_take, Nat.min_eq_left hbuf]

/-- Witness for C8: a 0 by 3 image with a stray buffer is not written, the 1 by
1 black image is. -/
theorem savePPM_refuses_empty_witness :
    savePPM ⟨0, 3, [Image.kBlack]⟩ true = .ok ⟨none, some .cantSaveEmpty⟩ ∧
    ∃ body, savePPM (Image.sized 1 1 Image.kBlack) true =
        .ok ⟨some (ppmHeader (Image.sized 1 1 Image.kBlack) ++ body), none⟩ ∧
      body.length = 3 * (Image.sized 1 1 Image.kBlack).size :=
  ⟨(savePPM_refuses_empty ⟨0, 3, [Image.kBlack]⟩ true).1 (Or.inl rfl),
    (savePPM_refuses_empty (Image.sized 1 1 Image.kBlack) true).2 (by decide) (by decide)
      (by decide) (by decide)⟩

/-- Counterexample to C8 as stated: `Image(3000000000, 1)` has `w > 0`,
`h > 0` and a buffer of `w * h` pixels, and the output can be opened; the body
loop makes the passes `0 .. INT_MAX` and then its `int` counter overflows, so
`savePPM` does not write the header and the body of the image. -/
theorem savePPM_refuses_empty_counterexample :
    0 < hugeImage.w ∧ 0 < hugeImage.h ∧
    hugeImage.pixels.length = hugeImage.w * hugeImage.h ∧
    savePPM hugeImage true = .error .overflow := by
  have hw : 0 < hugeImage.w := by rw [hugeImage_w]; decide
  have hh : 0 < hugeImage.h := by rw [hugeImage_h]; decide
  refine ⟨hw, hh, ?_, ?_⟩
  · rw [hugeImage_length, hugeImage_w, hugeImage_h]
  · apply savePPM_fault hugeImage _ hw hh
    rw [hugeImage_size]
    exact saveLoop_overflow _ _ (by decide) (by rw [hugeImage_length])

/-! ## C9: the header written by `savePPM` -/

/-- C9 (as amended).  For every non-empty image whose buffer holds the pixels
the loop reads, at most `2^31 - 1` of them, the output of `savePPM` is the tag
`P6` and a newline, the decimal width and one space, the decimal height and a
newline, `255` and a newline, then at once the body bytes.  The decimal fields
are digit strings whose value is the width and the height. -/
theorem savePPM_header (img : Image) (hw : 0 < img.w) (hh : 0 < img.h)
    (hbuf : img.size ≤ img.pixels.length) (hsz : img.size ≤ 2147483647) :
    savePPM img true =
      .ok ⟨some ([80, 54] ++ [10] ++ decimal img.w ++ [32] ++ decimal img.h ++ [10] ++
        [50, 53, 53] ++ [10] ++ bytesOfPixels (img.pixels.take img.size)), none⟩ ∧
    (∀ d ∈ decimal img.w, isdigit d = true) ∧ digitsValue (decimal img.w) = img.w ∧
    (∀ d ∈ decimal img.h, isdigit d = true) ∧ digitsValue (decimal img.h) = img.h := by
  refine ⟨?_, decimal_isdigit _, digitsValue_decimal _, decimal_isdigit _, digitsValue_decimal _⟩
  rw [savePPM_ok img hw hh hbuf hsz]
  simp [ppmHeader]

/-- Witness for C9: the 1 by 1 black image is written as `P6\n1 1\n255\n` and
three zero bytes. -/
theorem savePPM_header_witness :
    savePPM (Image.sized 1 1 Image.kBlack) true =
      .ok ⟨some ([80, 54] ++ [10] ++ decimal 1 ++ [32] ++ decimal 1 ++ [10] ++
        [50, 53, 53] ++ [10] ++ [0, 0, 0]), none⟩ :=
  (savePPM_header (Image.sized 1 1 Image.kBlack) (by decide) (by decide) (by decide)
    (by decide)).1

/-- Counterexample to C9 as stated: for the 1 by 1 black image the byte after
the width is a space, so the output is not the four fields `P6`, `1`, `1`,
`255` each followed by a newline and then a body. -/
theorem savePPM_header_counterexample :
    savePPM (Image.sized 1 1 Image.kBlack) true =
      .ok ⟨some [80, 54, 10, 49, 32, 49, 10, 50, 53, 53, 10, 0, 0, 0], none⟩ ∧
    ¬ ∃ body : List Nat,
      [80, 54, 10, 49, 32, 49, 10, 50, 53, 53, 10, 0, 0, 0] =
        [80, 54] ++ [10] ++ decimal 1 ++ [10] ++ decimal 1 ++ [10] ++ decimal 255 ++ [10] ++ body := by
  refine ⟨rfl, ?_⟩
  rintro ⟨body, h⟩
  have h1 : decimal 1 = [49] := by decide
  rw [h1] at h
  simp at h

/-! ## C10: clamped subtraction -/

theorem subAssign_channel (fl : ℚ → ℚ) (hpos : ∀ z : ℚ, 0 ≤ z → 0 ≤ fl z)
    (hneg : ∀ z : ℚ, z ≤ 0 → fl z ≤ 0) (x y : ℚ) :
    (if x > y then fl (x - y) else 0) = max 0 (fl (x - y)) := by
  by_cases h : x > y
  · rw [if_pos h, max_eq_right (hpos _ (by linarith))]
  · rw [if_neg h, max_eq_left (hneg _ (by linarith))]

theorem subAssign_eq_max (fl : ℚ → ℚ) (hpos : ∀ z : ℚ, 0 ≤ z → 0 ≤ fl z)
    (hneg : ∀ z : ℚ, z ≤ 0 → fl z ≤ 0) (p q : Image.Rgb) :
    Image.Rgb.subAssign fl p q =
      ⟨max 0 (fl (p.r - q.r)), max 0 (fl (p.g - q.g)), max 0 (fl (p.b - q.b))⟩ := by
  simp only [Image.Rgb.subAssign, subAssign_channel fl hpos hneg]

theorem roundFloat_five : roundFloat 5 = 5 := by
  have := roundFloat_natCast (n := 5) (by decide)
  simpa using this

/-- C10 (as amended).  For two images of identical dimensions that satisfy the
class invariant and have at most `2^31 - 1` pixels, `operator -` and
`operator -=` both give the image of the receiver's dimensions whose pixel `i`
has the channels `max(0, c_self - c_other)`, the difference being the float
one; no channel of the result is negative, and `operator -` leaves both
operands as they were.  The rounding `fl` of float arithmetic is any function
that keeps the sign.  The pixel (10,10,10) minus (20,5,5) is (0,5,5). -/
theorem sub_clamps_at_zero (fl : ℚ → ℚ) (a b : Image) (hw : a.w = b.w) (hh : a.h = b.h)
    (ha : a.Valid) (hb : b.Valid) (hsz : a.w * a.h ≤ 2147483647)
    (hpos : ∀ z : ℚ, 0 ≤ z → 0 ≤ fl z) (hneg : ∀ z : ℚ, z ≤ 0 → fl z ≤ 0) :
    ∃ d : Image, a.sub fl b = .ok (d, a, b) ∧ a.subAssign fl b = .ok d ∧
      d.w = a.w ∧ d.h = a.h ∧ d.pixels.length = a.pixels.length ∧
      (∀ (i : Nat) (p q : Image.Rgb), a.pixels[i]? = some p → b.pixels[i]? = some q →
        d.pixels[i]? =
          some ⟨max 0 (fl (p.r - q.r)), max 0 (fl (p.g - q.g)), max 0 (fl (p.b - q.b))⟩) ∧
      (∀ p ∈ d.pixels, 0 ≤ p.r ∧ 0 ≤ p.g ∧ 0 ≤ p.b) ∧
      Image.Rgb.subAssign roundFloat ⟨10, 10, 10⟩ ⟨20, 5, 5⟩ = ⟨0, 5, 5⟩ := by
  have hlen : a.pixels.length = b.pixels.length := same_length hw hh ha hb
  refine ⟨⟨a.w, a.h, List.zipWith (Image.Rgb.subAssign fl) a.pixels b.pixels⟩,
    sub_ok fl hw hh ha hb hsz, subAssign_ok fl hw hh ha hb hsz, rfl, rfl, ?_, ?_, ?_, ?_⟩
  · simp [List.length_zipWith, hlen]
  · intro i p q hp hq
    simp only [List.getElem?_zipWith, hp, hq, Option.map_some', Option.bind_some,
      subAssign_eq_max fl hpos hneg]
  · intro p hp
    simp only [List.mem_iff_getElem?] at hp
    obtain ⟨i, hi⟩ := hp
    simp only [List.getElem?_zipWith] at hi
    cases hx : a.pixels[i]? with
    | none => simp [hx] at hi
    | some x =>
      cases hy : b.pixels[i]? with
      | none => simp [hx, hy] at hi
      | some y =>
        simp only [hx, hy, Option.map_some', Option.bind_some, Option.some.injEq] at hi
        subst hi
        rw [subAssign_eq_max fl hpos hneg]
        exact ⟨le_max_left _ _, le_max_left _ _, le_max_left _ _⟩
  · norm_num [Image.Rgb.subAssign, roundFloat_five]

/-- Witness for C10: the 1 by 1 images (10,10,10) and (20,5,5) under the
rounding of binary32. -/
theorem sub_clamps_at_zero_witness :
    ∃ d : Image, Image.sub roundFloat ⟨1, 1, [⟨10, 10, 10⟩]⟩ ⟨1, 1, [⟨20, 5, 5⟩]⟩ =
        .ok (d, ⟨1, 1, [⟨10, 10, 10⟩]⟩, ⟨1, 1, [⟨20, 5, 5⟩]⟩) ∧
      Image.subAssign roundFloat ⟨1, 1, [⟨10, 10, 10⟩]⟩ ⟨1, 1, [⟨20, 5, 5⟩]⟩ = .ok d ∧
      d.pixels[0]? = some ⟨max 0 (roundFloat (10 - 20)), max 0 (roundFloat (10 - 5)),
        max 0 (roundFloat (10 - 5))⟩ := by
  obtain ⟨d, h1, h2, -, -, -, h3, -⟩ :=
    sub_clamps_at_zero roundFloat ⟨1, 1, [⟨10, 10, 10⟩]⟩ ⟨1, 1, [⟨20, 5, 5⟩]⟩ rfl rfl
      (by simp [Image.Valid, Image.size]) (by simp [Image.Valid, Image.size]) (by decide)
      roundFloat_nonneg roundFloat_nonpos
  exact ⟨d, h1, h2, h3 0 ⟨10, 10, 10⟩ ⟨20, 5, 5⟩ rfl rfl⟩

/-- Counterexample to C10 as stated.  `Image(65536, 65536)` minus itself:
the copy constructor in `operator -` allocates `65536 * 65536 mod 2^32 = 0`
entries and copies `12 * 2^32` bytes, beyond the end of both buffers.
`Image(3000000000, 1)` minus itself: the loops of `operator -=` and
`operator -` make the passes `0 .. INT_MAX`, then the `int` counter
overflows. -/
theorem sub_clamps_at_zero_counterexample :
    squareImage.Valid ∧ squareImage.sub roundFloat squareImage = .error .outOfBounds ∧
    hugeImage.Valid ∧ hugeImage.subAssign roundFloat hugeImage = .error .overflow ∧
    hugeImage.sub roundFloat hugeImage = .error .overflow :=
  ⟨sized_valid _ _ _, sub_squareImage _ _, sized_valid _ _ _, subAssign_huge _, sub_huge _⟩

/-! ## The plain-text branches -/

theorem isspace_newline : isspace 10 = true := by decide

theorem dropWhile_nonspace_text (text after : List Nat) :
    (text ++ 10 :: after).dropWhile (fun x => !isspace x) =
      text.dropWhile (fun x => !isspace x) ++ 10 :: after := by
  induction text with
  | nil => simp [isspace_newline]
  | cons x xs ih =>
    by_cases hx : isspace x = true
    · simp [hx]
    · have hx' : isspace x = false := by simpa using hx
      simp [hx', ih]

theorem not_mem_dropWhile {p : Nat → Bool} {a : Nat} (l : List Nat) (h : a ∉ l) :
    a ∉ l.dropWhile p := fun hm => h ((List.dropWhile_sublist p).subset hm)

/-- Extraction `ifs >> l1` on a comment line: the token starts with `#`, and the stream
stands inside the same line. -/
theorem getString_comment (ws text after old : List Nat)
    (hws : ∀ x ∈ ws, isspace x = true) :
    ((IStream.getString ⟨ws ++ 35 :: (text ++ 10 :: after), true⟩ old).1 =
        ⟨text.dropWhile (fun x => !isspace x) ++ 10 :: after, true⟩) ∧
    ((IStream.getString ⟨ws ++ 35 :: (text ++ 10 :: after), true⟩ old).2).head? = some 35 := by
  have h1 : (ws ++ 35 :: (text ++ 10 :: after)).dropWhile isspace = 35 :: (text ++ 10 :: after) :=
    dropWhile_isspace_append ws 35 _ hws (by decide)
  have h35 : isspace 35 = false := by decide
  simp only [IStream.getString, if_true, h1]
  constructor
  · simp [h35, dropWhile_nonspace_text]
  · simp [h35]

/-- Call of `getline` inside a line: the rest of the line is stored and the newline
is discarded. -/
theorem getline_line (text after old : List Nat) (h : 10 ∉ text) :
    IStream.getline ⟨text ++ 10 :: after, true⟩ old = (⟨after, true⟩, text) := by
  have hall : ∀ x ∈ text, (fun c => c != 10) x = true := by
    intro x hx
    have : x ≠ 10 := fun e => h (e ▸ hx)
    simpa using this
  have h1 : (text ++ 10 :: after).dropWhile (fun c => c != 10) = 10 :: after := by
    rw [List.dropWhile_append_of_pos hall]; simp
  have h2 : (text ++ 10 :: after).takeWhile (fun c => c != 10) = text := by
    rw [List.takeWhile_append_of_pos hall]; simp
  simp only [IStream.getline, if_true, h1, h2]

/-- The comment loop over a run of comment lines, entered inside the first of
them, ends at the first token that does not start with `#`. -/
theorem skipComments_lines (cmts : List (List Nat × List Nat)) :
    ∀ (fuel : Nat) (text ws l1 line tok : List Nat) (c : Nat) (rest : List Nat),
      cmts.length + 2 ≤ fuel → l1.head? = some 35 → 10 ∉ text →
      (∀ x ∈ ws, isspace x = true) →
      (∀ e ∈ cmts, 10 ∉ e.1 ∧ ∀ x ∈ e.2, isspace x = true) →
      tok ≠ [] → (∀ x ∈ tok, isspace x = false) → tok.head? ≠ some 35 →
      isspace c = true →
      skipComments fuel ⟨text ++ 10 :: (ws ++ (commentLines cmts ++ (tok ++ c :: rest))), true⟩
          l1 line =
        .ok (⟨c :: rest, true⟩, tok, lineAfter cmts text) := by
  induction cmts with
  | nil =>
    intro fuel text ws l1 line tok c rest hf hl1 htext hws _ hne htok hhead hc
    obtain ⟨f, rfl⟩ : ∃ f, fuel = f + 2 := ⟨fuel - 2, by simp at hf; omega⟩
    have e1 := getline_line text (ws ++ (tok ++ c :: rest)) line htext
    have e2 := getString_token ws tok c rest l1 hws htok hne hc
    simp only [commentLines, List.nil_append, lineAfter]
    rw [skipComments]
    simp only [hl1, if_true, e1, e2]
    rw [skipComments]
    simp [hhead]
  | cons e cmts ih =>
    intro fuel text ws l1 line tok c rest hf hl1 htext hws hcm hne htok hhead hc
    obtain ⟨f, rfl⟩ : ∃ f, fuel = f + 1 := ⟨fuel - 1, by simp at hf; omega⟩
    obtain ⟨t, w⟩ := e
    have he := hcm (t, w) (List.mem_cons_self _ _)
    have e1 := getline_line text
      (ws ++ 35 :: (t ++ 10 :: (w ++ (commentLines cmts ++ (tok ++ c :: rest))))) line htext
    have e2 := getString_comment ws t (w ++ (commentLines cmts ++ (tok ++ c :: rest))) l1 hws
    have hshape : ws ++ (commentLines ((t, w) :: cmts) ++ (tok ++ c :: rest)) =
        ws ++ 35 :: (t ++ 10 :: (w ++ (commentLines cmts ++ (tok ++ c :: rest)))) := by
      simp [commentLines]
    rw [skipComments, hshape]
    simp only [hl1, if_true, e1, e2.1]
    simp only [lineAfter]
    exact ih f (t.dropWhile (fun x => !isspace x)) w _ text tok c rest
      (by simp at hf; omega) e2.2 (not_mem_dropWhile t he.1) he.2
      (fun e' he' => hcm e' (List.mem_cons_of_mem _ he')) hne htok hhead hc

theorem commentLines_length (cmts : List (List Nat × List Nat)) :
    cmts.length ≤ (commentLines cmts).length := by
  induction cmts with
  | nil => simp
  | cons e cmts ih =>
    obtain ⟨t, w⟩ := e
    simp only [commentLines, List.length_cons, List.length_append]
    omega

/-- Extraction `ifs >> l1` and the comment loop on white space, comment lines and the
first token that is no comment. -/
theorem skipComments_header (cmts : List (List Nat × List Nat))
    (fuel : Nat) (ws0 tok : List Nat) (c : Nat) (rest : List Nat)
    (hf : cmts.length + 2 ≤ fuel)
    (hws : ∀ x ∈ ws0, isspace x = true)
    (hcm : ∀ e ∈ cmts, 10 ∉ e.1 ∧ ∀ x ∈ e.2, isspace x = true)
    (hne : tok ≠ []) (htok : ∀ x ∈ tok, isspace x = false) (hhead : tok.head? ≠ some 35)
    (hc : isspace c = true) :
    skipComments fuel
        (IStream.getString ⟨ws0 ++ (commentLines cmts ++ (tok ++ c :: rest)), true⟩ []).1
        (IStream.getString ⟨ws0 ++ (commentLines cmts ++ (tok ++ c :: rest)), true⟩ []).2 [] =
      .ok (⟨c :: rest, true⟩, tok, lineAfter cmts []) := by
  cases cmts with
  | nil =>
    obtain ⟨f, rfl⟩ : ∃ f, fuel = f + 1 := ⟨fuel - 1, by simp at hf; omega⟩
    simp only [commentLines, List.nil_append, lineAfter]
    rw [getString_token ws0 tok c rest [] hws htok hne hc, skipComments]
    simp [hhead]
  | cons e cmts =>
    obtain ⟨t, w⟩ := e
    have he := hcm (t, w) (List.mem_cons_self _ _)
    have e2 := getString_comment ws0 t (w ++ (commentLines cmts ++ (tok ++ c :: rest))) [] hws
    have hshape : ws0 ++ (commentLines ((t, w) :: cmts) ++ (tok ++ c :: rest)) =
        ws0 ++ 35 :: (t ++ 10 :: (w ++ (commentLines cmts ++ (tok ++ c :: rest)))) := by
      simp [commentLines]
    rw [hshape, e2.1]
    simp only [lineAfter]
    exact skipComments_lines cmts fuel (t.dropWhile (fun x => !isspace x)) w _ [] tok c rest
      (by simp at hf; omega) e2.2 (not_mem_dropWhile t he.1) he.2
      (fun e' he' => hcm e' (List.mem_cons_of_mem _ he')) hne htok hhead hc

/-- The header of a plain-text file: white space, comment lines, the first
token `tok1`, white space, the second token `tok2` and a white-space
character.  The width and the height come from `tok1`; `tok2` is extracted and
never used. -/
theorem readPlain_header (loop : Nat → IStream → List Nat → Except Fault (List Image.Rgb))
    (cmts : List (List Nat × List Nat)) (ws0 tok1 : List Nat) (c1 : Nat)
    (ws1 tok2 : List Nat) (c2 : Nat) (rest2 : List Nat)
    (hws0 : ∀ x ∈ ws0, isspace x = true)
    (hcm : ∀ e ∈ cmts, 10 ∉ e.1 ∧ ∀ x ∈ e.2, isspace x = true)
    (hne1 : tok1 ≠ []) (htok1 : ∀ x ∈ tok1, isspace x = false) (hhead : tok1.head? ≠ some 35)
    (hc1 : isspace c1 = true) (hws1 : ∀ x ∈ ws1, isspace x = true)
    (hne2 : tok2 ≠ []) (htok2 : ∀ x ∈ tok2, isspace x = false) (hc2 : isspace c2 = true) :
    readPlain loop
        ⟨ws0 ++ (commentLines cmts ++ (tok1 ++ c1 :: (ws1 ++ (tok2 ++ c2 :: rest2)))), true⟩ =
      match atoi tok1 with
      | .error e => .error e
      | .ok v =>
        match loop (Image.size ⟨toUInt v, toUInt v, []⟩)
            (IStream.getString ⟨c2 :: rest2, true⟩ []).1 (lineAfter cmts []) with
        | .ok ps => .ok ⟨toUInt v, toUInt v, ps⟩
        | .error e => .error e := by
  have hfuel : cmts.length + 2 ≤
      (ws0 ++ (commentLines cmts ++ (tok1 ++ c1 :: (ws1 ++ (tok2 ++ c2 :: rest2))))).length + 2 := by
    have := commentLines_length cmts
    simp only [List.length_append]
    omega
  have e1 := skipComments_header cmts _ ws0 tok1 c1 (ws1 ++ (tok2 ++ c2 :: rest2)) hfuel
    hws0 hcm hne1 htok1 hhead hc1
  have e2 := getString_token (c1 :: ws1) tok2 c2 rest2 []
    (by
      intro x hx
      rcases List.mem_cons.mp hx with h | h
      · rw [h]; exact hc1
      · exact hws1 x h) htok2 hne2 hc2
  simp only [List.cons_append] at e2
  simp only [readPlain, e1, e2]

theorem loopP3_length (n : Nat) : ∀ (s : IStream) (line : List Nat) (ps : List Image.Rgb),
    loopP3 n s line = .ok ps → ps.length = n := by
  induction n with
  | zero =>
    intro s line ps h
    simp only [loopP3, Except.ok.injEq] at h
    rw [← h]; rfl
  | succ k ih =>
    intro s line ps h
    rw [loopP3] at h
    split at h
    · exact absurd h (by simp)
    · split at h
      · exact absurd h (by simp)
      · split at h
        · exact absurd h (by simp)
        · split at h
          · rename_i out hout
            simp only [Except.ok.injEq] at h
            rw [← h, List.length_cons, ih _ _ _ hout]
          · exact absurd h (by simp)

theorem loopP2_length (n : Nat) : ∀ (s : IStream) (line : List Nat) (ps : List Image.Rgb),
    loopP2 n s line = .ok ps → ps.length = n := by
  induction n with
  | zero =>
    intro s line ps h
    simp only [loopP2, Except.ok.injEq] at h
    rw [← h]; rfl
  | succ k ih =>
    intro s line ps h
    rw [loopP2] at h
    split at h
    · exact absurd h (by simp)
    · split at h
      · rename_i out hout
        simp only [Except.ok.injEq] at h
        rw [← h, List.length_cons, ih _ _ _ hout]
      · exact absurd h (by simp)

/-- Whatever the plain-text branch returns has `h = w` and `w * h` pixels in
`unsigned int` arithmetic. -/
theorem readPlain_square (loop : Nat → IStream → List Nat → Except Fault (List Image.Rgb))
    (hloop : ∀ n s line ps, loop n s line = .ok ps → ps.length = n)
    (s : IStream) (img : Image) (h : readPlain loop s = .ok img) :
    img.h = img.w ∧ img.pixels.length = (img.w * img.w) % 4294967296 := by
  simp only [readPlain] at h
  split at h
  · exact absurd h (by simp)
  · split at h
    · exact absurd h (by simp)
    · split at h
      · rename_i ps hps
        simp only [Except.ok.injEq] at h
        subst h
        exact ⟨rfl, hloop _ _ _ _ hps⟩
      · exact absurd h (by simp)

theorem readPPM_plain_square (bytes : List Nat) (img : Image) (d : Option Diag)
    (htag : formatTag bytes = [80, 51] ∨ formatTag bytes = [80, 50])
    (h : readPPM (some bytes) = .ok (img, d)) :
    img.h = img.w ∧ img.pixels.length = (img.w * img.w) % 4294967296 := by
  simp only [formatTag] at htag
  rcases htag with ht | ht
  · rw [readPPM] at h
    simp only [ht] at h
    simp only [show ¬ ([80, 51] : List Nat) = [80, 54] by decide,
      show ¬ ([80, 51] : List Nat) = [80, 53] by decide,
      show ¬ ([80, 50] : List Nat) = [80, 54] by decide,
      show ¬ ([80, 50] : List Nat) = [80, 53] by decide,
      show ¬ ([80, 50] : List Nat) = [80, 51] by decide, if_false, if_true] at h
    split at h
    · rename_i img' himg
      simp only [Except.ok.injEq, Prod.mk.injEq] at h
      rw [← h.1]
      exact readPlain_square loopP3 loopP3_length _ _ himg
    · exact absurd h (by simp)
  · rw [readPPM] at h
    simp only [ht] at h
    simp only [show ¬ ([80, 51] : List Nat) = [80, 54] by decide,
      show ¬ ([80, 51] : List Nat) = [80, 53] by decide,
      show ¬ ([80, 50] : List Nat) = [80, 54] by decide,
      show ¬ ([80, 50] : List Nat) = [80, 53] by decide,
      show ¬ ([80, 50] : List Nat) = [80, 51] by decide, if_false, if_true] at h
    split at h
    · rename_i img' himg
      simp only [Except.ok.injEq, Prod.mk.injEq] at h
      rw [← h.1]
      exact readPlain_square loopP2 loopP2_length _ _ himg
    · exact absurd h (by simp)

/-! ## Well-formed plain-text pixel data -/

theorem isdigit_ne_zero {d : Nat} (h : isdigit d = true) : d ≠ 0 := by
  simp only [isdigit, Bool.and_eq_true, decide_eq_true_eq] at h
  omega

theorem atoi_decimal (v : Nat) (hv : v ≤ 2147483647) : atoi (decimal v) = .ok (v : Int) := by
  have hdig := decimal_isdigit v
  have hval := digitsValue_decimal v
  have hc : cstr (decimal v) = decimal v :=
    cstr_of_no_nul _ (fun x hx => isdigit_ne_zero (hdig x hx))
  cases hdec : decimal v with
  | nil => exact absurd hdec (decimal_ne_nil v)
  | cons d ds =>
    rw [hdec] at hdig hval hc
    have hd : isdigit d = true := hdig d (List.mem_cons_self d ds)
    have hsp : isspace d = false := isspace_of_isdigit hd
    have htake : (d :: ds).takeWhile isdigit = d :: ds := by
      rw [List.takeWhile_eq_self_iff]; exact hdig
    have hrange : INT_MIN ≤ (v : Int) ∧ (v : Int) ≤ INT_MAX := by
      simp only [INT_MIN, INT_MAX]; omega
    simp only [atoi, hc, List.dropWhile_cons_of_neg (show ¬ isspace d = true by simp [hsp]),
      isdigit_ne_plus hd, isdigit_ne_minus hd, Bool.or_self, Bool.false_eq_true, if_false,
      htake, hval, hrange, and_self, if_true]

theorem dataTokens_head (toks : List (List Nat × Nat)) (tail : List Nat)
    (htail : ∀ x ∈ tail, isspace x = true)
    (htoks : ∀ e ∈ toks, e.1 ≠ [] ∧ (∀ x ∈ e.1, isspace x = true) ∧ e.2 ≤ 2147483647) :
    dataTokens toks ++ tail = [] ∨
      ∃ c R, dataTokens toks ++ tail = c :: R ∧ isspace c = true := by
  cases toks with
  | nil =>
    cases tail with
    | nil => left; rfl
    | cons c R => right; exact ⟨c, R, rfl, htail c (List.mem_cons_self _ _)⟩
  | cons e toks =>
    obtain ⟨ws, v⟩ := e
    obtain ⟨hne, hws, -⟩ := htoks (ws, v) (List.mem_cons_self _ _)
    obtain ⟨c, t, rfl⟩ := List.exists_cons_of_ne_nil hne
    right
    exact ⟨c, t ++ (decimal v ++ dataTokens toks) ++ tail, by simp [dataTokens],
      hws c (List.mem_cons_self _ _)⟩

/-- One data token read in a `TokenStream` state succeeds and leaves a
`TokenStream` state. -/
theorem readToken_tokenStream (s : IStream) (line : List Nat) (h : TokenStream s line) :
    ∃ s1 line1 v, readToken s line = .ok (s1, line1, v) ∧ TokenStream s1 line1 := by
  obtain ⟨b, g⟩ := s
  rcases h with ⟨hg, v, hv⟩ | ⟨hg, toks, tail, hbuf, htail, htoks, hsafe⟩
  · simp only at hg
    subst hg
    refine ⟨⟨b, false⟩, line, toUChar v, ?_, Or.inl ⟨rfl, v, hv⟩⟩
    simp only [readToken, getString_not_good, hv]
  · simp only at hg hbuf
    subst hg
    subst hbuf
    cases toks with
    | nil =>
      obtain ⟨v, hv⟩ : ∃ v, atoi line = .ok v := by
        rcases hsafe with h | h
        · exact absurd rfl h
        · exact h
      have hdrop : tail.dropWhile isspace = [] := by
        rw [List.dropWhile_eq_nil_iff]; exact htail
      have e : IStream.getString ⟨dataTokens [] ++ tail, true⟩ line = (⟨[], false⟩, line) := by
        simp only [dataTokens, List.nil_append, IStream.getString, if_true, hdrop]
      refine ⟨⟨[], false⟩, line, toUChar v, ?_, Or.inl ⟨rfl, v, hv⟩⟩
      simp only [readToken, e, hv]
    | cons e toks =>
      obtain ⟨ws, v⟩ := e
      obtain ⟨-, hws, hv⟩ := htoks (ws, v) (List.mem_cons_self _ _)
      have htoks' : ∀ e ∈ toks, e.1 ≠ [] ∧ (∀ x ∈ e.1, isspace x = true) ∧ e.2 ≤ 2147483647 :=
        fun e he => htoks e (List.mem_cons_of_mem _ he)
      have hshape : dataTokens ((ws, v) :: toks) ++ tail =
          ws ++ (decimal v ++ (dataTokens toks ++ tail)) := by
        simp [dataTokens]
      have hnsp : ∀ x ∈ decimal v, isspace x = false :=
        fun x hx => isspace_of_isdigit (decimal_isdigit v x hx)
      rcases dataTokens_head toks tail htail htoks' with hR | ⟨c, R, hR, hc⟩
      · have e : IStream.getString ⟨dataTokens ((ws, v) :: toks) ++ tail, true⟩ line =
            (⟨[], false⟩, decimal v) := by
          rw [hshape, hR, List.append_nil]
          exact getString_token_eof ws (decimal v) line hws hnsp (decimal_ne_nil v)
        refine ⟨⟨[], false⟩, decimal v, toUChar v, ?_, Or.inl ⟨rfl, v, atoi_decimal v hv⟩⟩
        simp only [readToken, e, atoi_decimal v hv]
      · have e : IStream.getString ⟨dataTokens ((ws, v) :: toks) ++ tail, true⟩ line =
            (⟨dataTokens toks ++ tail, true⟩, decimal v) := by
          rw [hshape, hR]
          exact getString_token ws (decimal v) c R line hws hnsp (decimal_ne_nil v) hc
        refine ⟨⟨dataTokens toks ++ tail, true⟩, decimal v, toUChar v, ?_,
          Or.inr ⟨rfl, toks, tail, rfl, htail, htoks', Or.inr ⟨v, atoi_decimal v hv⟩⟩⟩
        simp only [readToken, e, atoi_decimal v hv]

theorem loopP3_tokenStream (n : Nat) : ∀ (s : IStream) (line : List Nat),
    TokenStream s line → ∃ ps, loopP3 n s line = .ok ps := by
  induction n with
  | zero => intro s line _; exact ⟨[], rfl⟩
  | succ k ih =>
    intro s line h
    obtain ⟨s1, l1, r, e1, h1⟩ := readToken_tokenStream s line h
    obtain ⟨s2, l2, g, e2, h2⟩ := readToken_tokenStream s1 l1 h1
    obtain ⟨s3, l3, b, e3, h3⟩ := readToken_tokenStream s2 l2 h2
    obtain ⟨ps, e4⟩ := ih s3 l3 h3
    exact ⟨⟨byteToFloat r, byteToFloat g, byteToFloat b⟩ :: ps,
      by simp only [loopP3, e1, e2, e3, e4]⟩

theorem loopP2_tokenStream (n : Nat) : ∀ (s : IStream) (line : List Nat),
    TokenStream s line → ∃ ps, loopP2 n s line = .ok ps := by
  induction n with
  | zero => intro s line _; exact ⟨[], rfl⟩
  | succ k ih =>
    intro s line h
    obtain ⟨s1, l1, r, e1, h1⟩ := readToken_tokenStream s line h
    obtain ⟨ps, e4⟩ := ih s1 l1 h1
    exact ⟨Image.Rgb.gray (byteToFloat r) :: ps, by simp only [loopP2, e1, e4]⟩

/-! ## C6: the dimensions in the plain-text branches -/

theorem decimal_head_ne_hash (n : Nat) : (decimal n).head? ≠ some 35 := by
  cases h : decimal n with
  | nil => simp
  | cons d ds =>
    have hd : isdigit d = true := decimal_isdigit n d (by rw [h]; exact List.mem_cons_self _ _)
    simp only [isdigit, Bool.and_eq_true, decide_eq_true_eq] at hd
    simp only [List.head?_cons, ne_eq, Option.some.injEq]
    omega

theorem size_square (W : Nat) (hW : W ≤ 2147483647) :
    Image.size ⟨toUInt (W : Int), toUInt (W : Int), []⟩ = (W * W) % 4294967296 := by
  rw [Image.size, toUInt_natCast (by simp only [INT_MAX]; omega)]

/-- The plain-text branch on a header whose first token after the comments is
the decimal numeral `W`. -/
theorem readPlain_decimal (loop : Nat → IStream → List Nat → Except Fault (List Image.Rgb))
    (cmts : List (List Nat × List Nat)) (ws0 : List Nat) (W : Nat)
    (ws1 tok2 ws2 rest : List Nat)
    (hws0 : ∀ x ∈ ws0, isspace x = true)
    (hcm : ∀ e ∈ cmts, 10 ∉ e.1 ∧ ∀ x ∈ e.2, isspace x = true)
    (hW : W ≤ 2147483647)
    (hne1 : ws1 ≠ []) (hws1 : ∀ x ∈ ws1, isspace x = true)
    (hne2 : tok2 ≠ []) (htok2 : ∀ x ∈ tok2, isspace x = false)
    (hne3 : ws2 ≠ []) (hws2 : ∀ x ∈ ws2, isspace x = true) :
    readPlain loop
        ⟨ws0 ++ (commentLines cmts ++ (decimal W ++ (ws1 ++ (tok2 ++ (ws2 ++ rest))))), true⟩ =
      match loop ((W * W) % 4294967296) (IStream.getString ⟨ws2 ++ rest, true⟩ []).1
          (lineAfter cmts []) with
      | .ok ps => .ok ⟨W, W, ps⟩
      | .error e => .error e := by
  obtain ⟨c1, t1, rfl⟩ := List.exists_cons_of_ne_nil hne1
  obtain ⟨c2, t2, rfl⟩ := List.exists_cons_of_ne_nil hne3
  have h := readPlain_header loop cmts ws0 (decimal W) c1 t1 tok2 c2 (t2 ++ rest) hws0 hcm
    (decimal_ne_nil W) (fun x hx => isspace_of_isdigit (decimal_isdigit W x hx))
    (decimal_head_ne_hash W) (hws1 c1 (List.mem_cons_self _ _))
    (fun x hx => hws1 x (List.mem_cons_of_mem _ hx)) hne2 htok2
    (hws2 c2 (List.mem_cons_self _ _))
  simp only [List.cons_append] at h ⊢
  rw [h]
  simp only [atoi_decimal W hW, size_square W hW]
  simp only [toUInt_natCast (show (W : Int) ≤ INT_MAX by simp only [INT_MAX]; omega)]

/-- Dispatch of `readPPM` on a file that starts with the tag `P3` and white
space. -/
theorem readPPM_P3_dispatch (ws0 rest : List Nat) (hne : ws0 ≠ [])
    (hws0 : ∀ x ∈ ws0, isspace x = true) :
    readPPM (some ([80, 51] ++ (ws0 ++ rest))) =
      match readPlain loopP3 ⟨ws0 ++ rest, true⟩ with
      | .ok img => .ok (img, none)
      | .error e => .error e := by
  obtain ⟨c0, t0, rfl⟩ := List.exists_cons_of_ne_nil hne
  have eh := getString_token [] [80, 51] c0 (t0 ++ rest) [] (by simp) (by decide) (by simp)
    (hws0 c0 (List.mem_cons_self _ _))
  simp only [List.nil_append, List.cons_append] at eh
  simp only [readPPM, List.cons_append, List.nil_append, eh]
  simp [cstr]

/-- Dispatch of `readPPM` on a file that starts with the tag `P2` and white
space. -/
theorem readPPM_P2_dispatch (ws0 rest : List Nat) (hne : ws0 ≠ [])
    (hws0 : ∀ x ∈ ws0, isspace x = true) :
    readPPM (some ([80, 50] ++ (ws0 ++ rest))) =
      match readPlain loopP2 ⟨ws0 ++ rest, true⟩ with
      | .ok img => .ok (img, none)
      | .error e => .error e := by
  obtain ⟨c0, t0, rfl⟩ := List.exists_cons_of_ne_nil hne
  have eh := getString_token [] [80, 50] c0 (t0 ++ rest) [] (by simp) (by decide) (by simp)
    (hws0 c0 (List.mem_cons_self _ _))
  simp only [List.nil_append, List.cons_append] at eh
  simp only [readPPM, List.cons_append, List.nil_append, eh]
  simp [cstr]

/-- The stream handed to the pixel loop when the header is followed by a third
token and at least one data token. -/
theorem getString_before_data (ws2 tok3 : List Nat) (toks : List (List Nat × Nat))
    (tail : List Nat)
    (hws2 : ∀ x ∈ ws2, isspace x = true)
    (hne : tok3 ≠ []) (htok3 : ∀ x ∈ tok3, isspace x = false)
    (hnt : toks ≠ [])
    (htoks : ∀ e ∈ toks, e.1 ≠ [] ∧ (∀ x ∈ e.1, isspace x = true) ∧ e.2 ≤ 2147483647)
    (htail : ∀ x ∈ tail, isspace x = true) (line : List Nat) :
    TokenStream (IStream.getString ⟨ws2 ++ (tok3 ++ (dataTokens toks ++ tail)), true⟩ []).1
      line := by
  rcases dataTokens_head toks tail htail htoks with hR | ⟨c, R, hR, hc⟩
  · cases toks with
    | nil => exact absurd rfl hnt
    | cons e toks =>
      obtain ⟨ws, v⟩ := e
      obtain ⟨hne', -, -⟩ := htoks (ws, v) (List.mem_cons_self _ _)
      obtain ⟨c, t, rfl⟩ := List.exists_cons_of_ne_nil hne'
      simp [dataTokens] at hR
  · rw [hR, getString_token ws2 tok3 c R [] hws2 htok3 hne hc, ← hR]
    exact Or.inr ⟨rfl, toks, tail, rfl, htail, htoks, Or.inl hnt⟩

/-- C6 (as amended).  For a `P3` or `P2` file whose header is white space,
comment lines, the decimal numeral `W ≤ 2^31 - 1`, white space, a second token
and white space:
every image `readPPM` returns has width `W`, height `W` and `W * W` pixels,
the product reduced modulo `2^32`; replacing the second token by any other
token leaves the result of `readPPM` unchanged; and when a third token and at
least one decimal data token follow, `readPPM` does return an image.
Moreover every image returned for any file with the tag `P3` or `P2` has
`h = w` and `w * w` pixels modulo `2^32`. -/
theorem readPPM_plain_height_is_width (tag : List Nat)
    (htag : tag = [80, 51] ∨ tag = [80, 50])
    (ws0 : List Nat) (cmts : List (List Nat × List Nat)) (W : Nat)
    (ws1 tok2 ws2 rest : List Nat)
    (hne0 : ws0 ≠ []) (hws0 : ∀ x ∈ ws0, isspace x = true)
    (hcm : ∀ e ∈ cmts, 10 ∉ e.1 ∧ ∀ x ∈ e.2, isspace x = true)
    (hW : W ≤ 2147483647)
    (hne1 : ws1 ≠ []) (hws1 : ∀ x ∈ ws1, isspace x = true)
    (hne2 : tok2 ≠ []) (htok2 : ∀ x ∈ tok2, isspace x = false)
    (hne3 : ws2 ≠ []) (hws2 : ∀ x ∈ ws2, isspace x = true) :
    (∀ img d, readPPM (some (tag ++ ws0 ++ commentLines cmts ++ decimal W ++ ws1 ++ tok2 ++
          ws2 ++ rest)) = .ok (img, d) →
        img.w = W ∧ img.h = W ∧ img.pixels.length = (W * W) % 4294967296) ∧
    (∀ tok2' : List Nat, tok2' ≠ [] → (∀ x ∈ tok2', isspace x = false) →
        readPPM (some (tag ++ ws0 ++ commentLines cmts ++ decimal W ++ ws1 ++ tok2' ++
          ws2 ++ rest)) =
        readPPM (some (tag ++ ws0 ++ commentLines cmts ++ decimal W ++ ws1 ++ tok2 ++
          ws2 ++ rest))) ∧
    (∀ (tok3 : List Nat) (toks : List (List Nat × Nat)) (tail : List Nat),
        tok3 ≠ [] → (∀ x ∈ tok3, isspace x = false) → toks ≠ [] →
        (∀ e ∈ toks, e.1 ≠ [] ∧ (∀ x ∈ e.1, isspace x = true) ∧ e.2 ≤ 2147483647) →
        (∀ x ∈ tail, isspace x = true) → rest = tok3 ++ dataTokens toks ++ tail →
        ∃ img, readPPM (some (tag ++ ws0 ++ commentLines cmts ++ decimal W ++ ws1 ++ tok2 ++
          ws2 ++ rest)) = .ok (img, none)) ∧
    (∀ (bytes : List Nat) (img : Image) (d : Option Diag),
        formatTag bytes = [80, 51] ∨ formatTag bytes = [80, 50] →
        readPPM (some bytes) = .ok (img, d) →
        img.h = img.w ∧ img.pixels.length = (img.w * img.w) % 4294967296) := by
  obtain ⟨loop, hl, key⟩ : ∃ loop : Nat → IStream → List Nat → Except Fault (List Image.Rgb),
      (loop = loopP3 ∨ loop = loopP2) ∧
      ∀ t2 : List Nat, t2 ≠ [] → (∀ x ∈ t2, isspace x = false) →
        readPPM (some (tag ++ ws0 ++ commentLines cmts ++ decimal W ++ ws1 ++ t2 ++
          ws2 ++ rest)) =
        match loop ((W * W) % 4294967296) (IStream.getString ⟨ws2 ++ rest, true⟩ []).1
            (lineAfter cmts []) with
        | .ok ps => .ok (⟨W, W, ps⟩, none)
        | .error e => .error e := by
    rcases htag with rfl | rfl
    · refine ⟨loopP3, Or.inl rfl, ?_⟩
      intro t2 hn2 ht2
      simp only [List.append_assoc]
      rw [readPPM_P3_dispatch ws0 _ hne0 hws0,
        readPlain_decimal loopP3 cmts ws0 W ws1 t2 ws2 rest hws0 hcm hW hne1 hws1 hn2 ht2
          hne3 hws2]
      cases loopP3 ((W * W) % 4294967296) (IStream.getString ⟨ws2 ++ rest, true⟩ []).1
        (lineAfter cmts []) <;> rfl
    · refine ⟨loopP2, Or.inr rfl, ?_⟩
      intro t2 hn2 ht2
      simp only [List.append_assoc]
      rw [readPPM_P2_dispatch ws0 _ hne0 hws0,
        readPlain_decimal loopP2 cmts ws0 W ws1 t2 ws2 rest hws0 hcm hW hne1 hws1 hn2 ht2
          hne3 hws2]
      cases loopP2 ((W * W) % 4294967296) (IStream.getString ⟨ws2 ++ rest, true⟩ []).1
        (lineAfter cmts []) <;> rfl
  have hloopLen : ∀ loop : Nat → IStream → List Nat → Except Fault (List Image.Rgb),
      (loop = loopP3 ∨ loop = loopP2) → ∀ n s line ps, loop n s line = .ok ps → ps.length = n := by
    intro loop hl
    rcases hl with rfl | rfl
    · exact fun n => loopP3_length n
    · exact fun n => loopP2_length n
  have hloopLive : ∀ loop : Nat → IStream → List Nat → Except Fault (List Image.Rgb),
      (loop = loopP3 ∨ loop = loopP2) → ∀ n s line, TokenStream s line →
        ∃ ps, loop n s line = .ok ps := by
    intro loop hl
    rcases hl with rfl | rfl
    · exact fun n => loopP3_tokenStream n
    · exact fun n => loopP2_tokenStream n
  refine ⟨?_, ?_, ?_, readPPM_plain_square⟩
  · intro img d h
    have e := key tok2 hne2 htok2
    rw [e] at h
    split at h
    · rename_i ps hps
      simp only [Except.ok.injEq, Prod.mk.injEq] at h
      rw [← h.1]
      exact ⟨rfl, rfl, hloopLen loop hl _ _ _ _ hps⟩
    · exact absurd h (by simp)
  · intro tok2' hn ht
    rw [key tok2 hne2 htok2, key tok2' hn ht]
  · intro tok3 toks tail hn3 ht3 hnt htoks htail hrest
    have e := key tok2 hne2 htok2
    have hts : TokenStream (IStream.getString ⟨ws2 ++ rest, true⟩ []).1 (lineAfter cmts []) := by
      rw [hrest, List.append_assoc]
      exact getString_before_data ws2 tok3 toks tail hws2 hn3 ht3 hnt htoks htail _
    obtain ⟨ps, hps⟩ := hloopLive loop hl _ _ _ hts
    exact ⟨⟨W, W, ps⟩, by rw [e, hps]⟩

/-- Witness for C6: the file `P3\n# hi\n1 2\n255\n7 8 9\n`, one comment line,
first token 1 and second token 2, decodes to a 1 by 1 image. -/
theorem readPPM_plain_height_is_width_witness :
    ∃ img, readPPM (some ([80, 51] ++ [10] ++ commentLines [([32, 104, 105], [])] ++ decimal 1 ++
        [32] ++ decimal 2 ++ [10] ++
        (decimal 255 ++ dataTokens [([10], 7), ([32], 8), ([32], 9)] ++ [10]))) = .ok (img, none) ∧
      img.w = 1 ∧ img.h = 1 ∧ img.pixels.length = (1 * 1) % 4294967296 := by
  have h := readPPM_plain_height_is_width [80, 51] (Or.inl rfl) [10] [([32, 104, 105], [])] 1
    [32] (decimal 2) [10] (decimal 255 ++ dataTokens [([10], 7), ([32], 8), ([32], 9)] ++ [10])
    (by decide) (by decide) (by decide) (by decide) (by decide) (by decide) (by decide)
    (by decide) (by decide) (by decide)
  obtain ⟨img, himg⟩ := h.2.2.1 (decimal 255) [([10], 7), ([32], 8), ([32], 9)] [10]
    (by decide) (by decide) (by decide) (by decide) (by decide) rfl
  exact ⟨img, himg, h.1 img none himg⟩

/-- Counterexample to C6 as stated: the file `P3\n65536 1\n255\n` returns an
image of width and height 65536 that holds no pixel at all, not `width *
width` of them: the `unsigned int` product `65536 * 65536` is 0. -/
theorem readPPM_plain_height_is_width_counterexample :
    readPPM (some ([80, 51] ++ [10] ++ decimal 65536 ++ [32] ++ decimal 1 ++ [10] ++
        decimal 255 ++ [10])) = .ok (⟨65536, 65536, []⟩, none) ∧
    ([] : List Image.Rgb).length ≠ 65536 * 65536 := by
  refine ⟨rfl, by decide⟩

/-! ## Further properties of the decoder -/

theorem loopP5_payload (payload : List Nat) (hns : ∀ x ∈ payload, isspace x = false) :
    ∀ pix : Option Nat,
      loopP5 payload.length ⟨payload, true⟩ pix =
        .ok (payload.map (fun c => Image.Rgb.gray (byteToFloat c))) := by
  induction payload with
  | nil => intro pix; rfl
  | cons c cs ih =>
    intro pix
    have hc : isspace c = false := hns c (List.mem_cons_self _ _)
    have e : IStream.getChar ⟨c :: cs, true⟩ pix = (⟨cs, true⟩, some c) := by
      simp [IStream.getChar, hc]
    simp only [List.length_cons, loopP5, e, List.map_cons]
    rw [ih (fun x hx => hns x (List.mem_cons_of_mem _ hx)) (some c)]

/-- Binary grayscale decode on a payload free of white-space bytes: a `P5`
file made of the tag, the decimal numbers `W`, `H`, `M`, each preceded by white
space, one newline and `W * H` payload bytes none of which is a white-space
character (9..13 or 32), with `W`, `H`, `M`, `W * H` at most `2^31 - 1`, decodes
to the `W` by `H` image whose pixel `i` has payload byte `i` in all three
channels. -/
theorem readPPM_P5_decode_no_space (ws1 ws2 ws3 : List Nat) (W H M : Nat) (payload : List Nat)
    (h1 : ∀ x ∈ ws1, isspace x = true) (n1 : ws1 ≠ [])
    (h2 : ∀ x ∈ ws2, isspace x = true) (n2 : ws2 ≠ [])
    (h3 : ∀ x ∈ ws3, isspace x = true) (n3 : ws3 ≠ [])
    (hW : W ≤ 2147483647) (hH : H ≤ 2147483647) (hM : M ≤ 2147483647)
    (hWH : W * H ≤ 2147483647) (hlen : payload.length = W * H)
    (hns : ∀ x ∈ payload, isspace x = false) :
    readPPM (some ([80, 53] ++ ws1 ++ decimal W ++ ws2 ++ decimal H ++ ws3 ++ decimal M ++
        [10] ++ payload)) =
      .ok (⟨W, H, payload.map (fun c => Image.Rgb.gray (byteToFloat c))⟩, none) := by
  obtain ⟨c1, t1, rfl⟩ := List.exists_cons_of_ne_nil n1
  have hc1 : isspace c1 = true := h1 c1 (List.mem_cons_self _ _)
  have eh := getString_token [] [80, 53] c1
    (t1 ++ (decimal W ++ (ws2 ++ (decimal H ++ (ws3 ++ (decimal M ++ 10 :: payload))))))
    [] (by simp) (by decide) (by simp) hc1
  simp only [List.nil_append, List.cons_append] at eh
  have eb := readBinary_header (fun n s => loopP5 n s none) (c1 :: t1) ws2 ws3
    W H M payload h1 h2 n2 h3 n3 (by simp only [INT_MAX]; omega) (by simp only [INT_MAX]; omega)
    (by simp only [INT_MAX]; omega) (by simp only [INT_MAX]; omega)
  simp only [List.cons_append] at eb
  simp only [List.append_assoc, List.singleton_append, readPPM, List.cons_append,
    List.nil_append, eh, eb]
  rw [← hlen, loopP5_payload payload hns none]
  simp [cstr]

/-- Witness: the file `P5\n2 1\n255\nAB`. -/
theorem readPPM_P5_decode_no_space_witness :
    readPPM (some ([80, 53] ++ [10] ++ decimal 2 ++ [32] ++ decimal 1 ++ [10] ++ decimal 255 ++
        [10] ++ [65, 66])) =
      .ok (⟨2, 1, [65, 66].map (fun c => Image.Rgb.gray (byteToFloat c))⟩, none) :=
  readPPM_P5_decode_no_space [10] [32] [10] 2 1 255 [65, 66] (by decide) (by decide) (by decide)
    (by decide) (by decide) (by decide) (by decide) (by decide) (by decide) (by decide)
    (by decide) (by decide)

/-- A plain-text file whose data ends inside a comment line never leaves the
comment loop: for a `P3` file made of the tag, a newline, `#` and a text with
no newline up to the end of the file, `readPPM` does not return. -/
theorem readPPM_P3_comment_at_eof (text : List Nat) (h : 10 ∉ text) :
    readPPM (some ([80, 51, 10, 35] ++ text)) = .error .diverges := by
  have eh := getString_token [] [80, 51] 10 (35 :: text) [] (by simp) (by decide) (by simp)
    (by decide)
  simp only [List.nil_append, List.cons_append] at eh
  have h35 : isspace 35 = false := by decide
  have hall : ∀ x ∈ text.dropWhile (fun x => !isspace x), (fun c => c != 10) x = true := by
    intro x hx
    have hx' : x ∈ text := (List.dropWhile_sublist _).subset hx
    have : x ≠ 10 := fun e => h (e ▸ hx')
    simpa using this
  have hdrop : (text.dropWhile (fun x => !isspace x)).dropWhile (fun c => c != 10) = [] := by
    rw [List.dropWhile_eq_nil_iff]; exact hall
  have e1 : IStream.getString ⟨10 :: 35 :: text, true⟩ [] =
      (⟨text.dropWhile (fun x => !isspace x),
        !(text.dropWhile (fun x => !isspace x)).isEmpty⟩,
        35 :: text.takeWhile (fun x => !isspace x)) := by
    simp [IStream.getString, isspace_newline, h35]
  simp only [readPPM, List.cons_append, List.nil_append, eh, readPlain, e1]
  have hcs : cstr [80, 51] = [80, 51] := by decide
  simp only [hcs, show ¬ ([80, 51] : List Nat) = [80, 54] by decide,
    show ¬ ([80, 51] : List Nat) = [80, 53] by decide, if_false, if_true]
  cases hd : text.dropWhile (fun x => !isspace x) with
  | nil =>
    simp [skipComments]
  | cons x xs =>
    rw [hd] at hdrop
    simp [skipComments, IStream.getline, hdrop, IStream.getString]

/-- Witness: the file `P3\n# hello`. -/
theorem readPPM_P3_comment_at_eof_witness :
    readPPM (some ([80, 51, 10, 35] ++ [32, 104, 101, 108, 108, 111])) = .error .diverges :=
  readPPM_P3_comment_at_eof [32, 104, 101, 108, 108, 111] (by decide)

/-! ## The fuel of the comment loop -/

theorem skipComments_not_good (k : Nat) (s : IStream) (l1 line : List Nat)
    (hg : s.good = false) (hl : l1.head? = some 35) :
    skipComments k s l1 line = .error .diverges := by
  cases k with
  | zero => rfl
  | succ k => simp [skipComments, hl, hg]

theorem getline_buf_length (s : IStream) (line : List Nat) (hg : s.good = true)
    (hne : s.buf ≠ []) : (s.getline line).1.buf.length < s.buf.length := by
  obtain ⟨b, g⟩ := s
  simp only at hg hne
  subst hg
  have hle := (List.dropWhile_sublist (fun c => c != 10) (l := b)).length_le
  simp only [IStream.getline, if_true]
  cases hd : b.dropWhile (fun c => c != 10) with
  | nil =>
    simp only [List.length_nil]
    exact List.length_pos.mpr hne
  | cons x xs =>
    rw [hd] at hle
    simp only [List.length_cons] at hle ⊢
    omega

theorem getString_buf_length (s : IStream) (old : List Nat) :
    (s.getString old).1.buf.length ≤ s.buf.length := by
  obtain ⟨b, g⟩ := s
  cases g with
  | false => simp [IStream.getString]
  | true =>
    have hle := (List.dropWhile_sublist isspace (l := b)).length_le
    simp only [IStream.getString, if_true]
    cases hd : b.dropWhile isspace with
    | nil => simp
    | cons c cs =>
      rw [hd] at hle
      have hle2 := (List.dropWhile_sublist (fun x => !isspace x) (l := c :: cs)).length_le
      simp only at hle2 ⊢
      omega

/-- The comment loop never stops for lack of fuel: with more fuel than the
stream has bytes the result does not depend on the fuel, so the result
`diverges` stands for a loop that runs for ever. -/
theorem skipComments_fuel (n : Nat) : ∀ (s : IStream) (l1 line : List Nat) (f1 f2 : Nat),
    s.buf.length ≤ n → n + 1 ≤ f1 → n + 1 ≤ f2 →
    skipComments f1 s l1 line = skipComments f2 s l1 line := by
  induction n with
  | zero =>
    intro s l1 line f1 f2 hn h1 h2
    obtain ⟨a, rfl⟩ : ∃ a, f1 = a + 1 := ⟨f1 - 1, by omega⟩
    obtain ⟨b, rfl⟩ : ∃ b, f2 = b + 1 := ⟨f2 - 1, by omega⟩
    have hb : s.buf = [] := List.length_eq_zero.mp (by omega)
    obtain ⟨buf, g⟩ := s
    simp only at hb
    subst hb
    rw [skipComments, skipComments]
    by_cases hl : l1.head? = some 35
    · cases g with
      | false => simp [hl]
      | true =>
        simp only [hl, if_true]
        have e1 : IStream.getline ⟨[], true⟩ line = (⟨[], false⟩, []) := by
          simp [IStream.getline]
        rw [e1, getString_not_good]
        rw [skipComments_not_good a _ _ _ rfl hl, skipComments_not_good b _ _ _ rfl hl]
    · simp [hl]
  | succ n ih =>
    intro s l1 line f1 f2 hn h1 h2
    obtain ⟨a, rfl⟩ : ∃ a, f1 = a + 1 := ⟨f1 - 1, by omega⟩
    obtain ⟨b, rfl⟩ : ∃ b, f2 = b + 1 := ⟨f2 - 1, by omega⟩
    rw [skipComments, skipComments]
    by_cases hl : l1.head? = some 35
    · by_cases hg : s.good = true
      · simp only [hl, hg, if_true]
        by_cases hne : s.buf = []
        · have hlen : ((s.getline line).1.getString l1).1.buf.length ≤ n := by
            have := getString_buf_length (s.getline line).1 l1
            have hle : (s.getline line).1.buf.length ≤ s.buf.length := by
              obtain ⟨buf, g⟩ := s
              simp only at hne hg
              subst hne
              subst hg
              simp [IStream.getline]
            rw [hne] at hle
            simp only [List.length_nil] at hle
            omega
          exact ih _ _ _ a b hlen (by omega) (by omega)
        · have hlt := getline_buf_length s line hg hne
          have hle := getString_buf_length (s.getline line).1 l1
          exact ih _ _ _ a b (by omega) (by omega) (by omega)
      · simp [hl, hg]
    · simp [hl]


/-! ## C11: `operator +=` averages -/

theorem roundFloat_one : roundFloat 1 = 1 := by
  have := roundFloat_natCast (n := 1) (by decide)
  simpa using this

theorem roundFloat_half : roundFloat (1 / 2) = 1 / 2 := by
  have := roundFloat_mantissa 1 (-1) (by decide) (by decide)
  norm_num at this
  exact this

theorem roundFloat_255 : roundFloat 255 = 255 := by
  have := roundFloat_natCast (n := 255) (by decide)
  simpa using this

theorem roundFloat_half_255 : roundFloat (255 / 2) = 255 / 2 := by
  have := roundFloat_mantissa 255 (-1) (by decide) (by decide)
  norm_num at this
  rw [show (255 / 2 : ℚ) = 255 * 2⁻¹ by norm_num]
  exact this

/-- C11 (as amended).  For two images of identical dimensions that satisfy the
class invariant and have at most `2^31 - 1` pixels, `operator +=` leaves the
receiver with its width and height and with every channel of pixel `i` equal
to `(old_self[i] + other[i]) * 0.5`, the sum and the product being the float
ones (`fl` is the rounding).  An all-black image `+=` an all-white image of the
same size is all (127.5,127.5,127.5). -/
theorem addAssign_is_average (fl : ℚ → ℚ) (a b : Image) (hw : a.w = b.w) (hh : a.h = b.h)
    (ha : a.Valid) (hb : b.Valid) (hsz : a.w * a.h ≤ 2147483647) :
    ∃ d : Image, a.addAssign fl b = .ok d ∧ d.w = a.w ∧ d.h = a.h ∧
      d.pixels.length = a.pixels.length ∧
      (∀ (i : Nat) (p q : Image.Rgb), a.pixels[i]? = some p → b.pixels[i]? = some q →
        d.pixels[i]? = some ⟨fl (fl (p.r + q.r) * (1 / 2)), fl (fl (p.g + q.g) * (1 / 2)),
          fl (fl (p.b + q.b) * (1 / 2))⟩) ∧
      (∀ w h : Nat, w * h ≤ 2147483647 →
        (Image.sized w h Image.kBlack).addAssign roundFloat
          (Image.sized w h (Image.Rgb.gray 255)) =
            .ok (Image.sized w h (Image.Rgb.gray (255 / 2)))) := by
  refine ⟨_, addAssign_ok fl hw hh ha hb hsz, rfl, rfl, ?_, ?_, ?_⟩
  · simp [List.length_zipWith, same_length hw hh ha hb]
  · intro i p q hp hq
    rw [getElem?_zipWith_some hp hq]
    rfl
  · intro w h hwh
    rw [addAssign_ok roundFloat (a := Image.sized w h Image.kBlack)
      (b := Image.sized w h (Image.Rgb.gray 255)) rfl rfl (sized_valid _ _ _)
      (sized_valid _ _ _) hwh]
    simp only [Image.sized, List.zipWith_replicate, Nat.min_self]
    norm_num [Image.Rgb.addAssign, Image.Rgb.mulAssign, Image.kBlack, Image.Rgb.gray,
      roundFloat_255, roundFloat_half_255]

/-- Witness for C11: the 1 by 1 black image `+=` the 1 by 1 white image under
the rounding of binary32. -/
theorem addAssign_is_average_witness :
    ∃ d : Image,
      Image.addAssign roundFloat ⟨1, 1, [⟨0, 0, 0⟩]⟩ ⟨1, 1, [⟨255, 255, 255⟩]⟩ = .ok d ∧
      d.pixels[0]? = some ⟨roundFloat (roundFloat (0 + 255) * (1 / 2)),
        roundFloat (roundFloat (0 + 255) * (1 / 2)),
        roundFloat (roundFloat (0 + 255) * (1 / 2))⟩ ∧
      roundFloat (roundFloat (0 + 255) * (1 / 2)) = 255 / 2 := by
  obtain ⟨d, h1, -, -, -, h2, -⟩ :=
    addAssign_is_average roundFloat ⟨1, 1, [⟨0, 0, 0⟩]⟩ ⟨1, 1, [⟨255, 255, 255⟩]⟩ rfl rfl
      (by simp [Image.Valid, Image.size]) (by simp [Image.Valid, Image.size]) (by decide)
  refine ⟨d, h1, h2 0 ⟨0, 0, 0⟩ ⟨255, 255, 255⟩ rfl rfl, ?_⟩
  norm_num [roundFloat_255, roundFloat_half_255]

/-- Counterexample to C11 as stated: `Image(3000000000, 1)` `+=` itself.  The
loop makes the passes `0 .. INT_MAX`, then its `int` counter overflows; the
receiver is not left with the averages. -/
theorem addAssign_is_average_counterexample :
    hugeImage.Valid ∧ hugeImage.pixels.length = 3000000000 ∧
    hugeImage.addAssign roundFloat hugeImage = .error .overflow :=
  ⟨sized_valid _ _ _, hugeImage_length, addAssign_huge _⟩

/-! ## C13: `operator *` -/

theorem mulAssign_one (fl : ℚ → ℚ) (p : Image.Rgb)
    (h : fl p.r = p.r ∧ fl p.g = p.g ∧ fl p.b = p.b) : p.mulAssign fl 1 = p := by
  simp only [Image.Rgb.mulAssign, mul_one, h.1, h.2.1, h.2.2]

theorem mulAssign_zero (fl : ℚ → ℚ) (h0 : fl 0 = 0) (p : Image.Rgb) :
    p.mulAssign fl 0 = Image.kBlack := by
  simp [Image.Rgb.mulAssign, Image.kBlack, Image.Rgb.gray, h0]

/-- C13 (as amended).  For every image that satisfies the class invariant and
has at most `2^31 - 1` pixels, and every scalar `s`, `operator *` returns an
image of the same width and height whose pixel `i` has the channels `s * c` of
the receiver's pixel `i`, the product being the float one (`fl` is the
rounding), and the receiver is after the call what it was before.  With `s = 1`
the result is the receiver when its channels are floats, with `s = 0` it is
the all-black image of the same dimensions. -/
theorem mul_scales (fl : ℚ → ℚ) (a : Image) (s : ℚ) (ha : a.Valid)
    (hsz : a.w * a.h ≤ 2147483647) :
    ∃ d : Image, a.mul fl s = .ok (d, a) ∧ d.w = a.w ∧ d.h = a.h ∧
      d.pixels.length = a.pixels.length ∧
      (∀ (i : Nat) (p : Image.Rgb), a.pixels[i]? = some p →
        d.pixels[i]? = some ⟨fl (s * p.r), fl (s * p.g), fl (s * p.b)⟩) ∧
      (a.IsFloat fl → a.mul fl 1 = .ok (a, a)) ∧
      (fl 0 = 0 → a.mul fl 0 = .ok (Image.sized a.w a.h Image.kBlack, a)) := by
  refine ⟨_, mul_ok fl ha hsz s, rfl, rfl, ?_, ?_, ?_, ?_⟩
  · simp
  · intro i p hp
    simp only [List.getElem?_map, hp, Option.map_some', Image.Rgb.mulAssign, mul_comm]
  · intro hfl
    rw [mul_ok fl ha hsz 1, map_id_of_forall _ _ (fun p hp => mulAssign_one fl p (hfl p hp))]
  · intro h0
    rw [mul_ok fl ha hsz 0]
    simp only [mulAssign_zero fl h0, map_const_replicate, Image.sized]
    rw [← valid_size ha]
    rfl

/-- Witness for C13: the 1 by 1 image (10,10,10) under the rounding of
binary32.  Times `1.3f` it is (13,13,13), times 1 it is itself, times 0 it is
black. -/
theorem mul_scales_witness :
    Image.mul roundFloat ⟨1, 1, [⟨10, 10, 10⟩]⟩ (roundFloat (13 / 10)) =
      .ok (⟨1, 1, [⟨13, 13, 13⟩]⟩, ⟨1, 1, [⟨10, 10, 10⟩]⟩) ∧
    Image.mul roundFloat ⟨1, 1, [⟨10, 10, 10⟩]⟩ 1 =
      .ok (⟨1, 1, [⟨10, 10, 10⟩]⟩, ⟨1, 1, [⟨10, 10, 10⟩]⟩) ∧
    Image.mul roundFloat ⟨1, 1, [⟨10, 10, 10⟩]⟩ 0 =
      .ok (Image.sized 1 1 Image.kBlack, ⟨1, 1, [⟨10, 10, 10⟩]⟩) := by
  have h10 : roundFloat 10 = 10 := by
    have := roundFloat_natCast (n := 10) (by decide)
    simpa using this
  obtain ⟨d, h1, -, -, -, h2, h3, h4⟩ :=
    mul_scales roundFloat ⟨1, 1, [⟨10, 10, 10⟩]⟩ (roundFloat (13 / 10))
      (by simp [Image.Valid, Image.size]) (by decide)
  refine ⟨?_, h3 ?_, h4 roundFloat_zero⟩
  · have hd := h2 0 ⟨10, 10, 10⟩ rfl
    rw [roundFloat_13_10, mul_comm, roundFloat_ten_times] at hd
    rw [h1]
    obtain ⟨dw, dh, dp⟩ := d
    have e := mul_ok roundFloat (a := ⟨1, 1, [⟨10, 10, 10⟩]⟩)
      (by simp [Image.Valid, Image.size]) (by decide) (roundFloat (13 / 10))
    rw [e] at h1
    simp only [Except.ok.injEq, Prod.mk.injEq, Image.mk.injEq] at h1
    obtain ⟨⟨rfl, rfl, rfl⟩, -⟩ := h1
    simp only [List.map_cons, List.map_nil, List.getElem?_cons_zero, Option.some.injEq] at hd
    rw [List.map_cons, List.map_nil, hd]
  · intro p hp
    simp only [List.mem_singleton] at hp
    subst hp
    exact ⟨h10, h10, h10⟩

/-- Counterexample to C13 as stated.  `Image(65536, 65536)` times 1: the copy
constructor allocates `65536 * 65536 mod 2^32 = 0` entries and copies
`12 * 2^32` bytes, beyond the end of both buffers.  `Image(3000000000, 1)`
times 1: the loop makes the passes `0 .. INT_MAX`, then its `int` counter
overflows. -/
theorem mul_scales_counterexample :
    squareImage.Valid ∧ squareImage.mul roundFloat 1 = .error .outOfBounds ∧
    hugeImage.Valid ∧ hugeImage.mul roundFloat 1 = .error .overflow :=
  ⟨sized_valid _ _ _, mul_squareImage _ _, sized_valid _ _ _, mul_huge _ _⟩

/-! ## C14: `operator +` -/

/-- C14 (as amended).  For two images of identical dimensions that satisfy the
class invariant and have at most `2^31 - 1` pixels, `operator +` returns an
image of the same dimensions whose pixel `i` has the sums of the channels of
the two operands, with no clamp, the sum being the float one (`fl` is the
rounding); both operands are after the call what they were before.  White plus
white is (510,510,510), while `operator +=` on the same operands gives
(255,255,255). -/
theorem add_is_true_sum (fl : ℚ → ℚ) (a b : Image) (hw : a.w = b.w) (hh : a.h = b.h)
    (ha : a.Valid) (hb : b.Valid) (hsz : a.w * a.h ≤ 2147483647) :
    ∃ d : Image, a.add fl b = .ok (d, a, b) ∧ d.w = a.w ∧ d.h = a.h ∧
      d.pixels.length = a.pixels.length ∧
      (∀ (i : Nat) (p q : Image.Rgb), a.pixels[i]? = some p → b.pixels[i]? = some q →
        d.pixels[i]? = some ⟨fl (p.r + q.r), fl (p.g + q.g), fl (p.b + q.b)⟩) ∧
      Image.add roundFloat ⟨1, 1, [⟨255, 255, 255⟩]⟩ ⟨1, 1, [⟨255, 255, 255⟩]⟩ =
        .ok (⟨1, 1, [⟨510, 510, 510⟩]⟩, ⟨1, 1, [⟨255, 255, 255⟩]⟩,
          ⟨1, 1, [⟨255, 255, 255⟩]⟩) ∧
      Image.addAssign roundFloat ⟨1, 1, [⟨255, 255, 255⟩]⟩ ⟨1, 1, [⟨255, 255, 255⟩]⟩ =
        .ok ⟨1, 1, [⟨255, 255, 255⟩]⟩ := by
  have h510 : roundFloat 510 = 510 := by
    have := roundFloat_natCast (n := 510) (by decide)
    simpa using this
  have hv : Image.Valid ⟨1, 1, [⟨255, 255, 255⟩]⟩ := by simp [Image.Valid, Image.size]
  refine ⟨_, add_ok fl hw hh ha hb hsz, rfl, rfl, ?_, ?_, ?_, ?_⟩
  · simp [List.length_zipWith, same_length hw hh ha hb]
  · intro i p q hp hq
    rw [getElem?_zipWith_some hp hq]
    rfl
  · rw [add_ok roundFloat (a := ⟨1, 1, [⟨255, 255, 255⟩]⟩) (b := ⟨1, 1, [⟨255, 255, 255⟩]⟩)
      rfl rfl hv hv (by decide)]
    norm_num [Image.Rgb.addAssign, h510]
  · rw [addAssign_ok roundFloat (a := ⟨1, 1, [⟨255, 255, 255⟩]⟩)
      (b := ⟨1, 1, [⟨255, 255, 255⟩]⟩) rfl rfl hv hv (by decide)]
    norm_num [Image.Rgb.addAssign, Image.Rgb.mulAssign, h510, roundFloat_255]

/-- Witness for C14: the 1 by 1 images (200,100,50) and (100,100,100) under
the rounding of binary32. -/
theorem add_is_true_sum_witness :
    ∃ d : Image, Image.add roundFloat ⟨1, 1, [⟨200, 100, 50⟩]⟩ ⟨1, 1, [⟨100, 100, 100⟩]⟩ =
        .ok (d, ⟨1, 1, [⟨200, 100, 50⟩]⟩, ⟨1, 1, [⟨100, 100, 100⟩]⟩) ∧
      d.pixels[0]? = some ⟨roundFloat (200 + 100), roundFloat (100 + 100),
        roundFloat (50 + 100)⟩ ∧
      roundFloat (200 + 100) = 300 := by
  obtain ⟨d, h1, -, -, -, h2, -⟩ :=
    add_is_true_sum roundFloat ⟨1, 1, [⟨200, 100, 50⟩]⟩ ⟨1, 1, [⟨100, 100, 100⟩]⟩ rfl rfl
      (by simp [Image.Valid, Image.size]) (by simp [Image.Valid, Image.size]) (by decide)
  refine ⟨d, h1, h2 0 ⟨200, 100, 50⟩ ⟨100, 100, 100⟩ rfl rfl, ?_⟩
  have := roundFloat_natCast (n := 300) (by decide)
  norm_num at this ⊢
  exact this

/-- Counterexample to C14 as stated.  `Image(65536, 65536)` plus itself: the
copy constructor allocates `65536 * 65536 mod 2^32 = 0` entries and copies
`12 * 2^32` bytes, beyond the end of both buffers.  `Image(3000000000, 1)`
plus itself: the loop makes the passes `0 .. INT_MAX`, then its `int` counter
overflows. -/
theorem add_is_true_sum_counterexample :
    squareImage.Valid ∧ squareImage.add roundFloat squareImage = .error .outOfBounds ∧
    hugeImage.Valid ∧ hugeImage.add roundFloat hugeImage = .error .overflow :=
  ⟨sized_valid _ _ _, add_squareImage _ _, sized_valid _ _ _, add_huge _⟩

/-! ## C12: `alphacompo` -/

/-- One pixel of `img_F * alpha + img_B * (1 - alpha)`. -/
theorem blend_pixel (fl : ℚ → ℚ) (f b : Image.Rgb) (alpha : ℚ) :
    (f.mulAssign fl alpha).addAssign fl (b.mulAssign fl (fl (1 - alpha))) =
      ⟨fl (fl (alpha * f.r) + fl (fl (1 - alpha) * b.r)),
        fl (fl (alpha * f.g) + fl (fl (1 - alpha) * b.g)),
        fl (fl (alpha * f.b) + fl (fl (1 - alpha) * b.b))⟩ := by
  simp only [Image.Rgb.mulAssign, Image.Rgb.addAssign, mul_comm]

theorem zipWith_eq_left (f : Image.Rgb → Image.Rgb → Image.Rgb) :
    ∀ (ps qs : List Image.Rgb), ps.length = qs.length →
      (∀ p ∈ ps, ∀ q ∈ qs, f p q = p) → List.zipWith f ps qs = ps := by
  intro ps
  induction ps with
  | nil => intro qs _ _; simp
  | cons p ps ih =>
    intro qs h hf
    match qs, h with
    | q :: qs, h =>
      have h' : ps.length = qs.length := by simpa using h
      rw [List.zipWith_cons_cons, hf p (List.mem_cons_self _ _) q (List.mem_cons_self _ _),
        ih qs h' (fun x hx y hy => hf x (List.mem_cons_of_mem _ hx) y (List.mem_cons_of_mem _ hy))]
    | [], h => simp at h

theorem zipWith_eq_right (f : Image.Rgb → Image.Rgb → Image.Rgb) :
    ∀ (ps qs : List Image.Rgb), ps.length = qs.length →
      (∀ p ∈ ps, ∀ q ∈ qs, f p q = q) → List.zipWith f ps qs = qs := by
  intro ps
  induction ps with
  | nil =>
    intro qs h _
    have : qs = [] := List.length_eq_zero.mp (by simpa using h.symm)
    simp [this]
  | cons p ps ih =>
    intro qs h hf
    match qs, h with
    | q :: qs, h =>
      have h' : ps.length = qs.length := by simpa using h
      rw [List.zipWith_cons_cons, hf p (List.mem_cons_self _ _) q (List.mem_cons_self _ _),
        ih qs h' (fun x hx y hy => hf x (List.mem_cons_of_mem _ hx) y (List.mem_cons_of_mem _ hy))]
    | [], h => simp at h

/-- The `float` nearest to 0.85, the value of the literal `0.85f`. -/
theorem roundFloat_85_100 : roundFloat (85 / 100) = 7130317 / 8388608 := by
  rw [roundFloat_binade (85 / 100) (-1) (by rw [abs_of_pos (by norm_num)]; norm_num)
    (by rw [abs_of_pos (by norm_num)]; norm_num) (by decide)]
  have hf : ⌊(85 / 100 : ℚ) / 2 ^ ((-1 : Int) - 23)⌋ = 14260633 := by
    rw [Int.floor_eq_iff]; norm_num
  simp only [roundEven, hf]
  norm_num

theorem roundFloat_blend_front : roundFloat (50 * (7130317 / 8388608)) = 85 / 2 := by
  rw [roundFloat_binade (50 * (7130317 / 8388608)) 5 (by rw [abs_of_pos (by norm_num)]; norm_num)
    (by rw [abs_of_pos (by norm_num)]; norm_num) (by decide)]
  have hf : ⌊(50 * (7130317 / 8388608) : ℚ) / 2 ^ ((5 : Int) - 23)⌋ = 11141120 := by
    rw [Int.floor_eq_iff]; norm_num
  simp only [roundEven, hf]
  norm_num

theorem roundFloat_blend_rest : roundFloat (1 - 7130317 / 8388608) = 1258291 / 8388608 := by
  have := roundFloat_mantissa 1258291 (-23) (by decide) (by decide)
  norm_num at this ⊢
  exact this

theorem roundFloat_blend_back : roundFloat (150 * (1258291 / 8388608)) = 5898239 / 262144 := by
  rw [roundFloat_binade (150 * (1258291 / 8388608)) 4 (by rw [abs_of_pos (by norm_num)]; norm_num)
    (by rw [abs_of_pos (by norm_num)]; norm_num) (by decide)]
  have hf : ⌊(150 * (1258291 / 8388608) : ℚ) / 2 ^ ((4 : Int) - 23)⌋ = 11796478 := by
    rw [Int.floor_eq_iff]; norm_num
  simp only [roundEven, hf]
  norm_num

theorem roundFloat_blend_sum : roundFloat (85 / 2 + 5898239 / 262144) = 65 := by
  rw [roundFloat_binade (85 / 2 + 5898239 / 262144) 6 (by rw [abs_of_pos (by norm_num)]; norm_num)
    (by rw [abs_of_pos (by norm_num)]; norm_num) (by decide)]
  have hf : ⌊(85 / 2 + 5898239 / 262144 : ℚ) / 2 ^ ((6 : Int) - 23)⌋ = 8519679 := by
    rw [Int.floor_eq_iff]; norm_num
  simp only [roundEven, hf]
  norm_num

/-- The blend of (50,50,50) over (150,150,150) with `alpha = 0.85f` is
(65,65,65): the float operations round 64.99999642..., the value of the formula
over the rationals, up to 65. -/
theorem alphacompo_sample :
    Image.alphacompo roundFloat ⟨1, 1, [⟨50, 50, 50⟩]⟩ ⟨1, 1, [⟨150, 150, 150⟩]⟩
      (roundFloat (85 / 100)) = .ok ⟨1, 1, [⟨65, 65, 65⟩]⟩ := by
  rw [alphacompo_ok roundFloat (f := ⟨1, 1, [⟨50, 50, 50⟩]⟩) (b := ⟨1, 1, [⟨150, 150, 150⟩]⟩)
    rfl rfl (by simp [Image.Valid, Image.size]) (by simp [Image.Valid, Image.size]) (by decide)]
  simp only [List.zipWith_cons_cons, List.zipWith_nil_right, Image.Rgb.addAssign,
    Image.Rgb.mulAssign, roundFloat_85_100, roundFloat_blend_rest, roundFloat_blend_front,
    roundFloat_blend_back, roundFloat_blend_sum]

/-- C12 (as amended).  For two images `F` and `B` of identical dimensions that
satisfy the class invariant, have at most `2^31 - 1` pixels and hold floats,
`alphacompo(F, B, alpha)` returns an image of `F`'s dimensions whose pixel `i`
has the channels `alpha * f + (1 - alpha) * b`, with no clamp, every operation
being the float one (`fl` is the rounding, which leaves 0, 1 and 0.5 as they
are).  With `alpha = 1` the result is `F`, with `alpha = 0` it is `B`, and with
`alpha = 0.5` every channel is the float sum of the halves `f / 2` and
`b / 2`, which is the rounded average `(f + b) / 2` when the halves are
floats. -/
theorem alphacompo_blends (fl : ℚ → ℚ) (imgF imgB : Image) (alpha : ℚ)
    (hw : imgF.w = imgB.w) (hh : imgF.h = imgB.h) (hf : imgF.Valid) (hb : imgB.Valid)
    (hsz : imgF.w * imgF.h ≤ 2147483647)
    (h0 : fl 0 = 0) (h1 : fl 1 = 1) (hhalf : fl (1 / 2) = 1 / 2)
    (hF : imgF.IsFloat fl) (hB : imgB.IsFloat fl) :
    ∃ d : Image, Image.alphacompo fl imgF imgB alpha = .ok d ∧ d.w = imgF.w ∧ d.h = imgF.h ∧
      d.pixels.length = imgF.pixels.length ∧
      (∀ (i : Nat) (f b : Image.Rgb), imgF.pixels[i]? = some f → imgB.pixels[i]? = some b →
        d.pixels[i]? = some ⟨fl (fl (alpha * f.r) + fl (fl (1 - alpha) * b.r)),
          fl (fl (alpha * f.g) + fl (fl (1 - alpha) * b.g)),
          fl (fl (alpha * f.b) + fl (fl (1 - alpha) * b.b))⟩) ∧
      Image.alphacompo fl imgF imgB 1 = .ok imgF ∧
      Image.alphacompo fl imgF imgB 0 = .ok imgB ∧
      (∃ m : Image, Image.alphacompo fl imgF imgB (1 / 2) = .ok m ∧
        ∀ (i : Nat) (f b : Image.Rgb), imgF.pixels[i]? = some f → imgB.pixels[i]? = some b →
          m.pixels[i]? = some ⟨fl (fl (f.r / 2) + fl (b.r / 2)),
            fl (fl (f.g / 2) + fl (b.g / 2)), fl (fl (f.b / 2) + fl (b.b / 2))⟩) ∧
      (∀ x y : ℚ, fl (x / 2) = x / 2 → fl (y / 2) = y / 2 →
        fl (fl (x / 2) + fl (y / 2)) = fl ((x + y) / 2)) := by
  have hlen := same_length hw hh hf hb
  refine ⟨_, alphacompo_ok fl hw hh hf hb hsz alpha, rfl, rfl, ?_, ?_, ?_, ?_, ?_, ?_⟩
  · simp [List.length_zipWith, hlen]
  · intro i f b hf' hb'
    rw [getElem?_zipWith_some hf' hb', blend_pixel]
  · rw [alphacompo_ok fl hw hh hf hb hsz 1, zipWith_eq_left _ _ _ hlen]
    intro p hp q _
    obtain ⟨pr, pg, pb⟩ := hF p hp
    simp only [Image.Rgb.mulAssign, Image.Rgb.addAssign, sub_self, h0, mul_one, mul_zero,
      add_zero, pr, pg, pb]
  · rw [alphacompo_ok fl hw hh hf hb hsz 0, zipWith_eq_right _ _ _ hlen, hw, hh]
    intro p _ q hq
    obtain ⟨qr, qg, qb⟩ := hB q hq
    simp only [Image.Rgb.mulAssign, Image.Rgb.addAssign, sub_zero, h0, h1, mul_one, mul_zero,
      zero_add, qr, qg, qb]
  · refine ⟨_, alphacompo_ok fl hw hh hf hb hsz (1 / 2), ?_⟩
    intro i f b hf' hb'
    have e : (1 : ℚ) - 1 / 2 = 1 / 2 := by norm_num
    rw [getElem?_zipWith_some hf' hb', blend_pixel, e, hhalf]
    simp only [one_div, inv_mul_eq_div]
  · intro x y hx hy
    rw [hx, hy]
    congr 1
    ring

/-- Witness for C12: the 1 by 1 images (200,100,50) and (100,0,150) blended
with `alpha = 1/4`, 1 and 0 under the rounding of binary32, and (50,50,50)
over (150,150,150) with `alpha = 0.85f`, which is (65,65,65). -/
theorem alphacompo_blends_witness :
    ∃ d : Image, Image.alphacompo roundFloat ⟨1, 1, [⟨200, 100, 50⟩]⟩
        ⟨1, 1, [⟨100, 0, 150⟩]⟩ (1 / 4) = .ok d ∧
      d.pixels[0]? = some
        ⟨roundFloat (roundFloat (1 / 4 * 200) + roundFloat (roundFloat (1 - 1 / 4) * 100)),
          roundFloat (roundFloat (1 / 4 * 100) + roundFloat (roundFloat (1 - 1 / 4) * 0)),
          roundFloat (roundFloat (1 / 4 * 50) + roundFloat (roundFloat (1 - 1 / 4) * 150))⟩ ∧
      Image.alphacompo roundFloat ⟨1, 1, [⟨200, 100, 50⟩]⟩ ⟨1, 1, [⟨100, 0, 150⟩]⟩ 1 =
        .ok ⟨1, 1, [⟨200, 100, 50⟩]⟩ ∧
      Image.alphacompo roundFloat ⟨1, 1, [⟨200, 100, 50⟩]⟩ ⟨1, 1, [⟨100, 0, 150⟩]⟩ 0 =
        .ok ⟨1, 1, [⟨100, 0, 150⟩]⟩ ∧
      Image.alphacompo roundFloat ⟨1, 1, [⟨50, 50, 50⟩]⟩ ⟨1, 1, [⟨150, 150, 150⟩]⟩
        (roundFloat (85 / 100)) = .ok ⟨1, 1, [⟨65, 65, 65⟩]⟩ := by
  have hn : ∀ n : Nat, n < 16777216 → roundFloat (n : ℚ) = (n : ℚ) :=
    fun n h => roundFloat_natCast h
  have e200 := hn 200 (by decide)
  have e100 := hn 100 (by decide)
  have e50 := hn 50 (by decide)
  have e150 := hn 150 (by decide)
  norm_num at e200 e100 e50 e150
  obtain ⟨d, h1, -, -, -, h2, h3, h4, -⟩ :=
    alphacompo_blends roundFloat ⟨1, 1, [⟨200, 100, 50⟩]⟩ ⟨1, 1, [⟨100, 0, 150⟩]⟩ (1 / 4)
      rfl rfl (by simp [Image.Valid, Image.size]) (by simp [Image.Valid, Image.size])
      (by decide) roundFloat_zero roundFloat_one roundFloat_half
      (by
        intro p hp
        simp only [List.mem_singleton] at hp
        subst hp
        exact ⟨e200, e100, e50⟩)
      (by
        intro p hp
        simp only [List.mem_singleton] at hp
        subst hp
        exact ⟨e100, roundFloat_zero, e150⟩)
  exact ⟨d, h1, h2 0 ⟨200, 100, 50⟩ ⟨100, 0, 150⟩ rfl rfl, h3, h4, alphacompo_sample⟩

/-- Counterexample to C12 as stated: `alphacompo` on `Image(65536, 65536)` and
itself.  The copy constructor in `img_F * alpha` allocates
`65536 * 65536 mod 2^32 = 0` entries and copies `12 * 2^32` bytes, beyond the
end of both buffers. -/
theorem alphacompo_blends_counterexample :
    squareImage.Valid ∧ squareImage.w = 65536 ∧ squareImage.h = 65536 ∧
    Image.alphacompo roundFloat squareImage squareImage (1 / 2) = .error .outOfBounds :=
  ⟨sized_valid _ _ _, rfl, rfl, alphacompo_squareImage _ _ _⟩

/-! ## C15: `gammacorrect` -/

theorem toInt_of_le {n : Nat} (h : n ≤ 2147483647) : toInt n = (n : Int) := by
  have h1 : n % 4294967296 = n := Nat.mod_eq_of_lt (by omega)
  simp only [toInt, h1]
  rw [if_pos (by omega)]

theorem toInt_mul {w h : Nat} (hwh : w * h ≤ 2147483647) :
    toInt w * toInt h = ((w * h : Nat) : Int) := by
  rcases Nat.eq_zero_or_pos w with hw | hw
  · subst hw
    simp [toInt]
  · rcases Nat.eq_zero_or_pos h with hh | hh
    · subst hh
      simp [toInt]
    · have h1 : w ≤ w * h := Nat.le_mul_of_pos_right _ hh
      have h2 : h ≤ w * h := Nat.le_mul_of_pos_left _ hw
      rw [toInt_of_le (by omega), toInt_of_le (by omega), Int.natCast_mul]

theorem zipWith_ignore_left (g : Image.Rgb → Image.Rgb) :
    ∀ (ps qs : List Image.Rgb), ps.length = qs.length →
      List.zipWith (fun _ q => g q) ps qs = qs.map g := by
  intro ps
  induction ps with
  | nil =>
    intro qs h
    have : qs = [] := List.length_eq_zero.mp (by simpa using h.symm)
    simp [this]
  | cons p ps ih =>
    intro qs h
    match qs, h with
    | q :: qs, h =>
      have h' : ps.length = qs.length := by simpa using h
      rw [List.zipWith_cons_cons, ih qs h', List.map_cons]
    | [], h => simp at h

theorem gammacorrect_ok (pow : ℚ → ℚ → ℚ) {img : Image} (gamma : ℚ) (hv : img.Valid)
    (hsz : img.w * img.h ≤ 2147483647) :
    Image.gammacorrect pow img gamma = .ok ⟨img.w, img.h,
      img.pixels.map (fun p => ⟨gammaChannel pow gamma p.r, gammaChannel pow gamma p.g,
        gammaChannel pow gamma p.b⟩)⟩ := by
  have hprod := toInt_mul hsz
  have hsize : img.size = img.w * img.h := Nat.mod_eq_of_lt (by omega)
  have hlen : img.pixels.length = img.w * img.h := by rw [← hsize]; exact hv
  have hno : ¬ (((img.w * img.h : Nat) : Int) < INT_MIN ∨ INT_MAX < ((img.w * img.h : Nat) : Int)) := by
    simp only [INT_MIN, INT_MAX]; omega
  have htmp : (Image.sized img.w img.h Image.kBlack).pixels.length = img.w * img.h := by
    show (List.replicate ((img.w * img.h) % 4294967296) Image.kBlack).length = img.w * img.h
    rw [List.length_replicate]
    exact Nat.mod_eq_of_lt (by omega)
  have hloop := zipLoop_ok
    (fun _ p => (⟨gammaChannel pow gamma p.r, gammaChannel pow gamma p.g,
      gammaChannel pow gamma p.b⟩ : Image.Rgb))
    (Image.sized img.w img.h Image.kBlack).pixels img.pixels (by rw [htmp, hlen])
  rw [htmp] at hloop
  simp only [Image.gammacorrect, hprod, hno, if_false, Int.toNat_natCast, hloop]
  rw [zipWith_ignore_left _ _ _ (by rw [htmp, hlen])]
  rfl

theorem gammaChannel_one (pow : ℚ → ℚ → ℚ) (hpow : ∀ x : ℚ, 0 ≤ x → pow x 1 = x)
    (c : ℚ) (hc : 0 ≤ c) : gammaChannel pow 1 c = c := by
  rw [gammaChannel, hpow (c / 255) (by positivity)]
  ring

/-- C15 (as amended).  For every image that satisfies the class invariant and
has at most `2^31 - 1` pixels, `gammacorrect(img, gamma)` returns an image of
the same dimensions whose pixel `i` has the channels `255 * pow(c / 255,
gamma)`, `pow` being the power function of the C library.  When `pow(x, 1) = x`
for `x ≥ 0`, `gamma = 1` returns an image whose channels are non-negative
unchanged; when `pow(1, 0.5) = 1` a channel 255 stays 255 and when
`pow(0, 0.5) = 0` a channel 0 stays 0 under `gamma = 0.5`. -/
theorem gammacorrect_formula (pow : ℚ → ℚ → ℚ) (img : Image) (gamma : ℚ) (hv : img.Valid)
    (hsz : img.w * img.h ≤ 2147483647) :
    ∃ d : Image, Image.gammacorrect pow img gamma = .ok d ∧ d.w = img.w ∧ d.h = img.h ∧
      d.pixels.length = img.pixels.length ∧
      (∀ (i : Nat) (p : Image.Rgb), img.pixels[i]? = some p →
        d.pixels[i]? = some ⟨255 * pow (p.r / 255) gamma, 255 * pow (p.g / 255) gamma,
          255 * pow (p.b / 255) gamma⟩) ∧
      ((∀ x : ℚ, 0 ≤ x → pow x 1 = x) →
        (∀ p ∈ img.pixels, 0 ≤ p.r ∧ 0 ≤ p.g ∧ 0 ≤ p.b) →
        Image.gammacorrect pow img 1 = .ok img) ∧
      (pow 1 (1 / 2) = 1 → gammaChannel pow (1 / 2) 255 = 255) ∧
      (pow 0 (1 / 2) = 0 → gammaChannel pow (1 / 2) 0 = 0) := by
  refine ⟨_, gammacorrect_ok pow gamma hv hsz, rfl, rfl, ?_, ?_, ?_, ?_, ?_⟩
  · simp
  · intro i p hp
    simp only [List.getElem?_map, hp, Option.map_some', gammaChannel]
  · intro hpow hnn
    rw [gammacorrect_ok pow 1 hv hsz, map_id_of_forall]
    intro p hp
    obtain ⟨hr, hg, hb⟩ := hnn p hp
    rw [gammaChannel_one pow hpow _ hr, gammaChannel_one pow hpow _ hg,
      gammaChannel_one pow hpow _ hb]
  · intro h
    rw [gammaChannel, show (255 : ℚ) / 255 = 1 by norm_num, h]
    norm_num
  · intro h
    rw [gammaChannel, show (0 : ℚ) / 255 = 0 by norm_num, h]
    norm_num

theorem powSample_one (x : ℚ) : powSample x 1 = x := by
  simp [powSample]

theorem powSample_half_one : powSample 1 (1 / 2) = 1 := by
  norm_num [powSample]

theorem powSample_half_zero : powSample 0 (1 / 2) = 0 := by
  norm_num [powSample]

/-- Witness for C15: the 1 by 2 image (255,0,51), (102,204,255) with
`gamma = 1` and the sample power function. -/
theorem gammacorrect_formula_witness :
    Image.gammacorrect powSample ⟨1, 2, [⟨255, 0, 51⟩, ⟨102, 204, 255⟩]⟩ 1 =
        .ok ⟨1, 2, [⟨255, 0, 51⟩, ⟨102, 204, 255⟩]⟩ ∧
      gammaChannel powSample (1 / 2) 255 = 255 ∧ gammaChannel powSample (1 / 2) 0 = 0 := by
  obtain ⟨d, -, -, -, -, -, h1, h2, h3⟩ :=
    gammacorrect_formula powSample ⟨1, 2, [⟨255, 0, 51⟩, ⟨102, 204, 255⟩]⟩ 1
      (by simp [Image.Valid, Image.size]) (by decide)
  refine ⟨h1 (fun x _ => powSample_one x) ?_, h2 powSample_half_one, h3 powSample_half_zero⟩
  intro p hp
  simp only [List.mem_cons, List.mem_singleton, List.not_mem_nil, or_false] at hp
  rcases hp with rfl | rfl <;> norm_num

theorem whiteWide_w : whiteWide.w = 2147483648 := rfl

theorem whiteWide_h : whiteWide.h = 1 := rfl

theorem toInt_wide : toInt 2147483648 = -2147483648 := by decide

theorem toInt_one : toInt 1 = 1 := by decide

/-- Counterexample to C15 as stated: for the white image
`Image(2147483648, 1, Rgb(255))` the `int` copy of the width is negative, the
loop of `gammacorrect` makes no pass and the result is the all-black image of
the same dimensions, for every power function and every `gamma`; with
`gamma = 1` every channel should stay 255. -/
theorem gammacorrect_formula_counterexample :
    whiteWide.Valid ∧
    (∀ p ∈ whiteWide.pixels, p = Image.Rgb.gray 255) ∧
    whiteWide.pixels.length = 2147483648 ∧
    (∀ (pow : ℚ → ℚ → ℚ) (gamma : ℚ), Image.gammacorrect pow whiteWide gamma = .ok wideImage) ∧
    (∀ p ∈ wideImage.pixels, p = Image.kBlack) ∧
    wideImage.pixels.length = 2147483648 ∧
    gammaChannel powSample 1 255 = 255 ∧ Image.kBlack.r = 0 := by
  refine ⟨sized_valid _ _ _, ?_, ?_, ?_, ?_, wideImage_length, ?_, rfl⟩
  · intro p hp
    exact List.eq_of_mem_replicate hp
  · show (List.replicate ((2147483648 * 1) % 4294967296) (Image.Rgb.gray 255)).length = 2147483648
    rw [List.length_replicate]
  · intro pow gamma
    have hprod : toInt whiteWide.w * toInt whiteWide.h = -2147483648 := by
      rw [whiteWide_w, whiteWide_h, toInt_wide, toInt_one]; rfl
    have hno : ¬ ((-2147483648 : Int) < INT_MIN ∨ INT_MAX < (-2147483648 : Int)) := by decide
    rw [Image.gammacorrect, hprod, if_neg hno]
    have hz : (-2147483648 : Int).toNat = 0 := by decide
    rw [hz, Image.zipLoop]
    rfl
  · intro p hp
    exact List.eq_of_mem_replicate hp
  · rw [gammaChannel, show (255 : ℚ) / 255 = 1 by norm_num, powSample_one]
    norm_num

/-! ## C16: `operator ()` -/

theorem index_lt {w h x y : Nat} (hx : x < w) (hy : y < h) : y * w + x < w * h := by
  have h1 : (y + 1) * w ≤ h * w := Nat.mul_le_mul_right w hy
  have h2 : (y + 1) * w = y * w + w := by ring
  have h3 : h * w = w * h := Nat.mul_comm h w
  omega

/-- C16 (as amended).  For every image whose buffer has `w * h` pixels, at most
`2^32`, `operator ()(x, y)` returns a pixel exactly when `x < w` and `y < h`;
then the row-major index `y * w + x` is below `w * h`, so the access is inside
the buffer, and the pixel returned is the one at that index.  For every other
`(x, y)` the assertion fails and no pixel is read. -/
theorem pixelAt_bounds_checked (img : Image) (x y : Nat)
    (hbuf : img.pixels.length = img.w * img.h) (hsz : img.w * img.h ≤ 4294967296) :
    (x < img.w ∧ y < img.h →
      y * img.w + x < img.w * img.h ∧
      ∃ p, img.pixels[y * img.w + x]? = some p ∧ img.pixelAt x y = .ok p) ∧
    (¬ (x < img.w ∧ y < img.h) → img.pixelAt x y = .error .assertion) ∧
    ((∃ p, img.pixelAt x y = .ok p) ↔ (x < img.w ∧ y < img.h)) := by
  have hin : x < img.w ∧ y < img.h →
      y * img.w + x < img.w * img.h ∧
      ∃ p, img.pixels[y * img.w + x]? = some p ∧ img.pixelAt x y = .ok p := by
    intro hxy
    have hlt := index_lt hxy.1 hxy.2
    have hmod : (y * img.w + x) % 4294967296 = y * img.w + x := Nat.mod_eq_of_lt (by omega)
    cases hget : img.pixels[y * img.w + x]? with
    | none =>
      have := List.getElem?_eq_none_iff.mp hget
      omega
    | some p =>
      refine ⟨hlt, p, rfl, ?_⟩
      simp only [Image.pixelAt, hxy, and_self, if_true, hmod, hget]
  have hout : ¬ (x < img.w ∧ y < img.h) → img.pixelAt x y = .error .assertion := by
    intro hxy
    simp only [Image.pixelAt, hxy, if_false]
  refine ⟨hin, hout, ?_, ?_⟩
  · rintro ⟨p, hp⟩
    by_contra hxy
    rw [hout hxy] at hp
    exact absurd hp (by simp)
  · intro hxy
    obtain ⟨-, p, -, hp⟩ := hin hxy
    exact ⟨p, hp⟩

/-- Witness for C16: the 2 by 2 scenario image at `(1, 1)` and at `(2, 0)`. -/
theorem pixelAt_bounds_checked_witness :
    (∃ p, scenarioA.pixels[1 * scenarioA.w + 1]? = some p ∧ scenarioA.pixelAt 1 1 = .ok p) ∧
    scenarioA.pixelAt 2 0 = .error .assertion :=
  ⟨((pixelAt_bounds_checked scenarioA 1 1 (by decide) (by decide)).1 (by decide)).2,
    (pixelAt_bounds_checked scenarioA 2 0 (by decide) (by decide)).2.1 (by decide)⟩

theorem tallImage_pixels :
    tallImage.pixels = Image.Rgb.gray 1 :: List.replicate 4295032831 Image.kBlack := rfl

theorem tallImage_length : tallImage.pixels.length = 4295032832 := by
  rw [tallImage_pixels, List.length_cons, List.length_replicate]

/-- Counterexample to C16 as stated: the 65536 by 65537 image `tallImage` has
`w * h` pixels; `(0, 65536)` passes the assertion and its row-major index is
`2^32`, where the pixel is black, but the `unsigned int` index is 0 and the
pixel returned is (1,1,1). -/
theorem pixelAt_bounds_checked_counterexample :
    tallImage.pixels.length = tallImage.w * tallImage.h ∧
    (0 < tallImage.w ∧ 65536 < tallImage.h) ∧
    tallImage.pixels[65536 * tallImage.w + 0]? = some Image.kBlack ∧
    tallImage.pixelAt 0 65536 = .ok (Image.Rgb.gray 1) ∧
    Image.Rgb.gray 1 ≠ Image.kBlack := by
  refine ⟨?_, ⟨by decide, by decide⟩, ?_, ?_, ?_⟩
  · rw [tallImage_length]; rfl
  · have hi : 65536 * tallImage.w + 0 = 4294967295 + 1 := rfl
    rw [tallImage_pixels, hi, List.getElem?_cons_succ, List.getElem?_replicate,
      if_pos (by decide)]
  · have hc : (0 < tallImage.w ∧ 65536 < tallImage.h) := ⟨by decide, by decide⟩
    have hidx : (65536 * tallImage.w + 0) % 4294967296 = 0 := rfl
    rw [Image.pixelAt, if_pos hc, hidx, tallImage_pixels, List.getElem?_cons_zero]
  · intro h
    have := congrArg Image.Rgb.r h
    simp [Image.Rgb.gray, Image.kBlack] at this

/-! ## C17: move construction and move assignment -/

/-- C17.  The move constructor, and the move assignment to a different
object, give the destination the width, the height and the pixel sequence the
source had, and leave the source with `w = 0`, `h = 0` and no buffer. -/
theorem move_leaves_source_empty (self img : Image) :
    (Image.moveCtor img).1 = img ∧
    (Image.moveCtor img).2 = ⟨0, 0, []⟩ ∧
    (self.moveAssign img false).1 = img ∧
    (self.moveAssign img false).2 = ⟨0, 0, []⟩ ∧
    (Image.moveCtor img).1.w = img.w ∧ (Image.moveCtor img).1.h = img.h ∧
    (Image.moveCtor img).1.pixels = img.pixels ∧
    (self.moveAssign img false).1.w = img.w ∧ (self.moveAssign img false).1.h = img.h ∧
    (self.moveAssign img false).1.pixels = img.pixels := by
  refine ⟨rfl, rfl, ?_, ?_, rfl, rfl, rfl, ?_, ?_, ?_⟩ <;> simp [Image.moveAssign]

/-! ## C18: the buffer-size invariant -/

theorem zipLoop_length (f : Image.Rgb → Image.Rgb → Image.Rgb) (n : Nat) :
    ∀ (ps qs out : List Image.Rgb), Image.zipLoop f n ps qs = .ok out →
      out.length = ps.length := by
  induction n with
  | zero =>
    intro ps qs out h
    simp only [Image.zipLoop, Except.ok.injEq] at h
    rw [h]
  | succ k ih =>
    intro ps qs out h
    match ps, qs with
    | p :: ps, q :: qs =>
      rw [Image.zipLoop] at h
      split at h
      · rename_i o ho
        simp only [Except.ok.injEq] at h
        rw [← h, List.length_cons, List.length_cons, ih ps qs o ho]
      · exact absurd h (by simp)
    | [], _ => simp [Image.zipLoop] at h
    | _ :: _, [] => simp [Image.zipLoop] at h

theorem gammacorrect_valid (pow : ℚ → ℚ → ℚ) (img d : Image) (gamma : ℚ)
    (h : Image.gammacorrect pow img gamma = .ok d) :
    d.Valid ∧ d.w = img.w ∧ d.h = img.h := by
  rw [Image.gammacorrect] at h
  split at h
  · exact absurd h (by simp)
  · split at h
    · rename_i ps hps
      simp only [Except.ok.injEq] at h
      subst h
      have hl := zipLoop_length _ _ _ _ _ hps
      exact ⟨@valid_mk img.w img.h (Image.sized img.w img.h Image.kBlack).pixels _
        (sized_valid img.w img.h Image.kBlack) hl, rfl, rfl⟩
    · exact absurd h (by simp)

/-- C18 (as amended).  The predicate `buffer length = w * h`, the product
being the `unsigned int` one (reduced modulo `2^32`), holds for the default
image and for the result of the sized constructor, and the move constructor
and move assignment preserve it.  Together with the width and the height of
the receiver or first operand it is preserved by the copy constructor on an
operand of fewer than `2^32` pixels, and by `operator +=`, `operator -=`,
`operator *`, `operator +`, `operator -` and `alphacompo` on operands that
satisfy it, have identical dimensions and at most `2^31 - 1` pixels; each of
these returns.  Every image `gammacorrect` returns satisfies it and has the
dimensions of the argument, and `gammacorrect` returns whenever the argument
satisfies it and has at most `2^31 - 1` pixels. -/
theorem valid_is_invariant :
    Image.empty.Valid ∧
    (∀ (w h : Nat) (c : Image.Rgb),
      (Image.sized w h c).Valid ∧ (Image.sized w h c).w = w ∧ (Image.sized w h c).h = h) ∧
    (∀ a : Image, a.Valid → a.w * a.h < 4294967296 →
      ∃ d, a.copy = .ok d ∧ d.Valid ∧ d.w = a.w ∧ d.h = a.h) ∧
    (∀ a : Image, a.Valid →
      (Image.moveCtor a).1.Valid ∧ (Image.moveCtor a).1.w = a.w ∧
      (Image.moveCtor a).1.h = a.h ∧ (Image.moveCtor a).2.Valid) ∧
    (∀ self a : Image, a.Valid →
      (self.moveAssign a false).1.Valid ∧ (self.moveAssign a false).1.w = a.w ∧
      (self.moveAssign a false).1.h = a.h ∧ (self.moveAssign a false).2.Valid) ∧
    (∀ (fl : ℚ → ℚ) (a b : Image), a.Valid → b.Valid → a.w = b.w → a.h = b.h →
      a.w * a.h ≤ 2147483647 →
      (∃ d, a.addAssign fl b = .ok d ∧ d.Valid ∧ d.w = a.w ∧ d.h = a.h) ∧
      (∃ d, a.subAssign fl b = .ok d ∧ d.Valid ∧ d.w = a.w ∧ d.h = a.h) ∧
      (∃ d, a.add fl b = .ok (d, a, b) ∧ d.Valid ∧ d.w = a.w ∧ d.h = a.h) ∧
      (∃ d, a.sub fl b = .ok (d, a, b) ∧ d.Valid ∧ d.w = a.w ∧ d.h = a.h) ∧
      (∀ alpha : ℚ,
        ∃ d, Image.alphacompo fl a b alpha = .ok d ∧ d.Valid ∧ d.w = a.w ∧ d.h = a.h)) ∧
    (∀ (fl : ℚ → ℚ) (a : Image) (s : ℚ), a.Valid → a.w * a.h ≤ 2147483647 →
      ∃ d, a.mul fl s = .ok (d, a) ∧ d.Valid ∧ d.w = a.w ∧ d.h = a.h) ∧
    (∀ (pow : ℚ → ℚ → ℚ) (a d : Image) (gamma : ℚ),
      Image.gammacorrect pow a gamma = .ok d → d.Valid ∧ d.w = a.w ∧ d.h = a.h) ∧
    (∀ (pow : ℚ → ℚ → ℚ) (a : Image) (gamma : ℚ), a.Valid → a.w * a.h ≤ 2147483647 →
      ∃ d, Image.gammacorrect pow a gamma = .ok d) := by
  refine ⟨rfl, fun w h c => ⟨sized_valid w h c, rfl, rfl⟩, ?_, ?_, ?_, ?_, ?_, ?_, ?_⟩
  · intro a ha hlt
    exact ⟨a, copy_of_valid a ha hlt, ha, rfl, rfl⟩
  · intro a ha
    exact ⟨ha, rfl, rfl, rfl⟩
  · intro self a ha
    have e : self.moveAssign a false = (⟨a.w, a.h, a.pixels⟩, ⟨0, 0, []⟩) := by
      simp [Image.moveAssign]
    rw [e]
    exact ⟨ha, rfl, rfl, rfl⟩
  · intro fl a b ha hb hw hh hsz
    refine ⟨⟨_, addAssign_ok fl hw hh ha hb hsz, zipWith_valid _ hw hh ha hb, rfl, rfl⟩,
      ⟨_, subAssign_ok fl hw hh ha hb hsz, zipWith_valid _ hw hh ha hb, rfl, rfl⟩,
      ⟨_, add_ok fl hw hh ha hb hsz, zipWith_valid _ hw hh ha hb, rfl, rfl⟩,
      ⟨_, sub_ok fl hw hh ha hb hsz, zipWith_valid _ hw hh ha hb, rfl, rfl⟩, ?_⟩
    intro alpha
    exact ⟨_, alphacompo_ok fl hw hh ha hb hsz alpha, zipWith_valid _ hw hh ha hb, rfl, rfl⟩
  · intro fl a s ha hsz
    exact ⟨_, mul_ok fl ha hsz s, mul_valid fl ha s, rfl, rfl⟩
  · intro pow a d gamma h
    exact gammacorrect_valid pow a d gamma h
  · intro pow a gamma ha hsz
    exact ⟨_, gammacorrect_ok pow gamma ha hsz⟩

/-- Witness for C18: the scenario images, both 2 by 2 with four pixels. -/
theorem valid_is_invariant_witness :
    (∃ d, scenarioA.add roundFloat scenarioB = .ok (d, scenarioA, scenarioB) ∧ d.Valid ∧
      d.w = scenarioA.w ∧ d.h = scenarioA.h) ∧
    (∃ d, scenarioA.mul roundFloat 3 = .ok (d, scenarioA) ∧ d.Valid ∧ d.w = scenarioA.w ∧
      d.h = scenarioA.h) ∧
    (∃ d, scenarioA.copy = .ok d ∧ d.Valid ∧ d.w = scenarioA.w ∧ d.h = scenarioA.h) ∧
    (∃ d, Image.gammacorrect powSample scenarioA 2 = .ok d) :=
  ⟨(valid_is_invariant.2.2.2.2.2.1 roundFloat scenarioA scenarioB scenarioA_valid
      (sized_valid 2 2 _) rfl rfl (by decide)).2.2.1,
    valid_is_invariant.2.2.2.2.2.2.1 roundFloat scenarioA 3 scenarioA_valid (by decide),
    valid_is_invariant.2.2.1 scenarioA scenarioA_valid (by decide),
    valid_is_invariant.2.2.2.2.2.2.2.2 powSample scenarioA 2 scenarioA_valid (by decide)⟩

/-- Counterexample to C18 as stated: `Image(65536, 65536)` has width and height
65536 and a buffer of `65536 * 65536 mod 2^32 = 0` pixels, so its buffer length
is not `width * height`; and its copy constructor does not return an image,
the `memcpy` of `12 * 2^32` bytes running beyond the end of both buffers. -/
theorem valid_is_invariant_counterexample :
    squareImage.pixels.length = 0 ∧
    squareImage.w * squareImage.h = 4294967296 ∧
    squareImage.pixels.length ≠ squareImage.w * squareImage.h ∧
    squareImage.copy = .error .outOfBounds := by
  refine ⟨rfl, rfl, by decide, copy_squareImage⟩

/-! ## C19: the encoder never writes 255 -/

theorem channelByte_le (c : ℚ) : channelByte c ≤ 254 := by
  have := Nat.mod_lt (floatToUChar c) (show 255 > 0 by decide)
  simp only [channelByte]
  omega

theorem bytesOfPixels_le (ps : List Image.Rgb) : ∀ b ∈ bytesOfPixels ps, b ≤ 254 := by
  induction ps with
  | nil => intro b hb; simp [bytesOfPixels] at hb
  | cons p ps ih =>
    intro b hb
    simp only [bytesOfPixels, List.mem_cons] at hb
    rcases hb with h | h | h | h
    · rw [h]; exact channelByte_le _
    · rw [h]; exact channelByte_le _
    · rw [h]; exact channelByte_le _
    · exact ih b h

/-- Every byte the passes of the body loop write is at most 254. -/
theorem savePasses_le (n : Nat) : ∀ (ps : List Image.Rgb) (body : List Nat),
    savePasses n ps = .ok body → ∀ b ∈ body, b ≤ 254 := by
  intro ps body h
  rcases Nat.lt_or_ge ps.length n with hlt | hge
  · rw [savePasses_short n ps hlt] at h
    exact absurd h (by simp)
  · rw [savePasses_ok n ps hge] at h
    simp only [Except.ok.injEq] at h
    rw [← h]
    exact bytesOfPixels_le _

/-- C19.  For every non-empty image, whatever `savePPM` writes is the header
followed by body bytes in `0..254`; it does write the body, three bytes for
each pixel, when the buffer holds the pixels the loop reads, at most
`2^31 - 1` of them.  The byte of any channel value is at most 254, and a
channel of exactly 255 is written as 0. -/
theorem savePPM_wraps (img : Image) (hw : 0 < img.w) (hh : 0 < img.h) :
    (∀ out, savePPM img true = .ok out →
      ∃ body, out = ⟨some (ppmHeader img ++ body), none⟩ ∧ ∀ b ∈ body, b ≤ 254) ∧
    (img.size ≤ img.pixels.length → img.size ≤ 2147483647 →
      ∃ body, savePPM img true = .ok ⟨some (ppmHeader img ++ body), none⟩ ∧
        body.length = 3 * img.size ∧ ∀ b ∈ body, b ≤ 254) ∧
    (∀ c : ℚ, channelByte c ≤ 254) ∧ channelByte 255 = 0 := by
  refine ⟨?_, ?_, channelByte_le, by decide⟩
  · intro out h
    have hne : ¬ (img.w = 0 ∨ img.h = 0) := by omega
    simp only [savePPM, hne, if_false, if_true] at h
    cases hl : saveLoop img.size img.pixels with
    | error e => rw [hl] at h; exact absurd h (by simp)
    | ok body =>
      rw [hl] at h
      simp only [Except.ok.injEq] at h
      exact ⟨body, h.symm, savePasses_le _ _ _ (saveLoop_passes _ _ _ hl)⟩
  · intro hbuf hsz
    refine ⟨_, savePPM_ok img hw hh hbuf hsz, ?_, bytesOfPixels_le _⟩
    rw [bytesOfPixels_length, List.length_take, Nat.min_eq_left hbuf]

/-- Witness for C19: the 1 by 1 white image is written with the body 0, 0, 0. -/
theorem savePPM_wraps_witness :
    (∃ body, savePPM ⟨1, 1, [⟨255, 255, 255⟩]⟩ true =
        .ok ⟨some (ppmHeader ⟨1, 1, [⟨255, 255, 255⟩]⟩ ++ body), none⟩ ∧
      body.length = 3 * (⟨1, 1, [⟨255, 255, 255⟩]⟩ : Image).size ∧ (∀ b ∈ body, b ≤ 254)) ∧
    savePPM ⟨1, 1, [⟨255, 255, 255⟩]⟩ true =
      .ok ⟨some (ppmHeader ⟨1, 1, [⟨255, 255, 255⟩]⟩ ++ [0, 0, 0]), none⟩ :=
  ⟨(savePPM_wraps ⟨1, 1, [⟨255, 255, 255⟩]⟩ (by decide) (by decide)).2.1 (by decide)
    (by decide), rfl⟩

/-! ## C20: `Rgb::operator !=` -/

/-- C20.  `a != b` is true exactly when all three channels differ; the pixels
(1,2,3) and (1,5,6) differ and yet `!=` is false for them. -/
theorem rgb_ne_iff (a b : Image.Rgb) :
    (a.ne b = true ↔ (a.r ≠ b.r ∧ a.g ≠ b.g ∧ a.b ≠ b.b)) ∧
    ((⟨1, 2, 3⟩ : Image.Rgb) ≠ ⟨1, 5, 6⟩ ∧
      Image.Rgb.ne ⟨1, 2, 3⟩ ⟨1, 5, 6⟩ = false) := by
  refine ⟨?_, ?_, ?_⟩
  · simp only [Image.Rgb.ne, Bool.and_eq_true, bne_iff_ne, ne_eq, and_assoc]
    constructor
    · rintro ⟨h1, h2, h3⟩
      exact ⟨fun h => h1 h.symm, fun h => h2 h.symm, fun h => h3 h.symm⟩
    · rintro ⟨h1, h2, h3⟩
      exact ⟨fun h => h1 h.symm, fun h => h2 h.symm, fun h => h3 h.symm⟩
  · intro h
    have := congrArg Image.Rgb.g h
    norm_num at this
  · simp [Image.Rgb.ne]

end HW1
